import Mathlib

/-!
# Shannon stream cipher (package `go_shannon`): shallow embedding

The Go sources `shannon.go` and `utils.go` are embedded as Lean functions.

* `uint32` values are natural numbers; a left shift keeps the low 32 bits
  (`% 2 ^ 32`), a shift by 32 or more gives `0`, XOR/OR/AND are the plain
  bitwise operations (closed on 32-bit values).
* `byte` values are natural numbers, a conversion `byte(x)` is `x % 256`.
* `uint` is taken 64 bits wide; subtraction wraps modulo `2 ^ 64`.
* Slices are lists. An index out of range is a Go run-time fault and is
  modelled by `none`; every operation therefore returns an `Option`.
* Operations that mutate a buffer in place return the new buffer content.
-/

namespace GoShannon

/-! ## Machine arithmetic -/

/-- The `uint32` shift `w << k`. -/
def shl32 (w k : Nat) : Nat := if k < 32 then (w <<< k) % 2 ^ 32 else 0

/-- The `uint32` shift `w >> k`. -/
def shr32 (w k : Nat) : Nat := if k < 32 then w >>> k else 0

/-- The `uint` subtraction `a - b`, wrapping modulo `2 ^ 64`. -/
def usub (a b : Nat) : Nat := (a + 2 ^ 64 - b % 2 ^ 64) % 2 ^ 64

/-- The `uint32` addition `a + b`. -/
def add32 (a b : Nat) : Nat := (a + b) % 2 ^ 32

/-- The conversion `byte(x)`. -/
def toByte (x : Nat) : Nat := x % 256

/-- The conversion `uint32(x)` of an integer. -/
def toU32 (x : Nat) : Nat := x % 2 ^ 32

/-- The Go operator `a &^ b` (AND NOT): the bits of `b` are cleared in `a`. -/
def andNot (a b : Nat) : Nat := a ^^^ (a &&& b)

/-- The slice expression `l[i]` as a read: `none` when out of range. -/
def getIdx (l : List Nat) (i : Nat) : Option Nat := l.get? i

/-- The assignment `l[i] = v`: `none` when out of range. -/
def setIdx (l : List Nat) (i v : Nat) : Option (List Nat) :=
  if i < l.length then some (l.set i v) else none

/-- The builtin `copy(dst, src)`: the first `min (len dst) (len src)` elements
of `dst` are replaced by those of `src`. -/
def goCopy (dst src : List Nat) : List Nat :=
  src.take (min dst.length src.length) ++ dst.drop (min dst.length src.length)

/-! ## utils.go -/

/-- Loop of `chunkBytes`: `s` is the loop variable, the first argument bounds
the number of iterations (`none` when it is exhausted). -/
def chunkLoop (data : List Nat) (size : Nat) : Nat → Nat → Option (List (List Nat))
  | 0, s => if s < data.length then none else some []
  | fuel + 1, s =>
    if s < data.length then
      let e := if s + size > data.length then data.length else s + size
      (chunkLoop data size fuel (s + size)).map (fun res => (data.drop s).take (e - s) :: res)
    else some []

/-- Go `chunkBytes(data, size)`; with `size = 0` and non-empty data the Go
loop does not terminate, which is `none` here. -/
def chunkBytes (data : List Nat) (size : Nat) : Option (List (List Nat)) :=
  chunkLoop data size data.length 0

/-- Go `readLittleEndian(data)`. -/
def readLittleEndian (data : List Nat) : Option Nat := do
  let result := 0
  let d3 ← getIdx data 3
  let result := result ||| d3
  let result := shl32 result 8
  let d2 ← getIdx data 2
  let result := result ||| d2
  let result := shl32 result 8
  let d1 ← getIdx data 1
  let result := result ||| d1
  let result := shl32 result 8
  let d0 ← getIdx data 0
  let result := result ||| d0
  some result

/-- Go `writeLittleEndian(result, data)`; returns the new content of `result`. -/
def writeLittleEndian (result : List Nat) (data : Nat) : Option (List Nat) := do
  let result ← setIdx result 0 (toByte (data &&& 0xFF))
  let data := shr32 data 8
  let result ← setIdx result 1 (toByte (data &&& 0xFF))
  let data := shr32 data 8
  let result ← setIdx result 2 (toByte (data &&& 0xFF))
  let data := shr32 data 8
  let result ← setIdx result 3 (toByte (data &&& 0xFF))
  some result

/-- Go `writeBigEndian(result, data)`; returns the new content of `result`. -/
def writeBigEndian (result : List Nat) (data : Nat) : Option (List Nat) := do
  let result ← setIdx result 3 (toByte (data &&& 0xFF))
  let data := shr32 data 8
  let result ← setIdx result 2 (toByte (data &&& 0xFF))
  let data := shr32 data 8
  let result ← setIdx result 1 (toByte (data &&& 0xFF))
  let data := shr32 data 8
  let result ← setIdx result 0 (toByte (data &&& 0xFF))
  some result

/-! ## shannon.go: constants and mixing functions -/

def n : Nat := 16
def fold : Nat := n
def initKonst : Nat := 0x6996c53a
def keyp : Nat := 13

/-- Go `sbox1`. -/
def sbox1 (w : Nat) : Nat :=
  let w := w ^^^ ((shl32 w 5 ||| shr32 w (32 - 5)) ||| (shl32 w 7 ||| shr32 w (32 - 7)))
  let w := w ^^^ ((shl32 w 19 ||| shr32 w (32 - 19)) ||| (shl32 w 22 ||| shr32 w (32 - 22)))
  w

/-- Go `sbox2`. -/
def sbox2 (w : Nat) : Nat :=
  let w := w ^^^ ((shl32 w 7 ||| shr32 w (32 - 7)) ||| (shl32 w 22 ||| shr32 w (32 - 22)))
  let w := w ^^^ ((shl32 w 5 ||| shr32 w (32 - 5)) ||| (shl32 w 19 ||| shr32 w (32 - 19)))
  w

/-- Go `rotl`. -/
def rotl (w x : Nat) : Nat := (shl32 w x) ||| (shr32 w (usub 32 x))

/-! ## The engine state -/

/-- Go `struct Shannon`. -/
structure Shannon where
  r : List Nat
  crc : List Nat
  initR : List Nat
  konst : Nat
  sbuf : Nat
  mbuf : Nat
  nbuf : Nat
  deriving DecidableEq, Repr

/-- Go `saveState`. -/
def saveState (s : Shannon) : Shannon := { s with initR := goCopy s.initR s.r }

/-- Go `genKonst`. -/
def genKonst (s : Shannon) : Option Shannon := do
  let r0 ← getIdx s.r 0
  some { s with konst := r0 }

/-- Go `reloadState`. -/
def reloadState (s : Shannon) : Shannon := { s with r := goCopy s.r s.initR }

/-- The loop `for i := 1; i < n; i++ { a[i-1] = a[i] }` used by `cycle` and
`crcFunc`, started at `i`; the first argument is the number of iterations left. -/
def shiftLoop : Nat → Nat → List Nat → Option (List Nat)
  | 0, _, a => some a
  | k + 1, i, a => do
    let x ← getIdx a i
    let a ← setIdx a (i - 1) x
    shiftLoop k (i + 1) a

/-- Go `cycle`. -/
def cycle (s : Shannon) : Option Shannon := do
  -- nonlinear feedback function
  let r12 ← getIdx s.r 12
  let r13 ← getIdx s.r 13
  let t := r12 ^^^ r13 ^^^ s.konst
  let r0 ← getIdx s.r 0
  let t := sbox1 t ^^^ rotl r0 1
  -- shift register
  let r ← shiftLoop (n - 1) 1 s.r
  let r ← setIdx r (n - 1) t
  let r2 ← getIdx r 2
  let r15 ← getIdx r 15
  let t := sbox2 (r2 ^^^ r15)
  let r0 ← getIdx r 0
  let r ← setIdx r 0 (r0 ^^^ t)
  let r8 ← getIdx r 8
  let r12 ← getIdx r 12
  some { s with r := r, sbuf := t ^^^ r8 ^^^ r12 }

/-- Go `diffuse`: `fold` consecutive cycles. -/
def cycles : Nat → Shannon → Option Shannon
  | 0, s => some s
  | k + 1, s => do
    let s ← cycle s
    cycles k s

/-- Go `diffuse`. -/
def diffuse (s : Shannon) : Option Shannon := cycles fold s

/-- The loop `for i := i0; i < 16; i++ { r[i] ^= crc[i] }` of `loadKey` and
`Finish`; the first argument is the number of iterations left. -/
def xorLoop : Nat → Nat → List Nat → List Nat → Option (List Nat)
  | 0, _, r, _ => some r
  | k + 1, i, r, crc => do
    let ri ← getIdx r i
    let ci ← getIdx crc i
    let r ← setIdx r i (ri ^^^ ci)
    xorLoop k (i + 1) r crc

/-- Go `crcFunc`. -/
def crcFunc (s : Shannon) (i : Nat) : Option Shannon := do
  let c0 ← getIdx s.crc 0
  let c2 ← getIdx s.crc 2
  let c15 ← getIdx s.crc 15
  let t := c0 ^^^ c2 ^^^ c15 ^^^ i
  let crc ← shiftLoop (n - 1) 1 s.crc
  let crc ← setIdx crc (n - 1) t
  some { s with crc := crc }

/-- The statement `r[keyp] ^= v`. -/
def xorKeyp (s : Shannon) (v : Nat) : Option Shannon := do
  let x ← getIdx s.r keyp
  let r ← setIdx s.r keyp (x ^^^ v)
  some { s with r := r }

/-- Go `macFunc`. -/
def macFunc (s : Shannon) (i : Nat) : Option Shannon := do
  let s ← crcFunc s i
  xorKeyp s i

/-- The loop `for i := i0; i < len(word); i++ { xtra[i] = word[i] }` of
`loadKey`; the first argument is the number of iterations left. -/
def padLoop : Nat → Nat → List Nat → List Nat → Option (List Nat)
  | 0, _, _, xtra => some xtra
  | k + 1, i, word, xtra => do
    let w ← getIdx word i
    let xtra ← setIdx xtra i w
    padLoop k (i + 1) word xtra

/-- Body of the key folding loop of `loadKey`, over the chunks of the key. -/
def loadWords : Shannon → List (List Nat) → Option Shannon
  | s, [] => some s
  | s, word :: rest => do
    let v ←
      if word.length = 4 then readLittleEndian word
      else do
        -- if there were any extra key bytes, zero pad to a word
        let xtra ← padLoop word.length 0 word (List.replicate 4 0)
        readLittleEndian xtra
    let s ← xorKeyp s v
    let s ← cycle s
    loadWords s rest

/-- Go `loadKey`. -/
def loadKey (s : Shannon) (key : List Nat) : Option Shannon := do
  -- start folding in key
  let chunks ← chunkBytes key 4
  let s ← loadWords s chunks
  -- also fold in the length of the key
  let s ← xorKeyp s (toU32 key.length)
  let s ← cycle s
  -- save a copy of the register
  let s := { s with crc := goCopy s.crc s.r }
  -- now diffuse
  let s ← diffuse s
  -- now xor the copy back
  let r ← xorLoop 16 0 s.r s.crc
  some { s with r := r }

/-- The loop `for i := i0; i < n; i++ { r[i] = r[i-1] + r[i-2] }` of
`ShannonNew`; the first argument is the number of iterations left. -/
def fibLoop : Nat → Nat → List Nat → Option (List Nat)
  | 0, _, r => some r
  | k + 1, i, r => do
    let a ← getIdx r (i - 1)
    let b ← getIdx r (i - 2)
    let r ← setIdx r i (add32 a b)
    fibLoop k (i + 1) r

/-- Go `ShannonNew`. -/
def ShannonNew (key : List Nat) : Option Shannon := do
  let result : Shannon :=
    { r := List.replicate n 0, crc := List.replicate n 0, initR := List.replicate n 0,
      konst := initKonst, sbuf := 0, mbuf := 0, nbuf := 0 }
  let r ← setIdx result.r 0 1
  let r ← setIdx r 1 1
  let r ← fibLoop (n - 2) 2 r
  let result := { result with r := r }
  let result ← loadKey result key
  let result ← genKonst result
  some (saveState result)

/-- Go `Nonce`. -/
def Nonce (s : Shannon) (nonce : List Nat) : Option Shannon := do
  let s := reloadState s
  let s := { s with konst := initKonst }
  let s ← loadKey s nonce
  let s ← genKonst s
  some { s with nbuf := 0 }

/-- First loop of `process` ("handle any previously buffered bytes"), run on
the not yet visited part `buf[i:]` of the buffer. The result holds the new
content of `buf[i:]` and the flag `true` when the loop left `process` through
`return` ("not a whole word yet"). -/
def pendingLoop (byteCb : Shannon → Nat → Shannon × Nat) :
    Shannon → List Nat → Option (Shannon × List Nat × Bool)
  | s, [] => if s.nbuf > 0 then some (s, [], true) else some (s, [], false)
  | s, b :: bs =>
    if s.nbuf > 0 then do
      let (s, b) := byteCb s b
      let s := { s with nbuf := usub s.nbuf 8 }
      -- LFSR already cycled
      let m := s.mbuf
      let s ← macFunc s m
      let (s, bs, ret) ← pendingLoop byteCb s bs
      some (s, b :: bs, ret)
    else some (s, b :: bs, false)

/-- Second loop of `process` ("handle whole words"), over the chunks of `wbuf`;
returns the new content of `wbuf`. -/
def wordsLoop (wordCb : Shannon → Nat → Option (Shannon × Nat)) :
    Shannon → List (List Nat) → Option (Shannon × List Nat)
  | s, [] => some (s, [])
  | s, word :: rest => do
    let s ← cycle s
    let t ← readLittleEndian word
    let (s, t) ← wordCb s t
    let word ← writeLittleEndian word t
    let (s, out) ← wordsLoop wordCb s rest
    some (s, word ++ out)

/-- Third loop of `process` ("handle any trailing bytes"), over `extra`;
returns the new content of `extra`. -/
def extraLoop (byteCb : Shannon → Nat → Shannon × Nat) :
    Shannon → List Nat → Shannon × List Nat
  | s, [] => (s, [])
  | s, b :: bs =>
    let (s, b) := byteCb s b
    let s := { s with nbuf := usub s.nbuf 8 }
    let (s, bs) := extraLoop byteCb s bs
    (s, b :: bs)

/-- Go `process`; returns the new engine state and the new buffer content. -/
def process (s : Shannon) (buf : List Nat)
    (wordCb : Shannon → Nat → Option (Shannon × Nat))
    (byteCb : Shannon → Nat → Shannon × Nat) : Option (Shannon × List Nat) := do
  -- handle any previously buffered bytes
  let (s, buf, ret) ←
    if s.nbuf ≠ 0 then pendingLoop byteCb s buf else some (s, buf, false)
  if ret then some (s, buf)
  else do
    -- handle whole words
    let length := andNot buf.length 0x3
    let wbuf := buf.take length
    let extra := buf.drop length
    let chunks ← chunkBytes wbuf 4
    let (s, wbuf) ← wordsLoop wordCb s chunks
    -- handle any trailing bytes
    if extra.length > 0 then do
      let s ← cycle s
      let s := { s with mbuf := 0 }
      let s := { s with nbuf := 32 }
      let (s, extra) := extraLoop byteCb s extra
      some (s, wbuf ++ extra)
    else some (s, wbuf ++ extra)

/-- Word callback of `Encrypt`. -/
def encryptWord (ctx : Shannon) (word : Nat) : Option (Shannon × Nat) := do
  let ctx ← macFunc ctx word
  some (ctx, word ^^^ ctx.sbuf)

/-- Byte callback of `Encrypt`. -/
def encryptByte (ctx : Shannon) (b : Nat) : Shannon × Nat :=
  let ctx := { ctx with mbuf := ctx.mbuf ^^^ shl32 b (usub 32 ctx.nbuf) }
  (ctx, b ^^^ toByte (shr32 ctx.sbuf (usub 32 ctx.nbuf) &&& 0xFF))

/-- Word callback of `Decrypt`. -/
def decryptWord (ctx : Shannon) (word : Nat) : Option (Shannon × Nat) := do
  let word := word ^^^ ctx.sbuf
  let ctx ← macFunc ctx word
  some (ctx, word)

/-- Byte callback of `Decrypt`. -/
def decryptByte (ctx : Shannon) (b : Nat) : Shannon × Nat :=
  let b := b ^^^ toByte (shr32 ctx.sbuf (usub 32 ctx.nbuf) &&& 0xFF)
  let ctx := { ctx with mbuf := ctx.mbuf ^^^ shl32 b (usub 32 ctx.nbuf) }
  (ctx, b)

/-- Go `Encrypt`. -/
def Encrypt (s : Shannon) (buf : List Nat) : Option (Shannon × List Nat) :=
  process s buf encryptWord encryptByte

/-- Go `Decrypt`. -/
def Decrypt (s : Shannon) (buf : List Nat) : Option (Shannon × List Nat) :=
  process s buf decryptWord decryptByte

/-- The loop `for i := range word { word[i] = byte((sbuf >> (8 * uint(i))) & 0xFF) }`
of `Finish`, started at `i`; the first argument is the number of iterations left. -/
def tailLoop : Nat → Nat → Nat → List Nat → Option (List Nat)
  | 0, _, _, word => some word
  | k + 1, i, sbuf, word => do
    let word ← setIdx word i (toByte (shr32 sbuf (8 * i) &&& 0xFF))
    tailLoop k (i + 1) sbuf word

/-- Output loop of `Finish` ("produce output from the stream buffer"), over the
chunks of `buf`; returns the new content of `buf`. -/
def finishWords : Shannon → List (List Nat) → Option (Shannon × List Nat)
  | s, [] => some (s, [])
  | s, word :: rest => do
    let s ← cycle s
    let word ←
      if word.length = 4 then writeLittleEndian word s.sbuf
      else tailLoop word.length 0 s.sbuf word
    let (s, out) ← finishWords s rest
    some (s, word ++ out)

/-- Go `Finish`; returns the new engine state and the new buffer content. -/
def Finish (s : Shannon) (buf : List Nat) : Option (Shannon × List Nat) := do
  -- handle any previously buffered bytes
  let s ← if s.nbuf ≠ 0 then macFunc s s.mbuf else some s
  -- perturb the MAC to mark end of input
  let s ← cycle s
  let s ← xorKeyp s (initKonst ^^^ shl32 (toU32 s.nbuf) 3)
  let s := { s with nbuf := 0 }
  -- now add the CRC to the stream register and diffuse it
  let r ← xorLoop n 0 s.r s.crc
  let s := { s with r := r }
  let s ← diffuse s
  -- produce output from the stream buffer
  let chunks ← chunkBytes buf 4
  finishWords s chunks

/-- Go `NonceU32`. -/
def NonceU32 (s : Shannon) (v : Nat) : Option Shannon := do
  let nonce ← writeBigEndian (List.replicate 4 0) v
  Nonce s nonce

/-- Go standard library `bytes.Compare`: lexicographic order of two byte
slices, `-1`, `0` or `1`. -/
def bytesCompare : List Nat → List Nat → Int
  | [], [] => 0
  | [], _ :: _ => -1
  | _ :: _, [] => 1
  | a :: as, b :: bs =>
    if a < b then -1 else if b < a then 1 else bytesCompare as bs

/-- The error value `errors.New("MAC mismatch")`. -/
def macMismatch : String := "MAC mismatch"

/-- Go `CheckMac`; the error result is `none` for `nil`. -/
def CheckMac (s : Shannon) (expected : List Nat) : Option (Shannon × Option String) := do
  let actual := List.replicate expected.length 0
  let (s, actual) ← Finish s actual
  if bytesCompare actual expected ≠ 0 then some (s, some macMismatch)
  else some (s, none)

/-! ## Closed forms of the register steps and state predicates -/

/-- Register written by `cycle` from a register `r` and constant `konst`. -/
def cycleReg (konst : Nat) (r : List Nat) : List Nat :=
  let t := sbox1 (r.getD 12 0 ^^^ r.getD 13 0 ^^^ konst) ^^^ rotl (r.getD 0 0) 1
  let r1 := r.tail ++ [t]
  let t2 := sbox2 (r1.getD 2 0 ^^^ r1.getD 15 0)
  r1.set 0 (r1.getD 0 0 ^^^ t2)

/-- Keystream word written by `cycle` from a register `r` and constant `konst`. -/
def cycleOut (konst : Nat) (r : List Nat) : Nat :=
  let t := sbox1 (r.getD 12 0 ^^^ r.getD 13 0 ^^^ konst) ^^^ rotl (r.getD 0 0) 1
  let r1 := r.tail ++ [t]
  let t2 := sbox2 (r1.getD 2 0 ^^^ r1.getD 15 0)
  let r2 := r1.set 0 (r1.getD 0 0 ^^^ t2)
  t2 ^^^ r2.getD 8 0 ^^^ r2.getD 12 0

/-- State after `cycle` when the register has 16 words. -/
def cycleT (s : Shannon) : Shannon :=
  { s with r := cycleReg s.konst s.r, sbuf := cycleOut s.konst s.r }

/-- Accumulator written by `crcFunc`. -/
def crcReg (crc : List Nat) (i : Nat) : List Nat :=
  crc.tail ++ [crc.getD 0 0 ^^^ crc.getD 2 0 ^^^ crc.getD 15 0 ^^^ i]

/-- State after `r[keyp] ^= v` when the register has 16 words. -/
def xorKeypT (s : Shannon) (v : Nat) : Shannon :=
  { s with r := s.r.set keyp (s.r.getD keyp 0 ^^^ v) }

/-- State after `macFunc` when register and accumulator have 16 words. -/
def macT (s : Shannon) (i : Nat) : Shannon :=
  xorKeypT { s with crc := crcReg s.crc i } i

/-- Every element is a byte value. -/
def IsBytes (l : List Nat) : Prop := ∀ b ∈ l, b < 256

instance (l : List Nat) : Decidable (IsBytes l) := by
  unfold IsBytes; infer_instance

/-- Every element is a 32-bit value. -/
def IsWords (l : List Nat) : Prop := ∀ w ∈ l, w < 2 ^ 32

instance (l : List Nat) : Decidable (IsWords l) := by
  unfold IsWords; infer_instance

/-- The fields hold values of their Go types (`uint32` words, `uint` counter). -/
def WF (s : Shannon) : Prop :=
  IsWords s.r ∧ IsWords s.crc ∧ IsWords s.initR ∧
    s.konst < 2 ^ 32 ∧ s.sbuf < 2 ^ 32 ∧ s.mbuf < 2 ^ 32 ∧ s.nbuf < 2 ^ 64

instance (s : Shannon) : Decidable (WF s) := by
  unfold WF; infer_instance

/-- The three registers hold 16 words each. -/
def Len16 (s : Shannon) : Prop :=
  s.r.length = 16 ∧ s.crc.length = 16 ∧ s.initR.length = 16

instance (s : Shannon) : Decidable (Len16 s) := by
  unfold Len16; infer_instance

/-- State invariant: 16-word registers, `nbuf` a multiple of 8 not exceeding 32. -/
def Inv (s : Shannon) : Prop :=
  Len16 s ∧ s.nbuf % 8 = 0 ∧ s.nbuf ≤ 32

instance (s : Shannon) : Decidable (Inv s) := by
  unfold Inv; infer_instance

/-- Closed form of `chunkBytes data 4`: groups of four, then the rest. -/
def chunks4 : List Nat → List (List Nat)
  | [] => []
  | [a] => [[a]]
  | [a, b] => [[a, b]]
  | [a, b, c] => [[a, b, c]]
  | a :: b :: c :: d :: rest => [a, b, c, d] :: chunks4 rest

/-- Value read by `readLittleEndian` from the bytes `a, b, c, d`. -/
def leWord (a b c d : Nat) : Nat :=
  shl32 (shl32 (shl32 (0 ||| d) 8 ||| c) 8 ||| b) 8 ||| a

/-- Bytes written by `writeLittleEndian` for the word `w`. -/
def leBytes (w : Nat) : List Nat :=
  [toByte (w &&& 0xFF), toByte (shr32 w 8 &&& 0xFF), toByte (shr32 (shr32 w 8) 8 &&& 0xFF),
    toByte (shr32 (shr32 (shr32 w 8) 8) 8 &&& 0xFF)]

/-- State after `k` successive `cycle` calls on 16-word registers. -/
def cyclesT : Nat → Shannon → Shannon
  | 0, s => s
  | k + 1, s => cyclesT k (cycleT s)

/-- Word folded in by `loadKey` for a chunk of one to four key bytes (zero
padded on the right). -/
def padWord (word : List Nat) : Nat :=
  leWord (word.getD 0 0) (word.getD 1 0) (word.getD 2 0) (word.getD 3 0)

/-- State after the key folding loop of `loadKey` on 16-word registers. -/
def loadWordsT : Shannon → List (List Nat) → Shannon
  | s, [] => s
  | s, word :: rest => loadWordsT (cycleT (xorKeypT s (padWord word))) rest

/-- Register of `loadKey` right after the key and its length are folded in. -/
def loadFoldT (s : Shannon) (key : List Nat) : Shannon :=
  cycleT (xorKeypT (loadWordsT s (chunks4 key)) (toU32 key.length))

/-- Element-wise XOR of two registers. -/
def xorRegs (r crc : List Nat) : List Nat := List.zipWith (fun x y => x ^^^ y) r crc

/-- State of `loadKey` after the register is copied into `crc`. -/
def loadSnap (s : Shannon) (key : List Nat) : Shannon :=
  { loadFoldT s key with crc := (loadFoldT s key).r }

/-- State after `loadKey` on 16-word registers. -/
def loadKeyT (s : Shannon) (key : List Nat) : Shannon :=
  { cyclesT 16 (loadSnap s key) with
    r := xorRegs (cyclesT 16 (loadSnap s key)).r (cyclesT 16 (loadSnap s key)).crc }

/-- State of `Nonce` after `reloadState` and the reset of `konst`. -/
def nonceBase (s : Shannon) : Shannon := { s with r := s.initR, konst := initKonst }

/-- State after `Nonce` on 16-word registers. -/
def NonceT (s : Shannon) (nonce : List Nat) : Shannon :=
  { loadKeyT (nonceBase s) nonce with
    konst := (loadKeyT (nonceBase s) nonce).r.getD 0 0, nbuf := 0 }

/-- The register seeded by `ShannonNew` before key loading. -/
def seedReg : List Nat := [1, 1, 2, 3, 5, 8, 13, 21, 34, 55, 89, 144, 233, 377, 610, 987]

/-- The state of `ShannonNew` before key loading. -/
def seedState : Shannon :=
  { r := seedReg, crc := List.replicate 16 0, initR := List.replicate 16 0,
    konst := initKonst, sbuf := 0, mbuf := 0, nbuf := 0 }

/-- State built by `ShannonNew`. -/
def ShannonNewT (key : List Nat) : Shannon :=
  { loadKeyT seedState key with
    konst := (loadKeyT seedState key).r.getD 0 0, initR := (loadKeyT seedState key).r }

/-- State of `Finish` after a buffered partial word is folded in. -/
def finishFold (s : Shannon) : Shannon := if s.nbuf ≠ 0 then macT s s.mbuf else s

/-- State of `Finish` after the end-of-input perturbation. -/
def finishMark (s : Shannon) : Shannon :=
  { xorKeypT (cycleT (finishFold s))
      (initKonst ^^^ shl32 (toU32 (cycleT (finishFold s)).nbuf) 3) with nbuf := 0 }

/-- State of `Finish` after the accumulator is added to the register. -/
def finishAdd (s : Shannon) : Shannon :=
  { finishMark s with r := xorRegs (finishMark s).r (finishMark s).crc }

/-- State of `Finish` on 16-word registers after the finalization steps,
before any output is produced. -/
def finishPreT (s : Shannon) : Shannon := cyclesT 16 (finishAdd s)

/-- State and output of the output loop of `Finish` on 16-word registers. -/
def finishWordsT : Shannon → List (List Nat) → Shannon × List Nat
  | s, [] => (s, [])
  | s, word :: rest =>
    ((finishWordsT (cycleT s) rest).1,
      (leBytes (cycleT s).sbuf).take word.length ++ (finishWordsT (cycleT s) rest).2)

/-- State and tag of `Finish` on 16-word registers. -/
def FinishT (s : Shannon) (buf : List Nat) : Shannon × List Nat :=
  finishWordsT (finishPreT s) (chunks4 buf)

/-- Keystream words of `k` successive cycles on 16-word registers. -/
def streamT : Nat → Shannon → List Nat
  | 0, _ => []
  | k + 1, s => (cycleT s).sbuf :: streamT k (cycleT s)

/-- Stated from the specification of `finalize`, steps 1 to 3: fold in a
pending partial word, perturb the register, add the accumulator and diffuse. -/
def specFinalization (s : Shannon) : Option Shannon :=
  (if s.nbuf ≠ 0 then macFunc s s.mbuf else some s).bind (fun s1 =>
    (cycle s1).bind (fun s2 =>
      (xorKeyp s2 (initKonst ^^^ shl32 (toU32 s2.nbuf) 3)).bind (fun s3 =>
        (xorLoop n 0 s3.r s3.crc).bind (fun r =>
          diffuse { { s3 with nbuf := 0 } with r := r }))))

/-- Stated from the specification: the `stream_buf` words of `k` successive cycles. -/
def specStreamWords : Nat → Shannon → Option (List Nat)
  | 0, _ => some []
  | k + 1, s => do
    let s ← cycle s
    let rest ← specStreamWords k s
    some (s.sbuf :: rest)

/-- Stated from the specification: little-endian serialisation of a 32-bit word. -/
def specLE (w : Nat) : List Nat :=
  [w % 256, w / 256 % 256, w / 65536 % 256, w / 16777216 % 256]

/-- A byte callback of `process` that only writes `mbuf`. -/
def ByteFrame (bcb : Shannon → Nat → Shannon × Nat) : Prop :=
  ∀ s b, (bcb s b).1.r = s.r ∧ (bcb s b).1.crc = s.crc ∧ (bcb s b).1.initR = s.initR ∧
    (bcb s b).1.nbuf = s.nbuf

/-- A word callback of `process` that returns on 16-word registers, keeps them
16 words long and leaves `nbuf` and `initR` alone. -/
def WordFrame (wcb : Shannon → Nat → Option (Shannon × Nat)) : Prop :=
  ∀ s t, Len16 s → ∃ s' t', wcb s t = some (s', t') ∧ Len16 s' ∧ s'.nbuf = s.nbuf ∧
    s'.initR = s.initR

/-! ## Usage scenarios of the claims -/

/-- A fresh engine keyed `K`/`N`: `ShannonNew(K)` followed by `Nonce(N)`. -/
def freshEngine (K N : List Nat) : Option Shannon :=
  (ShannonNew K).bind (fun e => Nonce e N)

/-- Successive `Encrypt` calls on one engine, one call per chunk; returns the
final state and the concatenated ciphertext. -/
def encryptChunks : Shannon → List (List Nat) → Option (Shannon × List Nat)
  | s, [] => some (s, [])
  | s, c :: cs =>
    (Encrypt s c).bind (fun p =>
      (encryptChunks p.1 cs).bind (fun q => some (q.1, p.2 ++ q.2)))

/-- Sender: encrypt the chunks, then `Finish` into a buffer of `n` bytes;
returns ciphertext and tag. -/
def sealChunks (s : Shannon) (chunks : List (List Nat)) (n : Nat) :
    Option (List Nat × List Nat) :=
  (encryptChunks s chunks).bind (fun p =>
    (Finish p.1 (List.replicate n 0)).bind (fun q => some (p.2, q.2)))

/-- Receiver: `Decrypt` the ciphertext in one call, then `CheckMac` the tag;
returns the recovered bytes and the error result. -/
def openMsg (s : Shannon) (C T : List Nat) : Option (List Nat × Option String) :=
  (Decrypt s C).bind (fun p => (CheckMac p.1 T).bind (fun q => some (p.2, q.2)))

/-- The byte sequence `C` with bit `i` flipped (bit `i % 8` of byte `i / 8`). -/
def flipBit (C : List Nat) (i : Nat) : List Nat :=
  C.set (i / 8) (C.getD (i / 8) 0 ^^^ 2 ^ (i % 8))

/-! ## Package `shannon` (`src/src/shannon/shannon.go`): the mixing functions -/

/-- The `uint32` subtraction `a - b`, wrapping modulo `2 ^ 32`. -/
def sub32 (a b : Nat) : Nat := (a + 2 ^ 32 - b % 2 ^ 32) % 2 ^ 32

namespace Sibling

/-- Go `sbox1` of package `shannon`. Shifts bind tighter than `|` and `-`,
which have the same precedence and associate to the left, so
`w<<5 | w>>32 - 5 | (w<<7 | w>>32 - 7)` is
`((w<<5 | w>>32) - 5) | ((w<<7 | w>>32) - 7)`. -/
def sbox1 (w : Nat) : Nat :=
  let w := w ^^^ (sub32 (shl32 w 5 ||| shr32 w 32) 5 ||| (sub32 (shl32 w 7 ||| shr32 w 32) 7))
  let w := w ^^^ (sub32 (shl32 w 19 ||| shr32 w 32) 19 ||| (sub32 (shl32 w 22 ||| shr32 w 32) 22))
  w

/-- Go `sbox2` of package `shannon`, parsed like `sbox1`. -/
def sbox2 (w : Nat) : Nat :=
  let w := w ^^^ (sub32 (shl32 w 7 ||| shr32 w 32) 7 ||| (sub32 (shl32 w 22 ||| shr32 w 32) 22))
  let w := w ^^^ (sub32 (shl32 w 5 ||| shr32 w 32) 5 ||| (sub32 (shl32 w 19 ||| shr32 w 32) 19))
  w

end Sibling

/-- Closed form of `chunkBytes data size` for `size ≥ 1`: the first argument
bounds the number of chunks. -/
def chunkList (size : Nat) : Nat → List Nat → List (List Nat)
  | 0, _ => []
  | _ + 1, [] => []
  | fuel + 1, x :: xs => (x :: xs).take size :: chunkList size fuel ((x :: xs).drop size)

/-! ## Key loading as the specification words it -/

/-- Stated from the specification: the little-endian value of the `i`-th 4-byte
group of `material`, bytes past the end counting as zero. -/
def specKeyWord (material : List Nat) (i : Nat) : Nat :=
  material.getD (4 * i) 0 + 256 * material.getD (4 * i + 1) 0 +
    65536 * material.getD (4 * i + 2) 0 + 16777216 * material.getD (4 * i + 3) 0

/-- Stated from the specification: the words of `material`, one per 4-byte
group, the last group zero-padded on the right. -/
def specKeyWords (material : List Nat) : List Nat :=
  (List.range ((material.length + 3) / 4)).map (specKeyWord material)

/-- Stated from the specification: for each word, XOR it into `register[13]`,
then run one cycle. -/
def specFoldWords : Shannon → List Nat → Option Shannon
  | s, [] => some s
  | s, v :: vs => (xorKeyp s v).bind (fun s1 => (cycle s1).bind (fun s2 => specFoldWords s2 vs))

/-- Stated from the specification: the state once the words of `material` and
then its byte length (as a 32-bit word) are folded in. -/
def specKeyFolded (s : Shannon) (material : List Nat) : Option Shannon :=
  (specFoldWords s (specKeyWords material)).bind (fun s1 =>
    (xorKeyp s1 (material.length % 2 ^ 32)).bind cycle)

/-! # Proofs -/

/-! ## Machine arithmetic lemmas -/

theorem shl32_lt (w k : Nat) : shl32 w k < 2 ^ 32 := by
  unfold shl32
  split
  · exact Nat.mod_lt _ (by norm_num)
  · norm_num

theorem shr32_lt {w : Nat} (k : Nat) (h : w < 2 ^ 32) : shr32 w k < 2 ^ 32 := by
  unfold shr32
  split
  · rw [Nat.shiftRight_eq_div_pow]
    exact lt_of_le_of_lt (Nat.div_le_self _ _) h
  · norm_num

theorem rotl_lt {w : Nat} (x : Nat) (h : w < 2 ^ 32) : rotl w x < 2 ^ 32 :=
  Nat.or_lt_two_pow (shl32_lt _ _) (shr32_lt _ h)

theorem sbox1_lt {w : Nat} (h : w < 2 ^ 32) : sbox1 w < 2 ^ 32 := by
  unfold sbox1
  have h1 : w ^^^ ((shl32 w 5 ||| shr32 w (32 - 5)) ||| (shl32 w 7 ||| shr32 w (32 - 7))) < 2 ^ 32 :=
    Nat.xor_lt_two_pow h (Nat.or_lt_two_pow (Nat.or_lt_two_pow (shl32_lt _ _) (shr32_lt _ h))
      (Nat.or_lt_two_pow (shl32_lt _ _) (shr32_lt _ h)))
  exact Nat.xor_lt_two_pow h1 (Nat.or_lt_two_pow (Nat.or_lt_two_pow (shl32_lt _ _) (shr32_lt _ h1))
      (Nat.or_lt_two_pow (shl32_lt _ _) (shr32_lt _ h1)))

theorem sbox2_lt {w : Nat} (h : w < 2 ^ 32) : sbox2 w < 2 ^ 32 := by
  unfold sbox2
  have h1 : w ^^^ ((shl32 w 7 ||| shr32 w (32 - 7)) ||| (shl32 w 22 ||| shr32 w (32 - 22))) < 2 ^ 32 :=
    Nat.xor_lt_two_pow h (Nat.or_lt_two_pow (Nat.or_lt_two_pow (shl32_lt _ _) (shr32_lt _ h))
      (Nat.or_lt_two_pow (shl32_lt _ _) (shr32_lt _ h)))
  exact Nat.xor_lt_two_pow h1 (Nat.or_lt_two_pow (Nat.or_lt_two_pow (shl32_lt _ _) (shr32_lt _ h1))
      (Nat.or_lt_two_pow (shl32_lt _ _) (shr32_lt _ h1)))

/-! ## Lists of 16 words -/

theorem length_succ_split {l : List Nat} {k : Nat} (h : l.length = k + 1) :
    ∃ a t, l = a :: t ∧ t.length = k := by
  cases l with
  | nil => simp at h
  | cons a t => exact ⟨a, t, rfl, by simpa using h⟩

theorem list16 {l : List Nat} (h : l.length = 16) :
    ∃ a0 a1 a2 a3 a4 a5 a6 a7 a8 a9 a10 a11 a12 a13 a14 a15,
      l = [a0, a1, a2, a3, a4, a5, a6, a7, a8, a9, a10, a11, a12, a13, a14, a15] := by
  obtain ⟨a0, l0, rfl, h0⟩ := length_succ_split h
  obtain ⟨a1, l1, rfl, h1⟩ := length_succ_split h0
  obtain ⟨a2, l2, rfl, h2⟩ := length_succ_split h1
  obtain ⟨a3, l3, rfl, h3⟩ := length_succ_split h2
  obtain ⟨a4, l4, rfl, h4⟩ := length_succ_split h3
  obtain ⟨a5, l5, rfl, h5⟩ := length_succ_split h4
  obtain ⟨a6, l6, rfl, h6⟩ := length_succ_split h5
  obtain ⟨a7, l7, rfl, h7⟩ := length_succ_split h6
  obtain ⟨a8, l8, rfl, h8⟩ := length_succ_split h7
  obtain ⟨a9, l9, rfl, h9⟩ := length_succ_split h8
  obtain ⟨a10, l10, rfl, h10⟩ := length_succ_split h9
  obtain ⟨a11, l11, rfl, h11⟩ := length_succ_split h10
  obtain ⟨a12, l12, rfl, h12⟩ := length_succ_split h11
  obtain ⟨a13, l13, rfl, h13⟩ := length_succ_split h12
  obtain ⟨a14, l14, rfl, h14⟩ := length_succ_split h13
  obtain ⟨a15, l15, rfl, h15⟩ := length_succ_split h14
  have : l15 = [] := List.length_eq_zero.mp h15
  subst this
  exact ⟨a0, a1, a2, a3, a4, a5, a6, a7, a8, a9, a10, a11, a12, a13, a14, a15, rfl⟩

theorem getIdx_of_lt {l : List Nat} {i : Nat} (h : i < l.length) : getIdx l i = some (l.getD i 0) := by
  unfold getIdx
  rw [List.get?_eq_getElem?, List.getD_eq_getElem?_getD, List.getElem?_eq_getElem h]
  rfl

theorem setIdx_of_lt {l : List Nat} {i : Nat} (v : Nat) (h : i < l.length) :
    setIdx l i v = some (l.set i v) := by
  simp [setIdx, h]

theorem getIdx_succ (a : Nat) (l : List Nat) (i : Nat) : getIdx (a :: l) (i + 1) = getIdx l i := rfl

theorem setIdx_succ (a v : Nat) (l : List Nat) (i : Nat) :
    setIdx (a :: l) (i + 1) v = (setIdx l i v).map (fun t => a :: t) := by
  simp [setIdx]

theorem shiftLoop_up (k : Nat) : ∀ (i h : Nat) (t : List Nat), 1 ≤ i →
    shiftLoop k (i + 1) (h :: t) = (shiftLoop k i t).map (fun u => h :: u) := by
  induction k with
  | zero => intro i h t _; rfl
  | succ k ih =>
    intro i h t hi
    obtain ⟨j, rfl⟩ : ∃ j, i = j + 1 := ⟨i - 1, by omega⟩
    simp only [shiftLoop, getIdx_succ, Nat.add_sub_cancel, Option.bind_eq_bind, setIdx_succ]
    cases hx : getIdx t (j + 1) with
    | none => rfl
    | some x =>
      simp only [Option.some_bind]
      cases hy : setIdx t j x with
      | none => rfl
      | some u =>
        simp only [Option.some_bind, Option.map_some']
        exact ih (j + 1 + 1) h u (by omega)

theorem shiftLoop_cons (k x y : Nat) (rest : List Nat) :
    shiftLoop (k + 1) 1 (x :: y :: rest) = (shiftLoop k 1 (y :: rest)).map (fun u => y :: u) := by
  have h := shiftLoop_up k 1 y (y :: rest) (le_refl 1)
  simpa [shiftLoop, getIdx, setIdx] using h

theorem shiftLoop_tail : ∀ (l : List Nat) (x : Nat),
    shiftLoop l.length 1 (x :: l) = some (l ++ [(x :: l).getLast (by simp)]) := by
  intro l
  induction l with
  | nil => intro x; rfl
  | cons y rest ih =>
    intro x
    rw [List.length_cons, shiftLoop_cons, ih y]
    simp

/-- The shift loop followed by the store into the last word. -/
theorem shift_store {l : List Nat} (t : Nat) (h : l.length = 16) :
    (shiftLoop (n - 1) 1 l).bind (fun r => setIdx r (n - 1) t) = some (l.tail ++ [t]) := by
  obtain ⟨x, l, rfl, hl⟩ := length_succ_split h
  have h1 := shiftLoop_tail l x
  rw [hl] at h1
  show (shiftLoop 15 1 (x :: l)).bind (fun r => setIdx r 15 t) = _
  rw [h1]
  simp only [Option.some_bind, List.tail_cons]
  rw [setIdx_of_lt]
  · congr 1
    rw [← hl, List.set_append_right _ _ (le_refl _)]
    simp
  · simp [hl]

theorem cycle_eq {s : Shannon} (h : s.r.length = 16) : cycle s = some (cycleT s) := by
  have e := shift_store (sbox1 (s.r.getD 12 0 ^^^ s.r.getD 13 0 ^^^ s.konst) ^^^ rotl (s.r.getD 0 0) 1) h
  have hl : (s.r.tail ++ [sbox1 (s.r.getD 12 0 ^^^ s.r.getD 13 0 ^^^ s.konst) ^^^ rotl (s.r.getD 0 0) 1]).length = 16 := by
    simp [h]
  cases hs : shiftLoop (n - 1) 1 s.r with
  | none => rw [hs] at e; simp at e
  | some r1 =>
    rw [hs] at e
    simp only [Option.some_bind] at e
    unfold cycle
    simp only [Option.bind_eq_bind, hs, Option.some_bind]
    rw [getIdx_of_lt (by omega : 12 < s.r.length), getIdx_of_lt (by omega : 13 < s.r.length),
      getIdx_of_lt (by omega : 0 < s.r.length)]
    simp only [Option.some_bind, e]
    rw [getIdx_of_lt (by omega : 2 < _), getIdx_of_lt (by omega : 15 < _), getIdx_of_lt (by omega : 0 < _)]
    simp only [Option.some_bind]
    rw [setIdx_of_lt _ (by omega : 0 < _)]
    simp only [Option.some_bind]
    rw [getIdx_of_lt (by simp [h] : 8 < _), getIdx_of_lt (by simp [h] : 12 < _)]
    rfl

theorem crcFunc_eq {s : Shannon} (i : Nat) (h : s.crc.length = 16) :
    crcFunc s i = some { s with crc := crcReg s.crc i } := by
  have e := shift_store (s.crc.getD 0 0 ^^^ s.crc.getD 2 0 ^^^ s.crc.getD 15 0 ^^^ i) h
  cases hs : shiftLoop (n - 1) 1 s.crc with
  | none => rw [hs] at e; simp at e
  | some r1 =>
    rw [hs] at e
    simp only [Option.some_bind] at e
    unfold crcFunc
    rw [getIdx_of_lt (by omega : 0 < s.crc.length), getIdx_of_lt (by omega : 2 < s.crc.length),
      getIdx_of_lt (by omega : 15 < s.crc.length)]
    simp only [Option.bind_eq_bind, Option.some_bind, hs, e]
    rfl

theorem xorKeyp_eq {s : Shannon} (v : Nat) (h : s.r.length = 16) :
    xorKeyp s v = some (xorKeypT s v) := by
  unfold xorKeyp
  rw [getIdx_of_lt (by simp [keyp, h] : keyp < s.r.length)]
  simp only [Option.bind_eq_bind, Option.some_bind]
  rw [setIdx_of_lt _ (by simp [keyp, h] : keyp < s.r.length)]
  rfl

theorem macFunc_eq {s : Shannon} (i : Nat) (hr : s.r.length = 16) (hc : s.crc.length = 16) :
    macFunc s i = some (macT s i) := by
  unfold macFunc
  rw [crcFunc_eq i hc]
  exact xorKeyp_eq i hr

/-! ## Lengths and value ranges of the closed forms -/

theorem length_cycleReg {r : List Nat} (k : Nat) (h : r.length = 16) :
    (cycleReg k r).length = 16 := by
  simp [cycleReg, h]

theorem length_crcReg {c : List Nat} (i : Nat) (h : c.length = 16) :
    (crcReg c i).length = 16 := by
  simp [crcReg, h]

theorem isWords_getD {l : List Nat} (h : IsWords l) (i : Nat) : l.getD i 0 < 2 ^ 32 := by
  rw [List.getD_eq_getElem?_getD]
  cases hx : l[i]? with
  | none => simp
  | some x =>
    have := List.getElem?_mem hx
    simpa using h x this

theorem isWords_set {l : List Nat} {v : Nat} (h : IsWords l) (i : Nat) (hv : v < 2 ^ 32) :
    IsWords (l.set i v) := by
  intro w hw
  rcases List.mem_or_eq_of_mem_set hw with h1 | h1
  · exact h w h1
  · rw [h1]; exact hv

theorem isWords_tail_append {l : List Nat} {v : Nat} (h : IsWords l) (hv : v < 2 ^ 32) :
    IsWords (l.tail ++ [v]) := by
  intro w hw
  rcases List.mem_append.mp hw with h1 | h1
  · exact h w (List.mem_of_mem_tail h1)
  · rw [List.mem_singleton.mp h1]; exact hv

theorem cycle_t_lt {r : List Nat} {k : Nat} (h : IsWords r) (hk : k < 2 ^ 32) :
    sbox1 (r.getD 12 0 ^^^ r.getD 13 0 ^^^ k) ^^^ rotl (r.getD 0 0) 1 < 2 ^ 32 :=
  Nat.xor_lt_two_pow
    (sbox1_lt (Nat.xor_lt_two_pow (Nat.xor_lt_two_pow (isWords_getD h _) (isWords_getD h _)) hk))
    (rotl_lt _ (isWords_getD h _))

theorem isWords_cycleReg {r : List Nat} {k : Nat} (h : IsWords r) (hk : k < 2 ^ 32) :
    IsWords (cycleReg k r) := by
  have h1 := isWords_tail_append h (cycle_t_lt h hk)
  unfold cycleReg
  exact isWords_set h1 _ (Nat.xor_lt_two_pow (isWords_getD h1 _)
    (sbox2_lt (Nat.xor_lt_two_pow (isWords_getD h1 _) (isWords_getD h1 _))))

theorem cycleOut_lt {r : List Nat} {k : Nat} (h : IsWords r) (hk : k < 2 ^ 32) :
    cycleOut k r < 2 ^ 32 := by
  have h1 := isWords_tail_append h (cycle_t_lt h hk)
  have h2 := isWords_cycleReg h hk
  unfold cycleReg at h2
  unfold cycleOut
  exact Nat.xor_lt_two_pow (Nat.xor_lt_two_pow
    (sbox2_lt (Nat.xor_lt_two_pow (isWords_getD h1 _) (isWords_getD h1 _)))
    (isWords_getD h2 _)) (isWords_getD h2 _)

theorem isWords_crcReg {c : List Nat} {i : Nat} (h : IsWords c) (hi : i < 2 ^ 32) :
    IsWords (crcReg c i) :=
  isWords_tail_append h (Nat.xor_lt_two_pow (Nat.xor_lt_two_pow
    (Nat.xor_lt_two_pow (isWords_getD h _) (isWords_getD h _)) (isWords_getD h _)) hi)

theorem isWords_xorKeypT {s : Shannon} {v : Nat} (h : IsWords s.r) (hv : v < 2 ^ 32) :
    IsWords (xorKeypT s v).r :=
  isWords_set h _ (Nat.xor_lt_two_pow (isWords_getD h _) hv)

/-! ## The element-wise XOR loop -/

theorem xorLoop_up (k : Nat) : ∀ (i a c : Nat) (r crc : List Nat),
    xorLoop k (i + 1) (a :: r) (c :: crc) = (xorLoop k i r crc).map (fun u => a :: u) := by
  induction k with
  | zero => intro i a c r crc; rfl
  | succ k ih =>
    intro i a c r crc
    simp only [xorLoop, getIdx_succ, setIdx_succ, Option.bind_eq_bind]
    cases hx : getIdx r i with
    | none => rfl
    | some x =>
      simp only [Option.some_bind]
      cases hy : getIdx crc i with
      | none => rfl
      | some y =>
        simp only [Option.some_bind]
        cases hz : setIdx r i (x ^^^ y) with
        | none => rfl
        | some u =>
          simp only [Option.some_bind, Option.map_some']
          exact ih (i + 1) a c u crc

theorem xorLoop_cons (k a c : Nat) (r crc : List Nat) :
    xorLoop (k + 1) 0 (a :: r) (c :: crc) =
      (xorLoop k 0 r crc).map (fun u => (a ^^^ c) :: u) := by
  have h := xorLoop_up k 0 (a ^^^ c) c r crc
  simpa [xorLoop, getIdx, setIdx] using h

theorem xorLoop_zip : ∀ (r crc : List Nat), r.length ≤ crc.length →
    xorLoop r.length 0 r crc = some (List.zipWith (fun x y => x ^^^ y) r crc) := by
  intro r
  induction r with
  | nil => intro crc _; cases crc <;> rfl
  | cons a r ih =>
    intro crc h
    cases crc with
    | nil => simp at h
    | cons c crc =>
      rw [List.length_cons, xorLoop_cons, ih crc (by simpa using h)]
      rfl

theorem xorLoop16 {r crc : List Nat} (hr : r.length = 16) (hc : crc.length = 16) :
    xorLoop 16 0 r crc = some (List.zipWith (fun x y => x ^^^ y) r crc) := by
  have h := xorLoop_zip r crc (by omega)
  rwa [hr] at h

theorem isWords_zipXor : ∀ (r crc : List Nat), IsWords r → IsWords crc →
    IsWords (List.zipWith (fun x y => x ^^^ y) r crc) := by
  intro r
  induction r with
  | nil => intro crc _ _ w hw; simp at hw
  | cons a r ih =>
    intro crc hr hc
    cases crc with
    | nil => intro w hw; simp at hw
    | cons c crc =>
      intro w hw
      rw [List.zipWith_cons_cons, List.mem_cons] at hw
      rcases hw with h1 | h1
      · rw [h1]
        exact Nat.xor_lt_two_pow (hr a (List.mem_cons_self _ _)) (hc c (List.mem_cons_self _ _))
      · exact ih crc (fun x hx => hr x (List.mem_cons_of_mem _ hx))
          (fun x hx => hc x (List.mem_cons_of_mem _ hx)) w h1

/-! ## Chunking in groups of four -/

theorem chunks4_eq {l : List Nat} (h : l ≠ []) :
    chunks4 l = l.take 4 :: chunks4 (l.drop 4) := by
  match l, h with
  | [a], _ => rfl
  | [a, b], _ => rfl
  | [a, b, c], _ => rfl
  | a :: b :: c :: d :: rest, _ => simp [chunks4]

theorem chunkLoop_four (data : List Nat) : ∀ (fuel s : Nat), data.length ≤ s + fuel →
    chunkLoop data 4 fuel s = some (chunks4 (data.drop s)) := by
  intro fuel
  induction fuel with
  | zero =>
    intro s h
    have h1 : ¬ s < data.length := by omega
    simp [chunkLoop, h1, List.drop_eq_nil_of_le (by omega : data.length ≤ s), chunks4]
  | succ fuel ih =>
    intro s h
    by_cases h1 : s < data.length
    · have hne : data.drop s ≠ [] := by
        intro h2
        have := congrArg List.length h2
        simp at this
        omega
      have h2 : (data.drop s).take ((if s + 4 > data.length then data.length else s + 4) - s)
          = (data.drop s).take 4 := by
        split
        · rw [List.take_of_length_le (by simp), List.take_of_length_le (by simp; omega)]
        · simp
      simp only [chunkLoop, h1, if_true, h2]
      rw [ih (s + 4) (by omega), chunks4_eq hne, List.drop_drop]
      simp [Nat.add_comm]
    · simp [chunkLoop, h1, List.drop_eq_nil_of_le (by omega : data.length ≤ s), chunks4]

theorem chunkBytes_four (data : List Nat) : chunkBytes data 4 = some (chunks4 data) := by
  have h := chunkLoop_four data data.length 0 (by omega)
  simpa [chunkBytes] using h

/-! ## Little-endian words -/

theorem readLittleEndian_four (a b c d : Nat) :
    readLittleEndian [a, b, c, d] = some (leWord a b c d) := rfl

theorem writeLittleEndian_four (a b c d w : Nat) :
    writeLittleEndian [a, b, c, d] w = some (leBytes w) := by
  simp [writeLittleEndian, setIdx, leBytes]

theorem and_ff (x : Nat) : x &&& 0xFF = x % 256 :=
  Nat.and_pow_two_sub_one_eq_mod x 8

theorem shr32_8 (x : Nat) : shr32 x 8 = x / 256 := by
  simp [shr32, Nat.shiftRight_eq_div_pow]

theorem shl32_8_or {x b : Nat} (hb : b < 256) :
    shl32 x 8 ||| b = 256 * (x % 16777216) + b := by
  have h1 : shl32 x 8 = 2 ^ 8 * (x % 16777216) := by
    simp only [shl32, Nat.shiftLeft_eq]
    norm_num
    omega
  rw [h1, ← Nat.mul_add_lt_is_or (by simpa using hb)]

theorem leWord_arith {a b c d : Nat} (ha : a < 256) (hb : b < 256) (hc : c < 256)
    (hd : d < 256) : leWord a b c d = a + 256 * b + 65536 * c + 16777216 * d := by
  unfold leWord
  rw [Nat.zero_or, shl32_8_or ha, shl32_8_or hb, shl32_8_or hc]
  omega

theorem leBytes_arith (w : Nat) :
    leBytes w = [w % 256, w / 256 % 256, w / 65536 % 256, w / 16777216 % 256] := by
  simp only [leBytes, and_ff, shr32_8, toByte, Nat.mod_mod]
  congr 1
  congr 1
  congr 1
  · omega
  · congr 1
    omega

theorem leBytes_leWord {a b c d : Nat} (ha : a < 256) (hb : b < 256) (hc : c < 256)
    (hd : d < 256) : leBytes (leWord a b c d) = [a, b, c, d] := by
  rw [leBytes_arith, leWord_arith ha hb hc hd]
  congr 1
  · omega
  · congr 1
    · omega
    · congr 1
      · omega
      · congr 1
        omega

theorem leWord_lt {a b c d : Nat} (ha : a < 256) (hb : b < 256) (hc : c < 256)
    (hd : d < 256) : leWord a b c d < 2 ^ 32 := by
  rw [leWord_arith ha hb hc hd]
  omega

theorem leBytes_isBytes (w : Nat) : IsBytes (leBytes w) := by
  rw [leBytes_arith]
  intro b hb
  simp only [List.mem_cons, List.mem_singleton, List.not_mem_nil, or_false] at hb
  omega

theorem leBytes_length (w : Nat) : (leBytes w).length = 4 := rfl

theorem leWord_leBytes {w : Nat} (h : w < 2 ^ 32) :
    leWord (w % 256) (w / 256 % 256) (w / 65536 % 256) (w / 16777216 % 256) = w := by
  rw [leWord_arith (by omega) (by omega) (by omega) (by omega)]
  omega

/-! ## State predicates along the register steps -/

theorem len16_cycleT {s : Shannon} (h : Len16 s) : Len16 (cycleT s) :=
  ⟨length_cycleReg _ h.1, h.2.1, h.2.2⟩

theorem wf_cycleT {s : Shannon} (h : WF s) : WF (cycleT s) :=
  ⟨isWords_cycleReg h.1 h.2.2.2.1, h.2.1, h.2.2.1, h.2.2.2.1, cycleOut_lt h.1 h.2.2.2.1,
    h.2.2.2.2.2.1, h.2.2.2.2.2.2⟩

theorem len16_macT {s : Shannon} (i : Nat) (h : Len16 s) : Len16 (macT s i) := by
  refine ⟨?_, length_crcReg _ h.2.1, h.2.2⟩
  simp [macT, xorKeypT, h.1]

theorem wf_macT {s : Shannon} {i : Nat} (h : WF s) (hi : i < 2 ^ 32) : WF (macT s i) :=
  ⟨isWords_set h.1 _ (Nat.xor_lt_two_pow (isWords_getD h.1 _) hi), isWords_crcReg h.2.1 hi,
    h.2.2.1, h.2.2.2.1, h.2.2.2.2.1, h.2.2.2.2.2.1, h.2.2.2.2.2.2⟩

theorem encryptWord_eq {s : Shannon} (t : Nat) (h : Len16 s) :
    encryptWord s t = some (macT s t, t ^^^ s.sbuf) := by
  unfold encryptWord
  rw [macFunc_eq t h.1 h.2.1]
  rfl

theorem decryptWord_eq {s : Shannon} (c : Nat) (h : Len16 s) :
    decryptWord s c = some (macT s (c ^^^ s.sbuf), c ^^^ s.sbuf) := by
  unfold decryptWord
  simp only []
  rw [macFunc_eq _ h.1 h.2.1]
  rfl

theorem xor_cancel (a b : Nat) : a ^^^ b ^^^ b = a := by
  rw [Nat.xor_assoc, Nat.xor_self, Nat.xor_zero]

/-! ## Four bytes at a time -/

theorem list4_induction {motive : List Nat → Prop} (hnil : motive [])
    (hstep : ∀ a b c d rest, motive rest → motive (a :: b :: c :: d :: rest)) :
    ∀ (k : Nat) (P : List Nat), P.length = 4 * k → motive P := by
  intro k
  induction k with
  | zero =>
    intro P h
    have : P = [] := List.length_eq_zero.mp (by simpa using h)
    rw [this]; exact hnil
  | succ k ih =>
    intro P h
    match P, h with
    | a :: b :: c :: d :: rest, h =>
      exact hstep a b c d rest (ih rest (by simp at h; omega))

theorem isBytes_cons {a : Nat} {l : List Nat} : IsBytes (a :: l) ↔ a < 256 ∧ IsBytes l := by
  simp [IsBytes]

theorem isBytes_append {l1 l2 : List Nat} : IsBytes (l1 ++ l2) ↔ IsBytes l1 ∧ IsBytes l2 := by
  simp only [IsBytes, List.mem_append]
  constructor
  · intro h
    exact ⟨fun b hb => h b (Or.inl hb), fun b hb => h b (Or.inr hb)⟩
  · rintro ⟨h1, h2⟩ b (hb | hb)
    · exact h1 b hb
    · exact h2 b hb

theorem chunks4_leBytes_append (w : Nat) (l : List Nat) :
    chunks4 (leBytes w ++ l) = leBytes w :: chunks4 l := by
  simp [leBytes, chunks4]

/-- The whole-word loop of `Encrypt` on word-aligned plaintext, and the
whole-word loop of `Decrypt` on its output. -/
theorem wordsLoop_roundtrip : ∀ (k : Nat) (P : List Nat), P.length = 4 * k →
    ∀ s : Shannon, Len16 s → WF s → IsBytes P →
    ∃ s' C, wordsLoop encryptWord s (chunks4 P) = some (s', C) ∧
      wordsLoop decryptWord s (chunks4 C) = some (s', P) ∧
      C.length = P.length ∧ IsBytes C ∧ Len16 s' ∧ WF s' ∧ s'.nbuf = s.nbuf ∧
      s'.mbuf = s.mbuf ∧ s'.initR = s.initR ∧ s'.konst = s.konst := by
  intro k P hk
  refine list4_induction
    (motive := fun P => ∀ s : Shannon, Len16 s → WF s → IsBytes P →
      ∃ s' C, wordsLoop encryptWord s (chunks4 P) = some (s', C) ∧
      wordsLoop decryptWord s (chunks4 C) = some (s', P) ∧
      C.length = P.length ∧ IsBytes C ∧ Len16 s' ∧ WF s' ∧ s'.nbuf = s.nbuf ∧
      s'.mbuf = s.mbuf ∧ s'.initR = s.initR ∧ s'.konst = s.konst) ?_ ?_ k P hk
  · intro s hl hw _
    exact ⟨s, [], rfl, rfl, rfl, by simp [IsBytes], hl, hw, rfl, rfl, rfl, rfl⟩
  · intro a b c d rest ih s hl hw hP
    obtain ⟨ha, hP⟩ := isBytes_cons.mp hP
    obtain ⟨hb, hP⟩ := isBytes_cons.mp hP
    obtain ⟨hc, hP⟩ := isBytes_cons.mp hP
    obtain ⟨hd, hP⟩ := isBytes_cons.mp hP
    have hl1 := len16_cycleT hl
    have hw1 := wf_cycleT hw
    have ht := leWord_lt ha hb hc hd
    have hl2 := len16_macT (leWord a b c d) hl1
    have hw2 := wf_macT hw1 ht
    obtain ⟨s', C, h1, h2, h3, h4, h5, h6, h7, h8, h9, h10⟩ := ih (macT (cycleT s) (leWord a b c d)) hl2 hw2 hP
    have hsb : (cycleT s).sbuf < 2 ^ 32 := hw1.2.2.2.2.1
    have hcw : leWord a b c d ^^^ (cycleT s).sbuf < 2 ^ 32 := Nat.xor_lt_two_pow ht hsb
    refine ⟨s', leBytes (leWord a b c d ^^^ (cycleT s).sbuf) ++ C, ?_, ?_, ?_, ?_, h5, h6, h7, h8, h9, h10⟩
    · simp only [chunks4, wordsLoop, Option.bind_eq_bind]
      rw [cycle_eq hl.1]
      simp only [Option.some_bind, readLittleEndian_four, encryptWord_eq _ hl1,
        writeLittleEndian_four, h1]
    · rw [chunks4_leBytes_append]
      simp only [wordsLoop, Option.bind_eq_bind]
      rw [cycle_eq hl.1]
      have e1 : readLittleEndian (leBytes (leWord a b c d ^^^ (cycleT s).sbuf)) =
          some (leWord a b c d ^^^ (cycleT s).sbuf) := by
        rw [leBytes_arith, readLittleEndian_four, leWord_leBytes hcw]
      have e2 : ∀ t, writeLittleEndian (leBytes (leWord a b c d ^^^ (cycleT s).sbuf)) t =
          some (leBytes t) := by
        intro t
        rw [leBytes_arith, writeLittleEndian_four]
      simp only [Option.some_bind, e1, decryptWord_eq _ hl1, xor_cancel, e2, h2,
        leBytes_leWord ha hb hc hd]
      rfl
    · simp [h3, leBytes_length]
      omega
    · exact isBytes_append.mpr ⟨leBytes_isBytes _, h4⟩

/-! ## Trailing bytes -/

theorem encryptByte_fst (s : Shannon) (b : Nat) :
    (encryptByte s b).1 = { s with mbuf := s.mbuf ^^^ shl32 b (usub 32 s.nbuf) } := rfl

theorem encryptByte_snd (s : Shannon) (b : Nat) :
    (encryptByte s b).2 = b ^^^ toByte (shr32 s.sbuf (usub 32 s.nbuf) &&& 0xFF) := rfl

theorem decryptByte_fst (s : Shannon) (b : Nat) :
    (decryptByte s b).1 =
      { s with mbuf := s.mbuf ^^^ shl32 (decryptByte s b).2 (usub 32 s.nbuf) } := rfl

theorem decryptByte_snd (s : Shannon) (b : Nat) :
    (decryptByte s b).2 = b ^^^ toByte (shr32 s.sbuf (usub 32 s.nbuf) &&& 0xFF) := rfl

theorem toByte_lt (x : Nat) : toByte x < 256 := Nat.mod_lt _ (by norm_num)

theorem xor_byte_lt {a b : Nat} (ha : a < 256) (hb : b < 256) : a ^^^ b < 256 :=
  @Nat.xor_lt_two_pow a b 8 ha hb

/-- One byte through the byte callback of `Encrypt`, then its output through
the byte callback of `Decrypt`. -/
theorem byte_roundtrip (s : Shannon) (b : Nat) :
    decryptByte s (encryptByte s b).2 = ((encryptByte s b).1, b) := by
  simp only [decryptByte, encryptByte, xor_cancel]

theorem usub_lt (a b : Nat) : usub a b < 2 ^ 64 := Nat.mod_lt _ (by norm_num)

theorem wf_with_mbuf {s : Shannon} {m : Nat} (h : WF s) (hm : m < 2 ^ 32) :
    WF { s with mbuf := m } :=
  ⟨h.1, h.2.1, h.2.2.1, h.2.2.2.1, h.2.2.2.2.1, hm, h.2.2.2.2.2.2⟩

theorem wf_with_nbuf {s : Shannon} {k : Nat} (h : WF s) (hk : k < 2 ^ 64) :
    WF { s with nbuf := k } :=
  ⟨h.1, h.2.1, h.2.2.1, h.2.2.2.1, h.2.2.2.2.1, h.2.2.2.2.2.1, hk⟩

theorem extraLoop_cons (cb : Shannon → Nat → Shannon × Nat) (s : Shannon) (b : Nat)
    (bs : List Nat) :
    extraLoop cb s (b :: bs) =
      ((extraLoop cb { (cb s b).1 with nbuf := usub (cb s b).1.nbuf 8 } bs).1,
        (cb s b).2 :: (extraLoop cb { (cb s b).1 with nbuf := usub (cb s b).1.nbuf 8 } bs).2) :=
  rfl

/-- The trailing-byte loop of `Encrypt`, and the trailing-byte loop of
`Decrypt` on its output; the register, accumulator and constants are untouched. -/
theorem extraLoop_roundtrip : ∀ (P : List Nat) (s : Shannon), WF s → IsBytes P →
    extraLoop decryptByte s (extraLoop encryptByte s P).2 = ((extraLoop encryptByte s P).1, P) ∧
      (extraLoop encryptByte s P).2.length = P.length ∧
      IsBytes (extraLoop encryptByte s P).2 ∧ WF (extraLoop encryptByte s P).1 ∧
      (extraLoop encryptByte s P).1.r = s.r ∧ (extraLoop encryptByte s P).1.crc = s.crc ∧
      (extraLoop encryptByte s P).1.initR = s.initR ∧
      (extraLoop encryptByte s P).1.konst = s.konst ∧
      (extraLoop encryptByte s P).1.sbuf = s.sbuf := by
  intro P
  induction P with
  | nil =>
    intro s hw _
    exact ⟨rfl, rfl, by simp [extraLoop, IsBytes], hw, rfl, rfl, rfl, rfl, rfl⟩
  | cons b P ih =>
    intro s hw hP
    obtain ⟨hb, hP⟩ := isBytes_cons.mp hP
    have hw1 : WF { (encryptByte s b).1 with nbuf := usub (encryptByte s b).1.nbuf 8 } := by
      apply wf_with_nbuf _ (usub_lt _ _)
      rw [encryptByte_fst]
      exact wf_with_mbuf hw (Nat.xor_lt_two_pow hw.2.2.2.2.2.1 (shl32_lt _ _))
    obtain ⟨h1, h2, h3, h4, h5, h6, h7, h8, h9⟩ :=
      ih { (encryptByte s b).1 with nbuf := usub (encryptByte s b).1.nbuf 8 } hw1 hP
    have hxb : (encryptByte s b).2 < 256 := by
      rw [encryptByte_snd]
      exact xor_byte_lt hb (toByte_lt _)
    refine ⟨?_, ?_, ?_, ?_, ?_, ?_, ?_, ?_, ?_⟩
    · rw [extraLoop_cons encryptByte, extraLoop_cons decryptByte]
      simp only [byte_roundtrip, h1]
    · rw [extraLoop_cons]
      simp only [List.length_cons, h2]
    · rw [extraLoop_cons]
      exact isBytes_cons.mpr ⟨hxb, h3⟩
    · rw [extraLoop_cons]; exact h4
    · rw [extraLoop_cons]; exact h5
    · rw [extraLoop_cons]; exact h6
    · rw [extraLoop_cons]; exact h7
    · rw [extraLoop_cons]; exact h8
    · rw [extraLoop_cons]; exact h9

/-! ## Splitting a buffer into whole words and trailing bytes -/

theorem andNot_three (a : Nat) : andNot a 0x3 = 4 * (a / 4) := by
  apply Nat.eq_of_testBit_eq
  intro i
  have h3 : (3 : Nat) = 2 ^ 2 - 1 := by norm_num
  have h4 : 4 * (a / 4) = (a >>> 2) <<< 2 := by
    rw [Nat.shiftRight_eq_div_pow, Nat.shiftLeft_eq]
    norm_num
    omega
  rw [h4]
  simp only [andNot, Nat.testBit_xor, Nat.testBit_and, h3, Nat.testBit_two_pow_sub_one,
    Nat.testBit_shiftLeft, Nat.testBit_shiftRight]
  by_cases h : i < 2
  · have h' : ¬ (i ≥ 2) := by omega
    simp [h, h']
  · have h' : i ≥ 2 := by omega
    have e : 2 + (i - 2) = i := by omega
    simp [h, h', e]

/-! ## `process` on a word-aligned engine -/

theorem process_aligned {s : Shannon} (buf : List Nat)
    (wcb : Shannon → Nat → Option (Shannon × Nat)) (bcb : Shannon → Nat → Shannon × Nat)
    (h : s.nbuf = 0) :
    process s buf wcb bcb =
      (wordsLoop wcb s (chunks4 (buf.take (4 * (buf.length / 4))))).bind (fun p =>
        if (buf.drop (4 * (buf.length / 4))).length > 0 then
          (cycle p.1).bind (fun s1 =>
            some ((extraLoop bcb { { s1 with mbuf := 0 } with nbuf := 32 }
                (buf.drop (4 * (buf.length / 4)))).1,
              p.2 ++ (extraLoop bcb { { s1 with mbuf := 0 } with nbuf := 32 }
                (buf.drop (4 * (buf.length / 4)))).2))
        else some (p.1, p.2 ++ buf.drop (4 * (buf.length / 4)))) := by
  unfold process
  simp only [h, ne_eq, not_true_eq_false, if_false, Option.bind_eq_bind, Option.some_bind,
    Bool.false_eq_true, andNot_three, chunkBytes_four]

theorem take_words_length (P : List Nat) :
    (P.take (4 * (P.length / 4))).length = 4 * (P.length / 4) := by
  rw [List.length_take]
  omega

/-- Round trip through one `Encrypt` call and one `Decrypt` call from the same
word-aligned state; both calls end in the same state. -/
theorem process_roundtrip {s : Shannon} (hl : Len16 s) (hw : WF s) (h0 : s.nbuf = 0)
    {P : List Nat} (hP : IsBytes P) :
    ∃ s' C, Encrypt s P = some (s', C) ∧ Decrypt s C = some (s', P) ∧
      C.length = P.length ∧ IsBytes C ∧ Len16 s' ∧ WF s' ∧
      s'.initR = s.initR ∧ s'.konst = s.konst := by
  have hsplit : P.take (4 * (P.length / 4)) ++ P.drop (4 * (P.length / 4)) = P :=
    List.take_append_drop _ _
  have hPb := hP
  rw [← hsplit] at hPb
  obtain ⟨hW, hX⟩ := isBytes_append.mp hPb
  obtain ⟨s1, C1, e1, e2, e3, e4, e5, e6, e7, e8, e9, e10⟩ :=
    wordsLoop_roundtrip (P.length / 4) _ (take_words_length P) s hl hw hW
  rw [take_words_length] at e3
  by_cases hx : (P.drop (4 * (P.length / 4))).length > 0
  · -- trailing bytes
    have hl2 : Len16 (cycleT s1) := len16_cycleT e5
    have hw2 : WF { { cycleT s1 with mbuf := 0 } with nbuf := 32 } :=
      wf_with_nbuf (wf_with_mbuf (wf_cycleT e6) (by norm_num)) (by norm_num)
    obtain ⟨g1, g2, g3, g4, g5, g6, g7, g8, g9⟩ :=
      extraLoop_roundtrip (P.drop (4 * (P.length / 4))) _ hw2 hX
    have hlen : (C1 ++ (extraLoop encryptByte { { cycleT s1 with mbuf := 0 } with nbuf := 32 }
        (P.drop (4 * (P.length / 4)))).2).length = P.length := by
      rw [List.length_append, e3, g2, List.length_drop]
      omega
    refine ⟨(extraLoop encryptByte { { cycleT s1 with mbuf := 0 } with nbuf := 32 }
        (P.drop (4 * (P.length / 4)))).1,
      C1 ++ (extraLoop encryptByte { { cycleT s1 with mbuf := 0 } with nbuf := 32 }
        (P.drop (4 * (P.length / 4)))).2, ?_, ?_, hlen, isBytes_append.mpr ⟨e4, g3⟩,
      ⟨by rw [g5]; exact hl2.1, by rw [g6]; exact hl2.2.1, by rw [g7]; exact hl2.2.2⟩, g4,
      by rw [g7]; exact e9, by rw [g8]; exact e10⟩
    · unfold Encrypt
      rw [process_aligned _ _ _ h0, e1]
      simp only [Option.some_bind, hx, if_true, cycle_eq e5.1]
    · unfold Decrypt
      rw [process_aligned _ _ _ h0, hlen, List.take_left' e3, List.drop_left' e3, e2]
      simp only [Option.some_bind, g2, hx, if_true, cycle_eq e5.1, g1]
      rw [hsplit]
  · -- no trailing bytes
    have hnil : P.drop (4 * (P.length / 4)) = [] := List.length_eq_zero.mp (by omega)
    have hPW : P.take (4 * (P.length / 4)) = P := by
      rw [hnil, List.append_nil] at hsplit; exact hsplit
    rw [hPW] at e2 e1
    have hlen : C1.length = P.length := by
      have := congrArg List.length hPW
      rw [take_words_length] at this
      omega
    refine ⟨s1, C1, ?_, ?_, hlen, e4, e5, e6, e9, e10⟩
    · unfold Encrypt
      rw [process_aligned _ _ _ h0, hPW, e1]
      simp [hnil]
    · unfold Decrypt
      have ht : C1.take (4 * (C1.length / 4)) = C1 :=
        List.take_of_length_le (by rw [hlen]; omega)
      have hd : C1.drop (4 * (C1.length / 4)) = [] :=
        List.drop_eq_nil_of_le (by rw [hlen]; omega)
      rw [process_aligned _ _ _ h0, ht, hd, e2]
      simp

/-! ## Successive cycles -/

theorem cycles_eq : ∀ (k : Nat) (s : Shannon), s.r.length = 16 →
    cycles k s = some (cyclesT k s) := by
  intro k
  induction k with
  | zero => intro s _; rfl
  | succ k ih =>
    intro s h
    simp only [cycles, cyclesT, Option.bind_eq_bind, cycle_eq h, Option.some_bind]
    exact ih (cycleT s) (length_cycleReg _ h)

theorem cyclesT_frame : ∀ (k : Nat) (s : Shannon),
    (cyclesT k s).crc = s.crc ∧ (cyclesT k s).initR = s.initR ∧
      (cyclesT k s).konst = s.konst ∧ (cyclesT k s).mbuf = s.mbuf ∧
      (cyclesT k s).nbuf = s.nbuf := by
  intro k
  induction k with
  | zero => intro s; exact ⟨rfl, rfl, rfl, rfl, rfl⟩
  | succ k ih => intro s; exact ih (cycleT s)

theorem len16_cyclesT : ∀ (k : Nat) (s : Shannon), Len16 s → Len16 (cyclesT k s) := by
  intro k
  induction k with
  | zero => intro s h; exact h
  | succ k ih => intro s h; exact ih (cycleT s) (len16_cycleT h)

theorem wf_cyclesT : ∀ (k : Nat) (s : Shannon), WF s → WF (cyclesT k s) := by
  intro k
  induction k with
  | zero => intro s h; exact h
  | succ k ih => intro s h; exact ih (cycleT s) (wf_cycleT h)

theorem cyclesT_zero (s : Shannon) : cyclesT 0 s = s := rfl

theorem cyclesT_succ (k : Nat) (s : Shannon) : cyclesT (k + 1) s = cyclesT k (cycleT s) := rfl

theorem cyclesT_succ_right : ∀ (k : Nat) (s : Shannon),
    cyclesT (k + 1) s = cycleT (cyclesT k s) := by
  intro k
  induction k with
  | zero => intro s; rfl
  | succ k ih =>
    intro s
    rw [cyclesT_succ, ih (cycleT s), cyclesT_succ]

theorem cyclesT_add : ∀ (a b : Nat) (s : Shannon),
    cyclesT (a + b) s = cyclesT b (cyclesT a s) := by
  intro a
  induction a with
  | zero => intro b s; rw [Nat.zero_add, cyclesT_zero]
  | succ a ih =>
    intro b s
    rw [Nat.add_right_comm, cyclesT_succ, ih b (cycleT s), cyclesT_succ]

attribute [irreducible] cyclesT

/-! ## Key loading -/

theorem len16_xorKeypT {s : Shannon} (v : Nat) (h : Len16 s) : Len16 (xorKeypT s v) := by
  refine ⟨?_, h.2.1, h.2.2⟩
  simp [xorKeypT, h.1]

theorem len16_xorKeypT_r {s : Shannon} (v : Nat) (h : s.r.length = 16) :
    (xorKeypT s v).r.length = 16 := by
  simp [xorKeypT, h]

theorem wf_xorKeypT {s : Shannon} {v : Nat} (h : WF s) (hv : v < 2 ^ 32) :
    WF (xorKeypT s v) :=
  ⟨isWords_xorKeypT h.1 hv, h.2.1, h.2.2.1, h.2.2.2.1, h.2.2.2.2.1, h.2.2.2.2.2.1,
    h.2.2.2.2.2.2⟩

theorem loadWords_cons (s : Shannon) {word : List Nat} (ws : List (List Nat))
    (h1 : 1 ≤ word.length) (h4 : word.length ≤ 4) :
    loadWords s (word :: ws) =
      (xorKeyp s (padWord word)).bind (fun s => (cycle s).bind (fun s => loadWords s ws)) := by
  match word, h1, h4 with
  | [a], _, _ => rfl
  | [a, b], _, _ => rfl
  | [a, b, c], _, _ => rfl
  | [a, b, c, d], _, _ => rfl
  | _ :: _ :: _ :: _ :: _ :: _, _, h => simp at h

theorem isBytes_getD {l : List Nat} (h : IsBytes l) (i : Nat) : l.getD i 0 < 256 := by
  rw [List.getD_eq_getElem?_getD]
  cases hx : l[i]? with
  | none => simp
  | some x =>
    have := List.getElem?_mem hx
    simpa using h x this

theorem padWord_lt {word : List Nat} (h : IsBytes word) : padWord word < 2 ^ 32 :=
  leWord_lt (isBytes_getD h _) (isBytes_getD h _) (isBytes_getD h _) (isBytes_getD h _)

theorem chunks4_mem (l : List Nat) :
    ∀ w ∈ chunks4 l, 1 ≤ w.length ∧ w.length ≤ 4 ∧ (IsBytes l → IsBytes w) := by
  induction l using chunks4.induct with
  | case1 => intro w hw; simp [chunks4] at hw
  | case2 a => intro w hw; simp [chunks4] at hw; subst hw; simp
  | case3 a b => intro w hw; simp [chunks4] at hw; subst hw; simp
  | case4 a b c => intro w hw; simp [chunks4] at hw; subst hw; simp
  | case5 a b c d rest ih =>
    intro w hw
    simp only [chunks4, List.mem_cons] at hw
    rcases hw with h | h
    · subst h
      refine ⟨by simp, by simp, ?_⟩
      intro hb x hx
      exact hb x (by
        simp only [List.mem_cons, List.mem_singleton, List.not_mem_nil, or_false] at hx
        simp only [List.mem_cons]
        tauto)
    · obtain ⟨h1, h2, h3⟩ := ih w h
      refine ⟨h1, h2, ?_⟩
      intro hb
      apply h3
      intro x hx
      exact hb x (by simp [hx])

theorem loadWords_eq : ∀ (ws : List (List Nat)) (s : Shannon), s.r.length = 16 →
    (∀ w ∈ ws, 1 ≤ w.length ∧ w.length ≤ 4) → loadWords s ws = some (loadWordsT s ws) := by
  intro ws
  induction ws with
  | nil => intro s _ _; rfl
  | cons w ws ih =>
    intro s h hw
    obtain ⟨h1, h4⟩ := hw w (List.mem_cons_self _ _)
    have hx : (xorKeypT s (padWord w)).r.length = 16 := (len16_xorKeypT_r _ h)
    rw [loadWords_cons s ws h1 h4]
    simp only [loadWordsT, Option.some_bind, xorKeyp_eq _ h, cycle_eq hx]
    exact ih _ (length_cycleReg _ hx) (fun w' hw' => hw w' (List.mem_cons_of_mem _ hw'))

theorem loadWordsT_frame : ∀ (ws : List (List Nat)) (s : Shannon),
    (loadWordsT s ws).crc = s.crc ∧ (loadWordsT s ws).initR = s.initR ∧
      (loadWordsT s ws).konst = s.konst ∧ (loadWordsT s ws).mbuf = s.mbuf ∧
      (loadWordsT s ws).nbuf = s.nbuf := by
  intro ws
  induction ws with
  | nil => intro s; exact ⟨rfl, rfl, rfl, rfl, rfl⟩
  | cons w ws ih => intro s; exact ih _

theorem len16_loadWordsT : ∀ (ws : List (List Nat)) (s : Shannon), Len16 s →
    Len16 (loadWordsT s ws) := by
  intro ws
  induction ws with
  | nil => intro s h; exact h
  | cons w ws ih => intro s h; exact ih _ (len16_cycleT (len16_xorKeypT _ h))

theorem wf_loadWordsT : ∀ (ws : List (List Nat)) (s : Shannon), WF s →
    (∀ w ∈ ws, IsBytes w) → WF (loadWordsT s ws) := by
  intro ws
  induction ws with
  | nil => intro s h _; exact h
  | cons w ws ih =>
    intro s h hb
    exact ih _ (wf_cycleT (wf_xorKeypT h (padWord_lt (hb w (List.mem_cons_self _ _)))))
      (fun w' hw' => hb w' (List.mem_cons_of_mem _ hw'))

theorem goCopy_eq {dst src : List Nat} (h : dst.length = src.length) : goCopy dst src = src := by
  simp [goCopy, h]

theorem len16_loadFoldT {s : Shannon} (key : List Nat) (h : Len16 s) :
    Len16 (loadFoldT s key) :=
  len16_cycleT (len16_xorKeypT _ (len16_loadWordsT _ _ h))

theorem wf_loadFoldT {s : Shannon} {key : List Nat} (h : WF s) (hk : IsBytes key) :
    WF (loadFoldT s key) :=
  wf_cycleT (wf_xorKeypT (wf_loadWordsT _ _ h (fun w hw => (chunks4_mem key w hw).2.2 hk))
    (Nat.mod_lt _ (by norm_num)))

theorem loadFoldT_frame (s : Shannon) (key : List Nat) :
    (loadFoldT s key).crc = s.crc ∧ (loadFoldT s key).initR = s.initR ∧
      (loadFoldT s key).konst = s.konst ∧ (loadFoldT s key).mbuf = s.mbuf ∧
      (loadFoldT s key).nbuf = s.nbuf :=
  loadWordsT_frame (chunks4 key) s

theorem length_xorRegs {r crc : List Nat} (hr : r.length = 16) (hc : crc.length = 16) :
    (xorRegs r crc).length = 16 := by
  simp [xorRegs, hr, hc]

theorem len16_loadSnap {s : Shannon} (key : List Nat) (h : Len16 s) :
    Len16 (loadSnap s key) :=
  ⟨(len16_loadFoldT key h).1, (len16_loadFoldT key h).1, (len16_loadFoldT key h).2.2⟩

theorem wf_loadSnap {s : Shannon} {key : List Nat} (h : WF s) (hk : IsBytes key) :
    WF (loadSnap s key) :=
  ⟨(wf_loadFoldT h hk).1, (wf_loadFoldT h hk).1, (wf_loadFoldT h hk).2.2.1,
    (wf_loadFoldT h hk).2.2.2.1, (wf_loadFoldT h hk).2.2.2.2.1, (wf_loadFoldT h hk).2.2.2.2.2.1,
    (wf_loadFoldT h hk).2.2.2.2.2.2⟩

theorem loadKey_eq {s : Shannon} (key : List Nat) (h : Len16 s) :
    loadKey s key = some (loadKeyT s key) := by
  have h1 := len16_loadWordsT (chunks4 key) s h
  have h2 := len16_xorKeypT (toU32 key.length) h1
  have h3 := len16_cycleT h2
  have h4 := len16_loadSnap key h
  have h5 := len16_cyclesT 16 _ h4
  unfold loadKey
  simp only [Option.bind_eq_bind, chunkBytes_four, Option.some_bind,
    loadWords_eq _ s h.1 (fun w hw => ⟨(chunks4_mem key w hw).1, (chunks4_mem key w hw).2.1⟩),
    xorKeyp_eq _ h1.1, cycle_eq h2.1, goCopy_eq (h3.2.1.trans h3.1.symm), diffuse, fold, n]
  have e := cycles_eq 16 _ h4.1
  unfold loadSnap loadFoldT at e
  rw [e]
  simp only [Option.some_bind]
  have e2 := xorLoop16 h5.1 h5.2.1
  unfold loadSnap loadFoldT at e2
  rw [e2]
  rfl

theorem loadKeyT_r (s : Shannon) (key : List Nat) : (loadKeyT s key).r =
    xorRegs (cyclesT 16 (loadSnap s key)).r (cyclesT 16 (loadSnap s key)).crc := by
  unfold loadKeyT
  rfl

theorem loadKeyT_fields (s : Shannon) (key : List Nat) :
    (loadKeyT s key).crc = (cyclesT 16 (loadSnap s key)).crc ∧
    (loadKeyT s key).initR = (cyclesT 16 (loadSnap s key)).initR ∧
    (loadKeyT s key).konst = (cyclesT 16 (loadSnap s key)).konst ∧
    (loadKeyT s key).sbuf = (cyclesT 16 (loadSnap s key)).sbuf ∧
    (loadKeyT s key).mbuf = (cyclesT 16 (loadSnap s key)).mbuf ∧
    (loadKeyT s key).nbuf = (cyclesT 16 (loadSnap s key)).nbuf := by
  unfold loadKeyT
  exact ⟨rfl, rfl, rfl, rfl, rfl, rfl⟩

theorem loadSnap_fields (s : Shannon) (key : List Nat) :
    (loadSnap s key).r = (loadFoldT s key).r ∧
    (loadSnap s key).crc = (loadFoldT s key).r ∧
    (loadSnap s key).initR = (loadFoldT s key).initR ∧
    (loadSnap s key).konst = (loadFoldT s key).konst ∧
    (loadSnap s key).sbuf = (loadFoldT s key).sbuf ∧
    (loadSnap s key).mbuf = (loadFoldT s key).mbuf ∧
    (loadSnap s key).nbuf = (loadFoldT s key).nbuf := by
  unfold loadSnap
  exact ⟨rfl, rfl, rfl, rfl, rfl, rfl, rfl⟩

theorem loadKeyT_crc (s : Shannon) (key : List Nat) :
    (loadKeyT s key).crc = (loadFoldT s key).r := by
  rw [(loadKeyT_fields s key).1, (cyclesT_frame 16 (loadSnap s key)).1, (loadSnap_fields s key).2.1]

theorem loadKeyT_frame (s : Shannon) (key : List Nat) :
    (loadKeyT s key).initR = s.initR ∧ (loadKeyT s key).konst = s.konst ∧
      (loadKeyT s key).mbuf = s.mbuf ∧ (loadKeyT s key).nbuf = s.nbuf := by
  have h0 := loadKeyT_fields s key
  have h1 := loadFoldT_frame s key
  have h2 := cyclesT_frame 16 (loadSnap s key)
  have h3 := loadSnap_fields s key
  refine ⟨?_, ?_, ?_, ?_⟩
  · rw [h0.2.1, h2.2.1, h3.2.2.1, h1.2.1]
  · rw [h0.2.2.1, h2.2.2.1, h3.2.2.2.1, h1.2.2.1]
  · rw [h0.2.2.2.2.1, h2.2.2.2.1, h3.2.2.2.2.2.1, h1.2.2.2.1]
  · rw [h0.2.2.2.2.2, h2.2.2.2.2, h3.2.2.2.2.2.2, h1.2.2.2.2]

theorem len16_loadKeyT {s : Shannon} (key : List Nat) (h : Len16 s) :
    Len16 (loadKeyT s key) := by
  have h5 := len16_cyclesT 16 _ (len16_loadSnap key h)
  have h0 := loadKeyT_fields s key
  unfold Len16 at h5 ⊢
  rw [loadKeyT_r, h0.1, h0.2.1]
  exact ⟨length_xorRegs h5.1 h5.2.1, h5.2.1, h5.2.2⟩

theorem wf_loadKeyT {s : Shannon} {key : List Nat} (h : WF s) (hk : IsBytes key) :
    WF (loadKeyT s key) := by
  have h5 := wf_cyclesT 16 _ (wf_loadSnap h hk)
  have h0 := loadKeyT_fields s key
  unfold WF at h5 ⊢
  rw [loadKeyT_r, h0.1, h0.2.1, h0.2.2.1, h0.2.2.2.1, h0.2.2.2.2.1, h0.2.2.2.2.2]
  exact ⟨isWords_zipXor _ _ h5.1 h5.2.1, h5.2.1, h5.2.2.1, h5.2.2.2.1, h5.2.2.2.2.1,
    h5.2.2.2.2.2.1, h5.2.2.2.2.2.2⟩

/-! ## Construction and nonce update -/

theorem genKonst_eq {s : Shannon} (h : s.r.length = 16) :
    genKonst s = some { s with konst := s.r.getD 0 0 } := by
  unfold genKonst
  rw [getIdx_of_lt (by omega : 0 < s.r.length)]
  rfl

theorem seed_eq1 : setIdx (List.replicate n 0) 0 1 =
    some [1, 0, 0, 0, 0, 0, 0, 0, 0, 0, 0, 0, 0, 0, 0, 0] := by decide

theorem seed_eq2 : setIdx [1, 0, 0, 0, 0, 0, 0, 0, 0, 0, 0, 0, 0, 0, 0, 0] 1 1 =
    some [1, 1, 0, 0, 0, 0, 0, 0, 0, 0, 0, 0, 0, 0, 0, 0] := by decide

theorem seed_eq3 : fibLoop (n - 2) 2 [1, 1, 0, 0, 0, 0, 0, 0, 0, 0, 0, 0, 0, 0, 0, 0] =
    some seedReg := by decide

theorem len16_seedState : Len16 seedState := by decide

theorem wf_seedState : WF seedState := by decide

theorem ShannonNewT_fields (key : List Nat) :
    (ShannonNewT key).r = (loadKeyT seedState key).r ∧
    (ShannonNewT key).crc = (loadKeyT seedState key).crc ∧
    (ShannonNewT key).initR = (loadKeyT seedState key).r ∧
    (ShannonNewT key).konst = (loadKeyT seedState key).r.getD 0 0 ∧
    (ShannonNewT key).sbuf = (loadKeyT seedState key).sbuf ∧
    (ShannonNewT key).mbuf = (loadKeyT seedState key).mbuf ∧
    (ShannonNewT key).nbuf = (loadKeyT seedState key).nbuf := by
  unfold ShannonNewT
  exact ⟨rfl, rfl, rfl, rfl, rfl, rfl, rfl⟩

theorem ShannonNew_eq (key : List Nat) : ShannonNew key = some (ShannonNewT key) := by
  have h1 := len16_loadKeyT key len16_seedState
  have e2 := loadKey_eq key len16_seedState
  unfold ShannonNew ShannonNewT
  simp only [Option.bind_eq_bind, seed_eq1, seed_eq2, seed_eq3, Option.some_bind]
  change (loadKey seedState key).bind _ = _
  rw [e2]
  simp only [Option.some_bind, genKonst_eq h1.1, saveState]
  rw [goCopy_eq (h1.2.2.trans h1.1.symm)]

theorem len16_ShannonNewT (key : List Nat) : Len16 (ShannonNewT key) := by
  have h := len16_loadKeyT key len16_seedState
  have h0 := ShannonNewT_fields key
  unfold Len16 at h ⊢
  rw [h0.1, h0.2.1, h0.2.2.1]
  exact ⟨h.1, h.2.1, h.1⟩

theorem wf_ShannonNewT {key : List Nat} (hk : IsBytes key) : WF (ShannonNewT key) := by
  have h := wf_loadKeyT wf_seedState hk
  have h0 := ShannonNewT_fields key
  have hg := isWords_getD h.1 0
  unfold WF at h ⊢
  rw [h0.1, h0.2.1, h0.2.2.1, h0.2.2.2.1, h0.2.2.2.2.1, h0.2.2.2.2.2.1, h0.2.2.2.2.2.2]
  exact ⟨h.1, h.2.1, h.1, hg, h.2.2.2.2.1, h.2.2.2.2.2.1, h.2.2.2.2.2.2⟩

theorem ShannonNewT_nbuf (key : List Nat) : (ShannonNewT key).nbuf = 0 := by
  rw [(ShannonNewT_fields key).2.2.2.2.2.2, (loadKeyT_frame seedState key).2.2.2]
  rfl

theorem ShannonNewT_initR (key : List Nat) : (ShannonNewT key).initR = (ShannonNewT key).r := by
  rw [(ShannonNewT_fields key).2.2.1, (ShannonNewT_fields key).1]

theorem NonceT_fields (s : Shannon) (nonce : List Nat) :
    (NonceT s nonce).r = (loadKeyT (nonceBase s) nonce).r ∧
    (NonceT s nonce).crc = (loadKeyT (nonceBase s) nonce).crc ∧
    (NonceT s nonce).initR = (loadKeyT (nonceBase s) nonce).initR ∧
    (NonceT s nonce).konst = (loadKeyT (nonceBase s) nonce).r.getD 0 0 ∧
    (NonceT s nonce).sbuf = (loadKeyT (nonceBase s) nonce).sbuf ∧
    (NonceT s nonce).mbuf = (loadKeyT (nonceBase s) nonce).mbuf ∧
    (NonceT s nonce).nbuf = 0 := by
  unfold NonceT
  exact ⟨rfl, rfl, rfl, rfl, rfl, rfl, rfl⟩

theorem len16_nonceBase {s : Shannon} (h : Len16 s) : Len16 (nonceBase s) :=
  ⟨h.2.2, h.2.1, h.2.2⟩

theorem wf_nonceBase {s : Shannon} (h : WF s) : WF (nonceBase s) :=
  ⟨h.2.2.1, h.2.1, h.2.2.1, (by decide : initKonst < 2 ^ 32), h.2.2.2.2.1, h.2.2.2.2.2.1,
    h.2.2.2.2.2.2⟩

theorem Nonce_eq {s : Shannon} (nonce : List Nat) (h : Len16 s) :
    Nonce s nonce = some (NonceT s nonce) := by
  have h1 := len16_loadKeyT nonce (len16_nonceBase h)
  have e := loadKey_eq nonce (len16_nonceBase h)
  unfold Nonce NonceT
  simp only [reloadState, goCopy_eq (h.1.trans h.2.2.symm), Option.bind_eq_bind]
  change (loadKey (nonceBase s) nonce).bind _ = _
  rw [e]
  simp only [Option.some_bind]
  rw [genKonst_eq h1.1]
  rfl

theorem len16_NonceT {s : Shannon} (nonce : List Nat) (h : Len16 s) :
    Len16 (NonceT s nonce) := by
  have h1 := len16_loadKeyT nonce (len16_nonceBase h)
  have h0 := NonceT_fields s nonce
  unfold Len16 at h1 ⊢
  rw [h0.1, h0.2.1, h0.2.2.1]
  exact h1

theorem wf_NonceT {s : Shannon} {nonce : List Nat} (h : WF s) (hk : IsBytes nonce) :
    WF (NonceT s nonce) := by
  have h1 := wf_loadKeyT (wf_nonceBase h) hk
  have h0 := NonceT_fields s nonce
  have hg := isWords_getD h1.1 0
  unfold WF at h1 ⊢
  rw [h0.1, h0.2.1, h0.2.2.1, h0.2.2.2.1, h0.2.2.2.2.1, h0.2.2.2.2.2.1, h0.2.2.2.2.2.2]
  exact ⟨h1.1, h1.2.1, h1.2.2.1, hg, h1.2.2.2.2.1, h1.2.2.2.2.2.1, by norm_num⟩

theorem NonceT_nbuf (s : Shannon) (nonce : List Nat) : (NonceT s nonce).nbuf = 0 :=
  (NonceT_fields s nonce).2.2.2.2.2.2

theorem NonceT_initR (s : Shannon) (nonce : List Nat) : (NonceT s nonce).initR = s.initR := by
  rw [(NonceT_fields s nonce).2.2.1, (loadKeyT_frame (nonceBase s) nonce).1]
  rfl

/-! ## Finalization -/

theorem shr32_zero (x : Nat) : shr32 x 0 = x := by simp [shr32]

theorem shr32_16 (x : Nat) : shr32 x 16 = shr32 (shr32 x 8) 8 := by
  simp [shr32, Nat.shiftRight_eq_div_pow, Nat.div_div_eq_div_mul]

theorem finishWords_cons (s : Shannon) {word : List Nat} (rest : List (List Nat))
    (h1 : 1 ≤ word.length) (h4 : word.length ≤ 4) :
    finishWords s (word :: rest) =
      (cycle s).bind (fun s1 => (finishWords s1 rest).bind (fun p =>
        some (p.1, (leBytes s1.sbuf).take word.length ++ p.2))) := by
  match word, h1, h4 with
  | [a], _, _ =>
    simp [finishWords, tailLoop, setIdx, leBytes, shr32_zero]
  | [a, b], _, _ =>
    simp [finishWords, tailLoop, setIdx, leBytes, shr32_zero]
  | [a, b, c], _, _ =>
    simp [finishWords, tailLoop, setIdx, leBytes, shr32_zero, shr32_16]
  | [a, b, c, d], _, _ =>
    simp [finishWords, writeLittleEndian, setIdx, leBytes]
  | _ :: _ :: _ :: _ :: _ :: _, _, h => simp at h

theorem finishWordsT_cons (s : Shannon) (word : List Nat) (rest : List (List Nat)) :
    finishWordsT s (word :: rest) = ((finishWordsT (cycleT s) rest).1,
      (leBytes (cycleT s).sbuf).take word.length ++ (finishWordsT (cycleT s) rest).2) := rfl

theorem finishWords_eq : ∀ (ws : List (List Nat)) (s : Shannon), s.r.length = 16 →
    (∀ w ∈ ws, 1 ≤ w.length ∧ w.length ≤ 4) → finishWords s ws = some (finishWordsT s ws) := by
  intro ws
  induction ws with
  | nil => intro s _ _; rfl
  | cons w ws ih =>
    intro s h hw
    obtain ⟨h1, h4⟩ := hw w (List.mem_cons_self _ _)
    rw [finishWords_cons s ws h1 h4, cycle_eq h, Option.some_bind,
      ih (cycleT s) (length_cycleReg _ h) (fun w' hw' => hw w' (List.mem_cons_of_mem _ hw')),
      Option.some_bind, finishWordsT_cons]

theorem finishWordsT_state : ∀ (ws : List (List Nat)) (s : Shannon),
    (finishWordsT s ws).1 = cyclesT ws.length s := by
  intro ws
  induction ws with
  | nil => intro s; rw [List.length_nil, cyclesT_zero]; rfl
  | cons w ws ih =>
    intro s
    rw [finishWordsT_cons, List.length_cons, cyclesT_succ]
    exact ih (cycleT s)

theorem finishFold_cases (s : Shannon) :
    (s.nbuf = 0 ∧ finishFold s = s) ∨ (s.nbuf ≠ 0 ∧ finishFold s = macT s s.mbuf) := by
  unfold finishFold
  by_cases h : s.nbuf = 0
  · left; exact ⟨h, by simp [h]⟩
  · right; exact ⟨h, by simp [h]⟩

theorem len16_finishFold {s : Shannon} (h : Len16 s) : Len16 (finishFold s) := by
  rcases finishFold_cases s with ⟨_, e⟩ | ⟨_, e⟩
  · rw [e]; exact h
  · rw [e]; exact len16_macT _ h

theorem finishFold_initR (s : Shannon) : (finishFold s).initR = s.initR := by
  rcases finishFold_cases s with ⟨_, e⟩ | ⟨_, e⟩
  · rw [e]
  · rw [e]; rfl

theorem finishMark_fields (s : Shannon) :
    (finishMark s).r = (xorKeypT (cycleT (finishFold s))
      (initKonst ^^^ shl32 (toU32 (cycleT (finishFold s)).nbuf) 3)).r ∧
    (finishMark s).crc = (finishFold s).crc ∧
    (finishMark s).initR = (finishFold s).initR ∧
    (finishMark s).nbuf = 0 := by
  unfold finishMark
  exact ⟨rfl, rfl, rfl, rfl⟩

theorem finishAdd_fields (s : Shannon) :
    (finishAdd s).r = xorRegs (finishMark s).r (finishMark s).crc ∧
    (finishAdd s).crc = (finishMark s).crc ∧
    (finishAdd s).initR = (finishMark s).initR ∧
    (finishAdd s).nbuf = (finishMark s).nbuf := by
  unfold finishAdd
  exact ⟨rfl, rfl, rfl, rfl⟩

theorem len16_finishMark {s : Shannon} (h : Len16 s) : Len16 (finishMark s) := by
  have h1 := len16_finishFold h
  have h2 := len16_xorKeypT (initKonst ^^^ shl32 (toU32 (cycleT (finishFold s)).nbuf) 3)
    (len16_cycleT h1)
  have h0 := finishMark_fields s
  unfold Len16 at h1 h2 ⊢
  rw [h0.1, h0.2.1, h0.2.2.1]
  exact ⟨h2.1, h1.2.1, h1.2.2⟩

theorem len16_finishAdd {s : Shannon} (h : Len16 s) : Len16 (finishAdd s) := by
  have h1 := len16_finishMark h
  have h0 := finishAdd_fields s
  unfold Len16 at h1 ⊢
  rw [h0.1, h0.2.1, h0.2.2.1]
  exact ⟨length_xorRegs h1.1 h1.2.1, h1.2.1, h1.2.2⟩

theorem len16_finishPreT {s : Shannon} (h : Len16 s) : Len16 (finishPreT s) :=
  len16_cyclesT 16 _ (len16_finishAdd h)

theorem finishPreT_frame (s : Shannon) :
    (finishPreT s).initR = s.initR ∧ (finishPreT s).nbuf = 0 := by
  have h1 := cyclesT_frame 16 (finishAdd s)
  have h2 := finishAdd_fields s
  have h3 := finishMark_fields s
  unfold finishPreT
  constructor
  · rw [h1.2.1, h2.2.2.1, h3.2.2.1, finishFold_initR]
  · rw [h1.2.2.2.2, h2.2.2.2, h3.2.2.2]

theorem specFinalization_eq {s : Shannon} (h : Len16 s) :
    specFinalization s = some (finishPreT s) := by
  have h1 := len16_finishFold h
  have h2 := len16_cycleT h1
  have h3 := len16_xorKeypT (initKonst ^^^ shl32 (toU32 (cycleT (finishFold s)).nbuf) 3) h2
  have e1 : (if s.nbuf ≠ 0 then macFunc s s.mbuf else some s) = some (finishFold s) := by
    unfold finishFold
    by_cases hn : s.nbuf = 0
    · simp [hn]
    · simp [hn, macFunc_eq _ h.1 h.2.1]
  unfold specFinalization
  rw [e1, Option.some_bind, cycle_eq h1.1, Option.some_bind, xorKeyp_eq _ h2.1, Option.some_bind]
  simp only [n]
  rw [xorLoop16 h3.1 h3.2.1, Option.some_bind]
  unfold diffuse fold
  simp only [n]
  rw [cycles_eq 16 _ (length_xorRegs h3.1 h3.2.1)]
  rfl

theorem Finish_split (s : Shannon) (buf : List Nat) :
    Finish s buf = (specFinalization s).bind (fun s0 => finishWords s0 (chunks4 buf)) := by
  unfold Finish specFinalization
  by_cases hn : s.nbuf = 0
  · simp only [hn, ne_eq, not_true_eq_false, if_false, Option.bind_eq_bind, chunkBytes_four,
      Option.some_bind, Option.bind_assoc]
  · simp only [hn, ne_eq, not_false_eq_true, if_true, Option.bind_eq_bind, chunkBytes_four,
      Option.some_bind, Option.bind_assoc]

theorem Finish_eq {s : Shannon} (buf : List Nat) (h : Len16 s) :
    Finish s buf = some (FinishT s buf) := by
  rw [Finish_split, specFinalization_eq h, Option.some_bind,
    finishWords_eq _ _ (len16_finishPreT h).1
      (fun w hw => ⟨(chunks4_mem buf w hw).1, (chunks4_mem buf w hw).2.1⟩)]
  rfl

theorem FinishT_state (s : Shannon) (buf : List Nat) :
    (FinishT s buf).1 = cyclesT (chunks4 buf).length (finishPreT s) := by
  unfold FinishT
  exact finishWordsT_state _ _

theorem len16_FinishT {s : Shannon} (buf : List Nat) (h : Len16 s) :
    Len16 (FinishT s buf).1 := by
  rw [FinishT_state]
  exact len16_cyclesT _ _ (len16_finishPreT h)

theorem FinishT_frame (s : Shannon) (buf : List Nat) :
    (FinishT s buf).1.initR = s.initR ∧ (FinishT s buf).1.nbuf = 0 := by
  rw [FinishT_state]
  have h1 := cyclesT_frame (chunks4 buf).length (finishPreT s)
  have h2 := finishPreT_frame s
  exact ⟨h1.2.1.trans h2.1, h1.2.2.2.2.trans h2.2⟩

/-! ## The tag as a keystream prefix -/

theorem streamT_zero (s : Shannon) : streamT 0 s = [] := rfl

theorem streamT_succ (k : Nat) (s : Shannon) :
    streamT (k + 1) s = (cycleT s).sbuf :: streamT k (cycleT s) := rfl

theorem specStreamWords_eq : ∀ (k : Nat) (s : Shannon), s.r.length = 16 →
    specStreamWords k s = some (streamT k s) := by
  intro k
  induction k with
  | zero => intro s _; rfl
  | succ k ih =>
    intro s h
    simp only [specStreamWords, Option.bind_eq_bind, cycle_eq h, Option.some_bind,
      ih (cycleT s) (length_cycleReg _ h), streamT_succ]

theorem leBytes_eq_specLE (w : Nat) : leBytes w = specLE w := leBytes_arith w

theorem stream_bytes_length : ∀ (k : Nat) (s : Shannon),
    ((streamT k s).flatMap leBytes).length = 4 * k := by
  intro k
  induction k with
  | zero => intro s; rfl
  | succ k ih =>
    intro s
    rw [streamT_succ, List.flatMap_cons, List.length_append, ih (cycleT s), leBytes_length]
    omega

theorem streamT_add : ∀ (a b : Nat) (s : Shannon),
    streamT (a + b) s = streamT a s ++ streamT b (cyclesT a s) := by
  intro a
  induction a with
  | zero => intro b s; rw [Nat.zero_add, cyclesT_zero]; rfl
  | succ a ih =>
    intro b s
    rw [Nat.add_right_comm, streamT_succ, ih b (cycleT s), streamT_succ, cyclesT_succ]
    rfl

theorem finishWordsT_tag (buf : List Nat) : ∀ s : Shannon,
    (finishWordsT s (chunks4 buf)).2 =
      ((streamT ((buf.length + 3) / 4) s).flatMap leBytes).take buf.length := by
  induction buf using chunks4.induct with
  | case1 => intro s; rfl
  | case2 a =>
    intro s
    simp [chunks4, finishWordsT, streamT, leBytes]
  | case3 a b =>
    intro s
    simp [chunks4, finishWordsT, streamT, leBytes]
  | case4 a b c =>
    intro s
    simp [chunks4, finishWordsT, streamT, leBytes]
  | case5 a b c d rest ih =>
    intro s
    have e : ((a :: b :: c :: d :: rest).length + 3) / 4 = (rest.length + 3) / 4 + 1 := by
      simp only [List.length_cons]
      omega
    rw [e, streamT_succ, List.flatMap_cons]
    simp only [chunks4, finishWordsT_cons, List.length_cons, List.length_nil]
    rw [ih (cycleT s)]
    have e2 : rest.length + 1 + 1 + 1 + 1 = (leBytes (cycleT s).sbuf).length + rest.length := by
      rw [leBytes_length]; omega
    rw [e2, List.take_append]
    congr 1

theorem tag_truncate (s : Shannon) {m k : Nat} (hm : m ≤ k) :
    ((streamT ((m + 3) / 4) s).flatMap leBytes).take m =
      (((streamT ((k + 3) / 4) s).flatMap leBytes).take k).take m := by
  obtain ⟨d, hd⟩ : ∃ d, (k + 3) / 4 = (m + 3) / 4 + d := ⟨(k + 3) / 4 - (m + 3) / 4, by omega⟩
  rw [List.take_take, Nat.min_eq_left hm, hd, streamT_add, List.flatMap_append,
    List.take_append_of_le_length]
  rw [stream_bytes_length]
  omega

/-! ## `process` returns and keeps the invariant -/

theorem byteFrame_encrypt : ByteFrame encryptByte := fun _ _ => ⟨rfl, rfl, rfl, rfl⟩

theorem byteFrame_decrypt : ByteFrame decryptByte := fun _ _ => ⟨rfl, rfl, rfl, rfl⟩

theorem wordFrame_encrypt : WordFrame encryptWord := fun s t h =>
  ⟨macT s t, t ^^^ s.sbuf, encryptWord_eq t h, len16_macT _ h, rfl, rfl⟩

theorem wordFrame_decrypt : WordFrame decryptWord := fun s t h =>
  ⟨macT s (t ^^^ s.sbuf), t ^^^ s.sbuf, decryptWord_eq t h, len16_macT _ h, rfl, rfl⟩

theorem pendingLoop_nil (bcb : Shannon → Nat → Shannon × Nat) (s : Shannon) :
    pendingLoop bcb s [] = if s.nbuf > 0 then some (s, [], true) else some (s, [], false) := rfl

theorem pendingLoop_cons (bcb : Shannon → Nat → Shannon × Nat) (s : Shannon) (b : Nat)
    (bs : List Nat) :
    pendingLoop bcb s (b :: bs) =
      if s.nbuf > 0 then
        (macFunc { (bcb s b).1 with nbuf := usub (bcb s b).1.nbuf 8 } (bcb s b).1.mbuf).bind
          (fun s2 => (pendingLoop bcb s2 bs).bind
            (fun p => some (p.1, (bcb s b).2 :: p.2.1, p.2.2)))
      else some (s, b :: bs, false) := rfl

theorem usub_eight {a : Nat} (h8 : 8 ≤ a) (h : a ≤ 32) : usub a 8 = a - 8 := by
  unfold usub
  omega

theorem pendingLoop_done (bcb : Shannon → Nat → Shannon × Nat) : ∀ (buf : List Nat)
    (s s1 : Shannon) (buf1 : List Nat),
    pendingLoop bcb s buf = some (s1, buf1, false) → s1.nbuf = 0 := by
  intro buf
  induction buf with
  | nil =>
    intro s s1 buf1 h
    rw [pendingLoop_nil] at h
    by_cases hn : s.nbuf > 0
    · simp [hn] at h
    · simp only [hn, if_false, Option.some.injEq, Prod.mk.injEq] at h
      rw [← h.1]; omega
  | cons b bs ih =>
    intro s s1 buf1 h
    rw [pendingLoop_cons] at h
    by_cases hn : s.nbuf > 0
    · simp only [hn, if_true] at h
      cases hm : macFunc { (bcb s b).1 with nbuf := usub (bcb s b).1.nbuf 8 } (bcb s b).1.mbuf with
      | none => rw [hm] at h; simp at h
      | some s2 =>
        rw [hm, Option.some_bind] at h
        cases hp : pendingLoop bcb s2 bs with
        | none => rw [hp] at h; simp at h
        | some p =>
          obtain ⟨s3, buf3, ret⟩ := p
          rw [hp, Option.some_bind] at h
          simp only [Option.some.injEq, Prod.mk.injEq] at h
          obtain ⟨e1, _, e3⟩ := h
          subst e1 e3
          exact ih s2 _ buf3 hp
    · simp only [hn, if_false, Option.some.injEq, Prod.mk.injEq] at h
      rw [← h.1]; omega

theorem pendingLoop_total {bcb : Shannon → Nat → Shannon × Nat} (hb : ByteFrame bcb) :
    ∀ (buf : List Nat) (s : Shannon), Len16 s → s.nbuf % 8 = 0 → s.nbuf ≤ 32 →
    ∃ s' out ret, pendingLoop bcb s buf = some (s', out, ret) ∧ Len16 s' ∧
      s'.nbuf % 8 = 0 ∧ s'.nbuf ≤ 32 ∧ s'.initR = s.initR ∧ out.length = buf.length := by
  intro buf
  induction buf with
  | nil =>
    intro s hl h8 h32
    rw [pendingLoop_nil]
    by_cases hn : s.nbuf > 0
    · exact ⟨s, [], true, by simp [hn], hl, h8, h32, rfl, rfl⟩
    · exact ⟨s, [], false, by simp [hn], hl, h8, h32, rfl, rfl⟩
  | cons b bs ih =>
    intro s hl h8 h32
    rw [pendingLoop_cons]
    by_cases hn : s.nbuf > 0
    · obtain ⟨f1, f2, f3, f4⟩ := hb s b
      have hl1 : Len16 { (bcb s b).1 with nbuf := usub (bcb s b).1.nbuf 8 } :=
        ⟨(congrArg List.length f1).trans hl.1, (congrArg List.length f2).trans hl.2.1,
          (congrArg List.length f3).trans hl.2.2⟩
      have hu : usub (bcb s b).1.nbuf 8 = s.nbuf - 8 := by
        rw [f4]; exact usub_eight (by omega) h32
      have hl2 := len16_macT (bcb s b).1.mbuf hl1
      obtain ⟨s', out, ret, e, g1, g2, g3, g4, g5⟩ :=
        ih (macT { (bcb s b).1 with nbuf := usub (bcb s b).1.nbuf 8 } (bcb s b).1.mbuf) hl2
          (by show usub (bcb s b).1.nbuf 8 % 8 = 0; rw [hu]; omega)
          (by show usub (bcb s b).1.nbuf 8 ≤ 32; rw [hu]; omega)
      refine ⟨s', (bcb s b).2 :: out, ret, ?_, g1, g2, g3, g4.trans f3, by simp [g5]⟩
      simp only [hn, if_true]
      rw [macFunc_eq _ hl1.1 hl1.2.1, Option.some_bind, e, Option.some_bind]
    · exact ⟨s, b :: bs, false, by simp [hn], hl, h8, h32, rfl, rfl⟩

theorem process_pending {s : Shannon} (buf : List Nat)
    (wcb : Shannon → Nat → Option (Shannon × Nat)) (bcb : Shannon → Nat → Shannon × Nat)
    (h : s.nbuf ≠ 0) :
    process s buf wcb bcb = (pendingLoop bcb s buf).bind (fun p =>
      if p.2.2 = true then some (p.1, p.2.1) else process p.1 p.2.1 wcb bcb) := by
  cases hp : pendingLoop bcb s buf with
  | none =>
    unfold process
    simp [h, hp]
  | some p =>
    obtain ⟨s1, buf1, ret⟩ := p
    cases ret with
    | true =>
      unfold process
      simp [h, hp]
    | false =>
      have h0 := pendingLoop_done bcb buf s s1 buf1 hp
      rw [Option.some_bind]
      simp only [Bool.false_eq_true, if_false]
      rw [process_aligned buf1 wcb bcb h0]
      unfold process
      simp only [h, ne_eq, not_false_eq_true, if_true, hp, Option.bind_eq_bind, Option.some_bind,
        Bool.false_eq_true, if_false, andNot_three, chunkBytes_four]

theorem wordsLoop_total {wcb : Shannon → Nat → Option (Shannon × Nat)} (hw : WordFrame wcb) :
    ∀ (k : Nat) (P : List Nat), P.length = 4 * k → ∀ s : Shannon, Len16 s →
    ∃ s' C, wordsLoop wcb s (chunks4 P) = some (s', C) ∧ C.length = P.length ∧ Len16 s' ∧
      s'.nbuf = s.nbuf ∧ s'.initR = s.initR := by
  intro k P hk
  refine list4_induction
    (motive := fun P => ∀ s : Shannon, Len16 s →
      ∃ s' C, wordsLoop wcb s (chunks4 P) = some (s', C) ∧ C.length = P.length ∧ Len16 s' ∧
        s'.nbuf = s.nbuf ∧ s'.initR = s.initR) ?_ ?_ k P hk
  · intro s hl
    exact ⟨s, [], rfl, rfl, hl, rfl, rfl⟩
  · intro a b c d rest ih s hl
    obtain ⟨s1, t1, e1, g1, g2, g3⟩ := hw (cycleT s) (leWord a b c d) (len16_cycleT hl)
    obtain ⟨s2, C, e2, f1, f2, f3, f4⟩ := ih s1 g1
    refine ⟨s2, leBytes t1 ++ C, ?_, ?_, f2, f3.trans g2, f4.trans g3⟩
    · simp only [chunks4, wordsLoop, Option.bind_eq_bind]
      rw [cycle_eq hl.1]
      simp only [Option.some_bind, readLittleEndian_four, e1, writeLittleEndian_four, e2]
    · simp only [List.length_append, leBytes_length, f1, List.length_cons]
      omega

theorem extraLoop_frame {bcb : Shannon → Nat → Shannon × Nat} (hb : ByteFrame bcb) :
    ∀ (P : List Nat) (s : Shannon), 8 * P.length ≤ s.nbuf → s.nbuf ≤ 32 →
      (extraLoop bcb s P).1.r = s.r ∧ (extraLoop bcb s P).1.crc = s.crc ∧
      (extraLoop bcb s P).1.initR = s.initR ∧
      (extraLoop bcb s P).1.nbuf = s.nbuf - 8 * P.length ∧
      (extraLoop bcb s P).2.length = P.length := by
  intro P
  induction P with
  | nil => intro s _ _; exact ⟨rfl, rfl, rfl, rfl, rfl⟩
  | cons b P ih =>
    intro s h8 h32
    obtain ⟨f1, f2, f3, f4⟩ := hb s b
    simp only [List.length_cons] at h8
    have hu : usub (bcb s b).1.nbuf 8 = s.nbuf - 8 := by
      rw [f4]; exact usub_eight (by omega) h32
    obtain ⟨g1, g2, g3, g4, g5⟩ := ih { (bcb s b).1 with nbuf := usub (bcb s b).1.nbuf 8 }
      (by show 8 * P.length ≤ usub (bcb s b).1.nbuf 8; rw [hu]; omega)
      (by show usub (bcb s b).1.nbuf 8 ≤ 32; rw [hu]; omega)
    rw [extraLoop_cons]
    refine ⟨g1.trans f1, g2.trans f2, g3.trans f3, ?_, by simp [g5]⟩
    show (extraLoop bcb { (bcb s b).1 with nbuf := usub (bcb s b).1.nbuf 8 } P).1.nbuf = _
    rw [g4]
    show usub (bcb s b).1.nbuf 8 - 8 * P.length = _
    rw [hu, List.length_cons]
    omega

/-- From a word-aligned state `process` returns, and the state it returns
satisfies the invariant. -/
theorem process_total_aligned {wcb : Shannon → Nat → Option (Shannon × Nat)}
    {bcb : Shannon → Nat → Shannon × Nat} (hw : WordFrame wcb) (hb : ByteFrame bcb)
    {s : Shannon} (hl : Len16 s) (h0 : s.nbuf = 0) (buf : List Nat) :
    ∃ s' out, process s buf wcb bcb = some (s', out) ∧ Inv s' ∧ s'.initR = s.initR ∧
      out.length = buf.length := by
  obtain ⟨s1, C1, e1, f1, f2, f3, f4⟩ :=
    wordsLoop_total hw (buf.length / 4) _ (take_words_length buf) s hl
  rw [take_words_length] at f1
  rw [process_aligned buf wcb bcb h0, e1, Option.some_bind]
  by_cases hx : (buf.drop (4 * (buf.length / 4))).length > 0
  · have hl2 := len16_cycleT f2
    have hxl : (buf.drop (4 * (buf.length / 4))).length = buf.length % 4 := by
      rw [List.length_drop]; omega
    obtain ⟨g1, g2, g3, g4, g5⟩ := extraLoop_frame hb (buf.drop (4 * (buf.length / 4)))
      { { cycleT s1 with mbuf := 0 } with nbuf := 32 }
      (by show 8 * _ ≤ 32; rw [hxl]; omega) (le_refl 32)
    simp only [hx, if_true, cycle_eq f2.1, Option.some_bind]
    refine ⟨_, _, rfl, ⟨⟨?_, ?_, ?_⟩, ?_, ?_⟩, ?_, ?_⟩
    · rw [g1]; exact hl2.1
    · rw [g2]; exact hl2.2.1
    · rw [g3]; exact hl2.2.2
    · rw [g4, hxl]
      show (32 - 8 * (buf.length % 4)) % 8 = 0
      omega
    · rw [g4]
      show 32 - 8 * _ ≤ 32
      omega
    · rw [g3]; exact f4
    · rw [List.length_append, f1, g5, hxl]
      omega
  · have hnil : buf.drop (4 * (buf.length / 4)) = [] := List.length_eq_zero.mp (by omega)
    simp only [hx, if_false]
    refine ⟨_, _, rfl, ⟨f2, ?_, ?_⟩, f4, ?_⟩
    · rw [f3, h0]
    · rw [f3, h0]; omega
    · have := congrArg List.length hnil
      rw [List.length_drop] at this
      rw [List.length_append, f1, hnil]
      simp only [List.length_nil] at this ⊢
      omega

/-- From a state satisfying the invariant `process` returns, and the state it
returns satisfies the invariant. -/
theorem process_total {wcb : Shannon → Nat → Option (Shannon × Nat)}
    {bcb : Shannon → Nat → Shannon × Nat} (hw : WordFrame wcb) (hb : ByteFrame bcb)
    {s : Shannon} (hi : Inv s) (buf : List Nat) :
    ∃ s' out, process s buf wcb bcb = some (s', out) ∧ Inv s' ∧ s'.initR = s.initR ∧
      out.length = buf.length := by
  by_cases h0 : s.nbuf = 0
  · exact process_total_aligned hw hb hi.1 h0 buf
  · obtain ⟨s1, buf1, ret, e, g1, g2, g3, g4, g5⟩ :=
      pendingLoop_total hb buf s hi.1 hi.2.1 hi.2.2
    rw [process_pending buf wcb bcb h0, e, Option.some_bind]
    cases ret with
    | true =>
      exact ⟨s1, buf1, by simp, ⟨g1, g2, g3⟩, g4, g5⟩
    | false =>
      have hz := pendingLoop_done bcb buf s s1 buf1 e
      obtain ⟨s2, out, e2, k1, k2, k3⟩ := process_total_aligned hw hb g1 hz buf1
      exact ⟨s2, out, by simpa using e2, k1, k2.trans g4, k3.trans g5⟩

/-! ## The tag and its check -/

theorem chunks4_length (l : List Nat) : (chunks4 l).length = (l.length + 3) / 4 := by
  induction l using chunks4.induct with
  | case1 => rfl
  | case2 a => simp [chunks4]
  | case3 a b => simp [chunks4]
  | case4 a b c => simp [chunks4]
  | case5 a b c d rest ih =>
    simp only [chunks4, List.length_cons, ih]
    omega

theorem FinishT_tag (s : Shannon) (buf : List Nat) :
    (FinishT s buf).2 =
      ((streamT ((buf.length + 3) / 4) (finishPreT s)).flatMap leBytes).take buf.length := by
  unfold FinishT
  exact finishWordsT_tag buf (finishPreT s)

theorem FinishT_tag_length (s : Shannon) (buf : List Nat) :
    (FinishT s buf).2.length = buf.length := by
  rw [FinishT_tag, List.length_take, stream_bytes_length]
  omega

theorem FinishT_congr (s : Shannon) {buf buf' : List Nat} (h : buf.length = buf'.length) :
    FinishT s buf = FinishT s buf' := by
  apply Prod.ext
  · rw [FinishT_state, FinishT_state, chunks4_length, chunks4_length, h]
  · rw [FinishT_tag, FinishT_tag, h]

theorem bytesCompare_eq_zero : ∀ (a b : List Nat), bytesCompare a b = 0 ↔ a = b := by
  intro a
  induction a with
  | nil =>
    intro b
    cases b with
    | nil => simp [bytesCompare]
    | cons y ys => simp [bytesCompare]
  | cons x xs ih =>
    intro b
    cases b with
    | nil => simp [bytesCompare]
    | cons y ys =>
      simp only [bytesCompare, List.cons.injEq]
      by_cases h1 : x < y
      · simp only [h1, if_true]
        constructor
        · intro h; simp at h
        · intro h; omega
      · by_cases h2 : y < x
        · simp only [h1, h2, if_false, if_true]
          constructor
          · intro h; simp at h
          · intro h; omega
        · simp only [h1, h2, if_false, ih ys]
          constructor
          · intro h; exact ⟨by omega, h⟩
          · intro h; exact h.2

/-- The result of `CheckMac` in terms of the result of `Finish` on the buffer
that `CheckMac` allocates. -/
theorem CheckMac_map (s : Shannon) (expected : List Nat) :
    CheckMac s expected = (Finish s (List.replicate expected.length 0)).map
      (fun p => (p.1, if p.2 = expected then none else some macMismatch)) := by
  cases h : Finish s (List.replicate expected.length 0) with
  | none => simp [CheckMac, h]
  | some p =>
    obtain ⟨s', actual⟩ := p
    by_cases he : actual = expected
    · simp [CheckMac, h, bytesCompare_eq_zero, he]
    · simp [CheckMac, h, bytesCompare_eq_zero, he]

/-! # Claims -/

/-- C1. Round trip: for every key `K`, nonce `N` and plaintext `P` (byte
sequences of any length), the engine built by `ShannonNew K` followed by
`Nonce N` encrypts `P` in one `Encrypt` call to a ciphertext `C` of the same
length, and an engine built the same way decrypts `C` in one `Decrypt` call
back to `P`. -/
theorem roundtrip_fresh (K N P : List Nat) (hK : IsBytes K) (hN : IsBytes N)
    (hP : IsBytes P) :
    ∃ e s1 C, (ShannonNew K).bind (fun e0 => Nonce e0 N) = some e ∧
      Encrypt e P = some (s1, C) ∧ C.length = P.length ∧
      ∃ s2, Decrypt e C = some (s2, P) := by
  have hl := len16_NonceT N (len16_ShannonNewT K)
  have hw := wf_NonceT (wf_ShannonNewT hK) hN
  obtain ⟨s', C, e1, e2, e3, _⟩ :=
    process_roundtrip hl hw (NonceT_nbuf (ShannonNewT K) N) hP
  refine ⟨NonceT (ShannonNewT K) N, s', C, ?_, e1, e3, s', e2⟩
  rw [ShannonNew_eq, Option.some_bind, Nonce_eq N (len16_ShannonNewT K)]

theorem roundtrip_fresh_witness :
    IsBytes [1, 2, 3, 4, 5] ∧ IsBytes [9, 8, 7] ∧ IsBytes [10, 20, 30, 40, 50, 60, 70] ∧
    ∃ e s1 C, (ShannonNew [1, 2, 3, 4, 5]).bind (fun e0 => Nonce e0 [9, 8, 7]) = some e ∧
      Encrypt e [10, 20, 30, 40, 50, 60, 70] = some (s1, C) ∧
      C.length = [10, 20, 30, 40, 50, 60, 70].length ∧
      ∃ s2, Decrypt e C = some (s2, [10, 20, 30, 40, 50, 60, 70]) :=
  ⟨by decide, by decide, by decide,
    roundtrip_fresh [1, 2, 3, 4, 5] [9, 8, 7] [10, 20, 30, 40, 50, 60, 70]
      (by decide) (by decide) (by decide)⟩

/-- C2. MAC agreement: from every well-typed state with 16-word registers
and `nbuf = 0`, for every plaintext `P` and every tag buffer `buf`, `Encrypt P`
followed by `Finish` into `buf` returns a ciphertext `C` and a tag `T` of the
length of `buf`, and `Decrypt C` on the same starting state followed by
`CheckMac T` returns `nil`. -/
theorem mac_agreement (s : Shannon) (hl : Len16 s) (hw : WF s) (h0 : s.nbuf = 0)
    (P : List Nat) (hP : IsBytes P) (buf : List Nat) :
    ∃ s1 C s2 T, Encrypt s P = some (s1, C) ∧ Finish s1 buf = some (s2, T) ∧
      T.length = buf.length ∧
      ∃ s3 s4, Decrypt s C = some (s3, P) ∧ CheckMac s3 T = some (s4, none) := by
  obtain ⟨s1, C, e1, e2, _, _, hl1, _⟩ := process_roundtrip hl hw h0 hP
  have hz : (List.replicate (FinishT s1 buf).2.length 0).length = buf.length := by
    rw [List.length_replicate, FinishT_tag_length]
  refine ⟨s1, C, (FinishT s1 buf).1, (FinishT s1 buf).2, e1, Finish_eq buf hl1,
    FinishT_tag_length s1 buf, s1, (FinishT s1 buf).1, e2, ?_⟩
  rw [CheckMac_map, Finish_eq _ hl1, Option.map_some', FinishT_congr s1 hz]
  simp

theorem mac_agreement_witness :
    Len16 seedState ∧ WF seedState ∧ seedState.nbuf = 0 ∧ IsBytes [1, 2, 3, 4, 5] ∧
    ∃ s1 C s2 T, Encrypt seedState [1, 2, 3, 4, 5] = some (s1, C) ∧
      Finish s1 [0, 0, 0, 0, 0, 0] = some (s2, T) ∧
      T.length = [0, 0, 0, 0, 0, 0].length ∧
      ∃ s3 s4, Decrypt seedState C = some (s3, [1, 2, 3, 4, 5]) ∧
        CheckMac s3 T = some (s4, none) :=
  ⟨by decide, by decide, by decide, by decide,
    mac_agreement seedState (by decide) (by decide) (by decide) [1, 2, 3, 4, 5] (by decide)
      [0, 0, 0, 0, 0, 0]⟩

/-- C4. `CheckMac expected` returns `nil` exactly when the tag that `Finish`
writes into a buffer of `len(expected)` bytes from the same state equals
`expected`, and the MAC-mismatch error otherwise; the state after `CheckMac`
is the state after that `Finish` call. The first part holds for every state
(with the buffer `CheckMac` allocates); on 16-word registers `Finish` returns
and its result is the same for every buffer of that length. -/
theorem checkMac_iff_tag (s : Shannon) (expected buf : List Nat) :
    CheckMac s expected = (Finish s (List.replicate expected.length 0)).map
        (fun p => (p.1, if p.2 = expected then none else some macMismatch)) ∧
      (Len16 s → buf.length = expected.length →
        ∃ s' T, Finish s buf = some (s', T) ∧ T.length = expected.length ∧
          CheckMac s expected = some (s', if T = expected then none else some macMismatch)) := by
  refine ⟨CheckMac_map s expected, ?_⟩
  intro hl hb
  have hz : (List.replicate expected.length 0).length = buf.length := by
    rw [List.length_replicate, hb]
  refine ⟨(FinishT s buf).1, (FinishT s buf).2, Finish_eq buf hl, ?_, ?_⟩
  · rw [FinishT_tag_length, hb]
  · rw [CheckMac_map, Finish_eq _ hl, Option.map_some', FinishT_congr s hz]

theorem checkMac_iff_tag_witness :
    Len16 seedState ∧ [7, 7, 7].length = [1, 2, 3].length ∧
      ∃ s' T, Finish seedState [7, 7, 7] = some (s', T) ∧ T.length = [1, 2, 3].length ∧
        CheckMac seedState [1, 2, 3] =
          some (s', if T = [1, 2, 3] then none else some macMismatch) :=
  ⟨by decide, by decide,
    (checkMac_iff_tag seedState [1, 2, 3] [7, 7, 7]).2 (by decide) (by decide)⟩

theorem writeBigEndian_bytes {v : Nat} (h : v < 2 ^ 32) :
    writeBigEndian (List.replicate 4 0) v =
      some [v >>> 24, (v >>> 16) &&& 0xFF, (v >>> 8) &&& 0xFF, v &&& 0xFF] := by
  have e : writeBigEndian (List.replicate 4 0) v =
      some [toByte (shr32 (shr32 (shr32 v 8) 8) 8 &&& 0xFF), toByte (shr32 (shr32 v 8) 8 &&& 0xFF),
        toByte (shr32 v 8 &&& 0xFF), toByte (v &&& 0xFF)] := by
    simp [writeBigEndian, setIdx]
  rw [e]
  simp only [and_ff, shr32_8, toByte, Nat.shiftRight_eq_div_pow]
  congr 1
  congr 1
  · omega
  · congr 1
    · omega
    · congr 1
      · omega
      · congr 1
        omega

/-- C9. For every 32-bit value `v` and every engine state, `NonceU32 v` is
`Nonce` on the four bytes `[v>>24, (v>>16)&0xFF, (v>>8)&0xFF, v&0xFF]`, which
is what `writeBigEndian` writes; `0x01020304` is written as `[1, 2, 3, 4]`. -/
theorem nonceU32_eq_nonce (s : Shannon) (v : Nat) (h : v < 2 ^ 32) :
    NonceU32 s v = Nonce s [v >>> 24, (v >>> 16) &&& 0xFF, (v >>> 8) &&& 0xFF, v &&& 0xFF] ∧
      writeBigEndian (List.replicate 4 0) v =
        some [v >>> 24, (v >>> 16) &&& 0xFF, (v >>> 8) &&& 0xFF, v &&& 0xFF] ∧
      writeBigEndian (List.replicate 4 0) 0x01020304 = some [0x01, 0x02, 0x03, 0x04] := by
  refine ⟨?_, writeBigEndian_bytes h, by decide⟩
  unfold NonceU32
  rw [writeBigEndian_bytes h]
  rfl

theorem nonceU32_eq_nonce_witness :
    0x01020304 < 2 ^ 32 ∧
      NonceU32 seedState 0x01020304 =
        Nonce seedState [0x01020304 >>> 24, (0x01020304 >>> 16) &&& 0xFF,
          (0x01020304 >>> 8) &&& 0xFF, 0x01020304 &&& 0xFF] :=
  ⟨by decide, (nonceU32_eq_nonce seedState 0x01020304 (by decide)).1⟩

/-- C10. Tag truncation: on 16-word registers, `Finish` into a buffer of `n`
bytes returns a tag of exactly `n` bytes, which is the little-endian
serialisation of the successive `sbuf` words cycled out after the
finalization steps, cut to `n` bytes; and `Finish` from the same state into a
buffer of `m ≤ n` bytes returns the first `m` bytes of that tag. -/
theorem finish_tag_prefix (s : Shannon) (hl : Len16 s) (bufm bufn : List Nat)
    (hmn : bufm.length ≤ bufn.length) :
    ∃ s0 ws sn Tn sm Tm, specFinalization s = some s0 ∧
      specStreamWords ((bufn.length + 3) / 4) s0 = some ws ∧
      Finish s bufn = some (sn, Tn) ∧ Tn = (ws.flatMap specLE).take bufn.length ∧
      Tn.length = bufn.length ∧
      Finish s bufm = some (sm, Tm) ∧ Tm = Tn.take bufm.length ∧
      Tm.length = bufm.length := by
  have hfun : leBytes = specLE := funext leBytes_eq_specLE
  refine ⟨finishPreT s, streamT ((bufn.length + 3) / 4) (finishPreT s), (FinishT s bufn).1,
    (FinishT s bufn).2, (FinishT s bufm).1, (FinishT s bufm).2, specFinalization_eq hl,
    specStreamWords_eq _ _ (len16_finishPreT hl).1, Finish_eq bufn hl, ?_,
    FinishT_tag_length s bufn, Finish_eq bufm hl, ?_, FinishT_tag_length s bufm⟩
  · rw [FinishT_tag, hfun]
  · rw [FinishT_tag, FinishT_tag]
    exact tag_truncate (finishPreT s) hmn

theorem finish_tag_prefix_witness :
    Len16 seedState ∧ [0, 0, 0].length ≤ [0, 0, 0, 0, 0, 0].length ∧
    ∃ s0 ws sn Tn sm Tm, specFinalization seedState = some s0 ∧
      specStreamWords (([0, 0, 0, 0, 0, 0].length + 3) / 4) s0 = some ws ∧
      Finish seedState [0, 0, 0, 0, 0, 0] = some (sn, Tn) ∧
      Tn = (ws.flatMap specLE).take [0, 0, 0, 0, 0, 0].length ∧
      Tn.length = [0, 0, 0, 0, 0, 0].length ∧
      Finish seedState [0, 0, 0] = some (sm, Tm) ∧ Tm = Tn.take [0, 0, 0].length ∧
      Tm.length = [0, 0, 0].length :=
  ⟨by decide, by decide,
    finish_tag_prefix seedState (by decide) [0, 0, 0] [0, 0, 0, 0, 0, 0] (by decide)⟩

/-! ## The invariant -/

theorem inv_ShannonNewT (key : List Nat) : Inv (ShannonNewT key) :=
  ⟨len16_ShannonNewT key, by rw [ShannonNewT_nbuf], by rw [ShannonNewT_nbuf]; omega⟩

theorem inv_NonceT {s : Shannon} (nonce : List Nat) (h : Len16 s) : Inv (NonceT s nonce) :=
  ⟨len16_NonceT nonce h, by rw [NonceT_nbuf], by rw [NonceT_nbuf]; omega⟩

theorem inv_FinishT {s : Shannon} (buf : List Nat) (h : Len16 s) : Inv (FinishT s buf).1 :=
  ⟨len16_FinishT buf h, by rw [(FinishT_frame s buf).2], by rw [(FinishT_frame s buf).2]; omega⟩

theorem writeBigEndian_total (v : Nat) :
    ∃ nonce, writeBigEndian (List.replicate 4 0) v = some nonce := by
  simp [writeBigEndian, setIdx]

theorem usub_32 {a : Nat} (h : a ≤ 32) : usub 32 a = 32 - a := by
  have hm : a % 2 ^ 64 = a := Nat.mod_eq_of_lt (lt_of_le_of_lt h (by norm_num))
  unfold usub
  rw [hm]
  omega

/-- C7. State invariant (`Inv`: the three registers hold 16 words each,
`nbuf` is a multiple of 8 not exceeding 32): it holds after `ShannonNew key`
for every key, the empty key included, and from a state satisfying it `Nonce`,
`NonceU32`, `Encrypt`, `Decrypt`, `Finish` and `CheckMac` return for every
input (no index is out of range) a state satisfying it again. Wherever
`nbuf` is positive under the invariant, `nbuf -= 8` and `32 - nbuf` do not
wrap around and the decrement keeps the invariant. -/
theorem inv_preserved :
    (∀ key, ∃ s, ShannonNew key = some s ∧ Inv s) ∧
    (∀ s, Inv s →
      (∀ nonce, ∃ s', Nonce s nonce = some s' ∧ Inv s') ∧
      (∀ v, ∃ s', NonceU32 s v = some s' ∧ Inv s') ∧
      (∀ buf, ∃ s' out, Encrypt s buf = some (s', out) ∧ Inv s') ∧
      (∀ buf, ∃ s' out, Decrypt s buf = some (s', out) ∧ Inv s') ∧
      (∀ buf, ∃ s' tag, Finish s buf = some (s', tag) ∧ Inv s') ∧
      (∀ expected, ∃ s' err, CheckMac s expected = some (s', err) ∧ Inv s') ∧
      (0 < s.nbuf → usub s.nbuf 8 + 8 = s.nbuf ∧ usub 32 s.nbuf + s.nbuf = 32 ∧
        Inv { s with nbuf := usub s.nbuf 8 })) := by
  refine ⟨fun key => ⟨ShannonNewT key, ShannonNew_eq key, inv_ShannonNewT key⟩, ?_⟩
  intro s hi
  refine ⟨?_, ?_, ?_, ?_, ?_, ?_, ?_⟩
  · intro nonce
    exact ⟨NonceT s nonce, Nonce_eq nonce hi.1, inv_NonceT nonce hi.1⟩
  · intro v
    obtain ⟨nonce, e⟩ := writeBigEndian_total v
    refine ⟨NonceT s nonce, ?_, inv_NonceT nonce hi.1⟩
    unfold NonceU32
    rw [e]
    exact Nonce_eq nonce hi.1
  · intro buf
    obtain ⟨s', out, e, h, _⟩ := process_total wordFrame_encrypt byteFrame_encrypt hi buf
    exact ⟨s', out, e, h⟩
  · intro buf
    obtain ⟨s', out, e, h, _⟩ := process_total wordFrame_decrypt byteFrame_decrypt hi buf
    exact ⟨s', out, e, h⟩
  · intro buf
    exact ⟨(FinishT s buf).1, (FinishT s buf).2, Finish_eq buf hi.1, inv_FinishT buf hi.1⟩
  · intro expected
    refine ⟨(FinishT s (List.replicate expected.length 0)).1,
      if (FinishT s (List.replicate expected.length 0)).2 = expected then none
      else some macMismatch, ?_, inv_FinishT _ hi.1⟩
    rw [CheckMac_map, Finish_eq _ hi.1]
    rfl
  · intro hpos
    have h8 := hi.2.1
    have h32 := hi.2.2
    have e1 : usub s.nbuf 8 = s.nbuf - 8 := usub_eight (by omega) h32
    have e2 : usub 32 s.nbuf = 32 - s.nbuf := usub_32 h32
    refine ⟨by rw [e1]; omega, by rw [e2]; omega, ⟨⟨hi.1.1, hi.1.2.1, hi.1.2.2⟩, ?_, ?_⟩⟩
    · show usub s.nbuf 8 % 8 = 0
      rw [e1]; omega
    · show usub s.nbuf 8 ≤ 32
      rw [e1]; omega

theorem inv_preserved_witness :
    Inv seedState ∧
      (∀ buf, ∃ s' out, Encrypt seedState buf = some (s', out) ∧ Inv s') ∧
      (∀ expected, ∃ s' err, CheckMac seedState expected = some (s', err) ∧ Inv s') :=
  ⟨by decide, (inv_preserved.2 seedState (by decide)).2.2.1,
    (inv_preserved.2 seedState (by decide)).2.2.2.2.2.1⟩

/-! ## `initR` is never written after construction -/

theorem bind_some_elim {α β : Type} {x : Option α} {f : α → Option β} {P : β → Prop}
    (h : ∀ a, x = some a → ∀ b, f a = some b → P b) : ∀ b, x.bind f = some b → P b := by
  intro b hb
  cases x with
  | none => simp at hb
  | some a => exact h a rfl b hb

theorem cycle_initR (s : Shannon) : ∀ s', cycle s = some s' → s'.initR = s.initR := by
  unfold cycle
  simp only [Option.bind_eq_bind]
  repeat (refine bind_some_elim ?_; intro _ _)
  intro s' h
  injection h with h
  rw [← h]

theorem crcFunc_initR (s : Shannon) (i : Nat) :
    ∀ s', crcFunc s i = some s' → s'.initR = s.initR := by
  unfold crcFunc
  simp only [Option.bind_eq_bind]
  repeat (refine bind_some_elim ?_; intro _ _)
  intro s' h
  injection h with h
  rw [← h]

theorem xorKeyp_initR (s : Shannon) (v : Nat) :
    ∀ s', xorKeyp s v = some s' → s'.initR = s.initR := by
  unfold xorKeyp
  simp only [Option.bind_eq_bind]
  repeat (refine bind_some_elim ?_; intro _ _)
  intro s' h
  injection h with h
  rw [← h]

theorem genKonst_initR (s : Shannon) :
    ∀ s', genKonst s = some s' → s'.initR = s.initR := by
  unfold genKonst
  simp only [Option.bind_eq_bind]
  repeat (refine bind_some_elim ?_; intro _ _)
  intro s' h
  injection h with h
  rw [← h]

theorem macFunc_initR (s : Shannon) (i : Nat) :
    ∀ s', macFunc s i = some s' → s'.initR = s.initR := by
  unfold macFunc
  simp only [Option.bind_eq_bind]
  refine bind_some_elim ?_
  intro s1 h1 s' h2
  exact (xorKeyp_initR s1 i s' h2).trans (crcFunc_initR s i s1 h1)

theorem cycles_initR : ∀ (k : Nat) (s s' : Shannon), cycles k s = some s' →
    s'.initR = s.initR := by
  intro k
  induction k with
  | zero =>
    intro s s' h
    injection h with h
    rw [← h]
  | succ k ih =>
    intro s
    simp only [cycles, Option.bind_eq_bind]
    refine bind_some_elim ?_
    intro s1 h1 s' h2
    exact (ih s1 s' h2).trans (cycle_initR s s1 h1)

theorem loadWords_initR : ∀ (ws : List (List Nat)) (s s' : Shannon),
    loadWords s ws = some s' → s'.initR = s.initR := by
  intro ws
  induction ws with
  | nil =>
    intro s s' h
    injection h with h
    rw [← h]
  | cons w ws ih =>
    intro s
    have key : ∀ v s', ((xorKeyp s v).bind fun s => (cycle s).bind fun s => loadWords s ws) =
        some s' → s'.initR = s.initR := by
      intro v
      refine bind_some_elim ?_
      intro s1 h1
      refine bind_some_elim ?_
      intro s2 h2 s' h3
      exact ((ih s2 s' h3).trans (cycle_initR s1 s2 h2)).trans (xorKeyp_initR s v s1 h1)
    simp only [loadWords, Option.bind_eq_bind]
    split
    · refine bind_some_elim ?_
      intro v _
      exact key v
    · refine bind_some_elim ?_
      intro xtra _
      refine bind_some_elim ?_
      intro v _
      exact key v

theorem loadKey_initR (s : Shannon) (key : List Nat) :
    ∀ s', loadKey s key = some s' → s'.initR = s.initR := by
  unfold loadKey diffuse
  simp only [Option.bind_eq_bind]
  refine bind_some_elim ?_
  intro chunks _
  refine bind_some_elim ?_
  intro s1 h1
  refine bind_some_elim ?_
  intro s2 h2
  refine bind_some_elim ?_
  intro s3 h3
  refine bind_some_elim ?_
  intro s4 h4
  refine bind_some_elim ?_
  intro r _ s' h
  injection h with h
  rw [← h]
  show s4.initR = s.initR
  rw [cycles_initR _ _ _ h4]
  show s3.initR = s.initR
  rw [cycle_initR _ _ h3, xorKeyp_initR _ _ _ h2, loadWords_initR _ _ _ h1]

theorem Nonce_initR (s : Shannon) (nonce : List Nat) :
    ∀ s', Nonce s nonce = some s' → s'.initR = s.initR := by
  unfold Nonce
  simp only [Option.bind_eq_bind]
  refine bind_some_elim ?_
  intro s1 h1
  refine bind_some_elim ?_
  intro s2 h2 s' h
  injection h with h
  rw [← h]
  show s2.initR = s.initR
  rw [genKonst_initR _ _ h2, loadKey_initR _ _ _ h1]
  rfl

theorem NonceU32_initR (s : Shannon) (v : Nat) :
    ∀ s', NonceU32 s v = some s' → s'.initR = s.initR := by
  unfold NonceU32
  simp only [Option.bind_eq_bind]
  refine bind_some_elim ?_
  intro nonce _
  exact Nonce_initR s nonce

theorem extraLoop_initR {bcb : Shannon → Nat → Shannon × Nat} (hb : ByteFrame bcb) :
    ∀ (P : List Nat) (s : Shannon), (extraLoop bcb s P).1.initR = s.initR := by
  intro P
  induction P with
  | nil => intro s; rfl
  | cons b P ih =>
    intro s
    rw [extraLoop_cons]
    exact (ih _).trans (hb s b).2.2.1

theorem pendingLoop_initR {bcb : Shannon → Nat → Shannon × Nat} (hb : ByteFrame bcb) :
    ∀ (buf : List Nat) (s : Shannon) (p : Shannon × List Nat × Bool),
    pendingLoop bcb s buf = some p → p.1.initR = s.initR := by
  intro buf
  induction buf with
  | nil =>
    intro s p h
    rw [pendingLoop_nil] at h
    split at h <;> (injection h with h; rw [← h])
  | cons b bs ih =>
    intro s
    rw [pendingLoop_cons]
    split
    · refine bind_some_elim ?_
      intro s2 h2
      refine bind_some_elim ?_
      intro q hq p h
      injection h with h
      rw [← h]
      show q.1.initR = s.initR
      rw [ih s2 q hq, macFunc_initR _ _ _ h2]
      exact (hb s b).2.2.1
    · intro p h
      injection h with h
      rw [← h]

theorem wordsLoop_initR {wcb : Shannon → Nat → Option (Shannon × Nat)}
    (hw : ∀ s t p, wcb s t = some p → p.1.initR = s.initR) :
    ∀ (ws : List (List Nat)) (s : Shannon) (p : Shannon × List Nat),
    wordsLoop wcb s ws = some p → p.1.initR = s.initR := by
  intro ws
  induction ws with
  | nil =>
    intro s p h
    injection h with h
    rw [← h]
  | cons w ws ih =>
    intro s
    simp only [wordsLoop, Option.bind_eq_bind]
    refine bind_some_elim ?_
    intro s1 h1
    refine bind_some_elim ?_
    intro t _
    refine bind_some_elim ?_
    intro q hq
    refine bind_some_elim ?_
    intro word _
    refine bind_some_elim ?_
    intro q2 hq2 p h
    injection h with h
    rw [← h]
    show q2.1.initR = s.initR
    rw [ih q.1 q2 hq2, hw s1 t q hq, cycle_initR s s1 h1]

theorem encryptWord_initR : ∀ s t p, encryptWord s t = some p → p.1.initR = s.initR := by
  intro s t
  unfold encryptWord
  simp only [Option.bind_eq_bind]
  refine bind_some_elim ?_
  intro s1 h1 p h
  injection h with h
  rw [← h]
  exact macFunc_initR s t s1 h1

theorem decryptWord_initR : ∀ s t p, decryptWord s t = some p → p.1.initR = s.initR := by
  intro s t
  unfold decryptWord
  simp only [Option.bind_eq_bind]
  refine bind_some_elim ?_
  intro s1 h1 p h
  injection h with h
  rw [← h]
  exact macFunc_initR s _ s1 h1

theorem process_aligned_initR {wcb : Shannon → Nat → Option (Shannon × Nat)}
    {bcb : Shannon → Nat → Shannon × Nat}
    (hw : ∀ s t p, wcb s t = some p → p.1.initR = s.initR) (hb : ByteFrame bcb)
    (s : Shannon) (h0 : s.nbuf = 0) (buf : List Nat) :
    ∀ p, process s buf wcb bcb = some p → p.1.initR = s.initR := by
  rw [process_aligned buf wcb bcb h0]
  refine bind_some_elim ?_
  intro q hq
  have e1 := wordsLoop_initR hw _ s q hq
  split
  · refine bind_some_elim ?_
    intro s1 h1 p h
    injection h with h
    rw [← h]
    show (extraLoop bcb _ _).1.initR = s.initR
    rw [extraLoop_initR hb]
    show s1.initR = s.initR
    rw [cycle_initR _ _ h1, e1]
  · intro p h
    injection h with h
    rw [← h]
    exact e1

theorem process_initR {wcb : Shannon → Nat → Option (Shannon × Nat)}
    {bcb : Shannon → Nat → Shannon × Nat}
    (hw : ∀ s t p, wcb s t = some p → p.1.initR = s.initR) (hb : ByteFrame bcb)
    (s : Shannon) (buf : List Nat) :
    ∀ p, process s buf wcb bcb = some p → p.1.initR = s.initR := by
  by_cases h0 : s.nbuf = 0
  · exact process_aligned_initR hw hb s h0 buf
  · rw [process_pending buf wcb bcb h0]
    refine bind_some_elim ?_
    intro q hq
    have e1 := pendingLoop_initR hb buf s q hq
    split
    · intro p h
      injection h with h
      rw [← h]
      exact e1
    · rename_i hret
      intro p h
      have hz : q.1.nbuf = 0 := by
        obtain ⟨s1, buf1, ret⟩ := q
        have : ret = false := by simpa using hret
        subst this
        exact pendingLoop_done bcb buf s s1 buf1 hq
      exact (process_aligned_initR hw hb q.1 hz q.2.1 p h).trans e1

theorem finishWords_initR : ∀ (ws : List (List Nat)) (s : Shannon) (p : Shannon × List Nat),
    finishWords s ws = some p → p.1.initR = s.initR := by
  intro ws
  induction ws with
  | nil =>
    intro s p h
    injection h with h
    rw [← h]
  | cons w ws ih =>
    intro s
    have key : ∀ (s1 : Shannon) (word : List Nat), cycle s = some s1 →
        ∀ p, ((finishWords s1 ws).bind fun q => some (q.1, word ++ q.2)) = some p →
          p.1.initR = s.initR := by
      intro s1 word h1
      refine bind_some_elim ?_
      intro q hq p h
      injection h with h
      rw [← h]
      show q.1.initR = s.initR
      rw [ih s1 q hq, cycle_initR s s1 h1]
    simp only [finishWords, Option.bind_eq_bind]
    refine bind_some_elim ?_
    intro s1 h1
    split
    · refine bind_some_elim ?_
      intro word _
      exact key s1 word h1
    · refine bind_some_elim ?_
      intro word _
      exact key s1 word h1

theorem specFinalization_initR (s : Shannon) :
    ∀ s', specFinalization s = some s' → s'.initR = s.initR := by
  unfold specFinalization diffuse
  refine bind_some_elim ?_
  intro s1 h1
  refine bind_some_elim ?_
  intro s2 h2
  refine bind_some_elim ?_
  intro s3 h3
  refine bind_some_elim ?_
  intro r _ s' h
  rw [cycles_initR _ _ _ h]
  show s3.initR = s.initR
  rw [xorKeyp_initR _ _ _ h3, cycle_initR _ _ h2]
  split at h1
  · exact macFunc_initR _ _ _ h1
  · injection h1 with h1
    rw [← h1]

theorem Finish_initR (s : Shannon) (buf : List Nat) :
    ∀ p, Finish s buf = some p → p.1.initR = s.initR := by
  rw [Finish_split]
  refine bind_some_elim ?_
  intro s0 h0 p h
  exact (finishWords_initR _ s0 p h).trans (specFinalization_initR s s0 h0)

theorem CheckMac_initR (s : Shannon) (expected : List Nat) :
    ∀ p, CheckMac s expected = some p → p.1.initR = s.initR := by
  rw [CheckMac_map]
  intro p h
  cases hf : Finish s (List.replicate expected.length 0) with
  | none => rw [hf] at h; simp at h
  | some q =>
    rw [hf, Option.map_some'] at h
    injection h with h
    rw [← h]
    exact Finish_initR s _ q hf

/-- C8. `initR` is read-only after construction: `ShannonNew key` returns a
state whose `initR` is the register right after key loading, and from every
engine state, whenever `Nonce`, `NonceU32`, `Encrypt`, `Decrypt`, `Finish` or
`CheckMac` returns, on any input, `initR` is what it was before the call. -/
theorem initR_read_only :
    (∀ key, ∃ s0, ShannonNew key = some s0 ∧ s0.initR = s0.r) ∧
    (∀ s : Shannon,
      (∀ nonce s', Nonce s nonce = some s' → s'.initR = s.initR) ∧
      (∀ v s', NonceU32 s v = some s' → s'.initR = s.initR) ∧
      (∀ buf s' out, Encrypt s buf = some (s', out) → s'.initR = s.initR) ∧
      (∀ buf s' out, Decrypt s buf = some (s', out) → s'.initR = s.initR) ∧
      (∀ buf s' tag, Finish s buf = some (s', tag) → s'.initR = s.initR) ∧
      (∀ expected s' err, CheckMac s expected = some (s', err) → s'.initR = s.initR)) := by
  refine ⟨fun key => ⟨ShannonNewT key, ShannonNew_eq key, ShannonNewT_initR key⟩, ?_⟩
  intro s
  refine ⟨fun nonce s' h => Nonce_initR s nonce s' h, fun v s' h => NonceU32_initR s v s' h,
    ?_, ?_, ?_, ?_⟩
  · intro buf s' out h
    exact process_initR encryptWord_initR byteFrame_encrypt s buf (s', out) h
  · intro buf s' out h
    exact process_initR decryptWord_initR byteFrame_decrypt s buf (s', out) h
  · intro buf s' tag h
    exact Finish_initR s buf (s', tag) h
  · intro expected s' err h
    exact CheckMac_initR s expected (s', err) h

theorem initR_read_only_witness :
    ∃ s' out, Encrypt seedState [1, 2, 3, 4, 5] = some (s', out) ∧
      s'.initR = seedState.initR :=
  match process_total wordFrame_encrypt byteFrame_encrypt
      (by decide : Inv seedState) [1, 2, 3, 4, 5] with
  | ⟨s', out, e, _⟩ => ⟨s', out, e, (initR_read_only.2 seedState).2.2.1 _ s' out e⟩

/-! ## What the key schedule depends on -/

theorem cycleT_congr {s1 s2 : Shannon} (hr : s1.r = s2.r) (hk : s1.konst = s2.konst) :
    (cycleT s1).r = (cycleT s2).r ∧ (cycleT s1).konst = (cycleT s2).konst ∧
      (cycleT s1).sbuf = (cycleT s2).sbuf := by
  refine ⟨?_, hk, ?_⟩
  · show cycleReg s1.konst s1.r = cycleReg s2.konst s2.r
    rw [hr, hk]
  · show cycleOut s1.konst s1.r = cycleOut s2.konst s2.r
    rw [hr, hk]

theorem xorKeypT_congr {s1 s2 : Shannon} (v : Nat) (hr : s1.r = s2.r)
    (hk : s1.konst = s2.konst) :
    (xorKeypT s1 v).r = (xorKeypT s2 v).r ∧ (xorKeypT s1 v).konst = (xorKeypT s2 v).konst := by
  refine ⟨?_, hk⟩
  show s1.r.set keyp (s1.r.getD keyp 0 ^^^ v) = s2.r.set keyp (s2.r.getD keyp 0 ^^^ v)
  rw [hr]

theorem loadWordsT_congr : ∀ (ws : List (List Nat)) (s1 s2 : Shannon), s1.r = s2.r →
    s1.konst = s2.konst →
    (loadWordsT s1 ws).r = (loadWordsT s2 ws).r ∧
      (loadWordsT s1 ws).konst = (loadWordsT s2 ws).konst := by
  intro ws
  induction ws with
  | nil => intro s1 s2 hr hk; exact ⟨hr, hk⟩
  | cons w ws ih =>
    intro s1 s2 hr hk
    have h1 := xorKeypT_congr (padWord w) hr hk
    have h2 := cycleT_congr h1.1 h1.2
    exact ih _ _ h2.1 h2.2.1

theorem loadFoldT_congr {s1 s2 : Shannon} (key : List Nat) (hr : s1.r = s2.r)
    (hk : s1.konst = s2.konst) :
    (loadFoldT s1 key).r = (loadFoldT s2 key).r ∧
      (loadFoldT s1 key).konst = (loadFoldT s2 key).konst ∧
      (loadFoldT s1 key).sbuf = (loadFoldT s2 key).sbuf := by
  have h1 := loadWordsT_congr (chunks4 key) s1 s2 hr hk
  have h2 := xorKeypT_congr (toU32 key.length) h1.1 h1.2
  exact cycleT_congr h2.1 h2.2

theorem cyclesT_congr : ∀ (k : Nat) (s1 s2 : Shannon), s1.r = s2.r → s1.konst = s2.konst →
    s1.sbuf = s2.sbuf →
    (cyclesT k s1).r = (cyclesT k s2).r ∧ (cyclesT k s1).konst = (cyclesT k s2).konst ∧
      (cyclesT k s1).sbuf = (cyclesT k s2).sbuf := by
  intro k
  induction k with
  | zero =>
    intro s1 s2 hr hk hs
    rw [cyclesT_zero, cyclesT_zero]
    exact ⟨hr, hk, hs⟩
  | succ k ih =>
    intro s1 s2 hr hk _
    rw [cyclesT_succ, cyclesT_succ]
    have h := cycleT_congr hr hk
    exact ih _ _ h.1 h.2.1 h.2.2

theorem loadKeyT_congr {s1 s2 : Shannon} (key : List Nat) (hr : s1.r = s2.r)
    (hk : s1.konst = s2.konst) :
    (loadKeyT s1 key).r = (loadKeyT s2 key).r ∧ (loadKeyT s1 key).crc = (loadKeyT s2 key).crc ∧
      (loadKeyT s1 key).sbuf = (loadKeyT s2 key).sbuf := by
  have h1 := loadFoldT_congr key hr hk
  have a1 := loadSnap_fields s1 key
  have a2 := loadSnap_fields s2 key
  have h2 := cyclesT_congr 16 (loadSnap s1 key) (loadSnap s2 key)
    (by rw [a1.1, a2.1, h1.1]) (by rw [a1.2.2.2.1, a2.2.2.2.1, h1.2.1])
    (by rw [a1.2.2.2.2.1, a2.2.2.2.2.1, h1.2.2])
  have c1 := (cyclesT_frame 16 (loadSnap s1 key)).1
  have c2 := (cyclesT_frame 16 (loadSnap s2 key)).1
  refine ⟨?_, ?_, ?_⟩
  · rw [loadKeyT_r, loadKeyT_r, h2.1, c1, c2, a1.2.1, a2.2.1, h1.1]
  · rw [loadKeyT_crc, loadKeyT_crc, h1.1]
  · rw [(loadKeyT_fields s1 key).2.2.2.1, (loadKeyT_fields s2 key).2.2.2.1, h2.2.2]

/-- `Nonce` on 16-word registers depends on `initR` and the nonce only, up to
`mbuf`. -/
theorem NonceT_congr {s1 s2 : Shannon} (nonce : List Nat) (hi : s1.initR = s2.initR) :
    (NonceT s1 nonce).r = (NonceT s2 nonce).r ∧ (NonceT s1 nonce).crc = (NonceT s2 nonce).crc ∧
      (NonceT s1 nonce).initR = (NonceT s2 nonce).initR ∧
      (NonceT s1 nonce).konst = (NonceT s2 nonce).konst ∧
      (NonceT s1 nonce).sbuf = (NonceT s2 nonce).sbuf ∧
      (NonceT s1 nonce).nbuf = (NonceT s2 nonce).nbuf := by
  have h := @loadKeyT_congr (nonceBase s1) (nonceBase s2) nonce hi rfl
  have f1 := NonceT_fields s1 nonce
  have f2 := NonceT_fields s2 nonce
  refine ⟨?_, ?_, ?_, ?_, ?_, ?_⟩
  · rw [f1.1, f2.1, h.1]
  · rw [f1.2.1, f2.2.1, h.2.1]
  · rw [NonceT_initR, NonceT_initR, hi]
  · rw [f1.2.2.2.1, f2.2.2.2.1, h.1]
  · rw [f1.2.2.2.2.1, f2.2.2.2.2.1, h.2.2]
  · rw [f1.2.2.2.2.2.2, f2.2.2.2.2.2.2]

/-! ## `mbuf` does not matter on a word-aligned engine -/

theorem cycleT_mbuf (s : Shannon) (m : Nat) :
    cycleT { s with mbuf := m } = { cycleT s with mbuf := m } := rfl

theorem macT_mbuf (s : Shannon) (m i : Nat) :
    macT { s with mbuf := m } i = { macT s i with mbuf := m } := rfl

theorem xorKeypT_mbuf (s : Shannon) (m v : Nat) :
    xorKeypT { s with mbuf := m } v = { xorKeypT s v with mbuf := m } := rfl

theorem cyclesT_mbuf : ∀ (k : Nat) (s : Shannon) (m : Nat),
    cyclesT k { s with mbuf := m } = { cyclesT k s with mbuf := m } := by
  intro k
  induction k with
  | zero => intro s m; rw [cyclesT_zero, cyclesT_zero]
  | succ k ih => intro s m; rw [cyclesT_succ, cyclesT_succ, cycleT_mbuf, ih]

theorem streamT_mbuf : ∀ (k : Nat) (s : Shannon) (m : Nat),
    streamT k { s with mbuf := m } = streamT k s := by
  intro k
  induction k with
  | zero => intro s m; rfl
  | succ k ih =>
    intro s m
    rw [streamT_succ, streamT_succ, cycleT_mbuf, ih]

theorem len16_with_mbuf {s : Shannon} (m : Nat) (h : Len16 s) : Len16 { s with mbuf := m } :=
  ⟨h.1, h.2.1, h.2.2⟩

theorem wordsLoop_mbuf (m : Nat) : ∀ (k : Nat) (P : List Nat), P.length = 4 * k →
    ∀ s : Shannon, Len16 s →
    ∃ s' C, wordsLoop encryptWord s (chunks4 P) = some (s', C) ∧
      wordsLoop encryptWord { s with mbuf := m } (chunks4 P) = some ({ s' with mbuf := m }, C) ∧
      Len16 s' ∧ s'.nbuf = s.nbuf := by
  intro k P hk
  refine list4_induction
    (motive := fun P => ∀ s : Shannon, Len16 s →
      ∃ s' C, wordsLoop encryptWord s (chunks4 P) = some (s', C) ∧
        wordsLoop encryptWord { s with mbuf := m } (chunks4 P) = some ({ s' with mbuf := m }, C) ∧
        Len16 s' ∧ s'.nbuf = s.nbuf) ?_ ?_ k P hk
  · intro s hl
    exact ⟨s, [], rfl, rfl, hl, rfl⟩
  · intro a b c d rest ih s hl
    have hl1 := len16_cycleT hl
    obtain ⟨s', C, e1, e2, f1, f2⟩ := ih (macT (cycleT s) (leWord a b c d)) (len16_macT _ hl1)
    refine ⟨s', leBytes (leWord a b c d ^^^ (cycleT s).sbuf) ++ C, ?_, ?_, f1, f2⟩
    · simp only [chunks4, wordsLoop, Option.bind_eq_bind]
      rw [cycle_eq hl.1]
      simp only [Option.some_bind, readLittleEndian_four, encryptWord_eq _ hl1,
        writeLittleEndian_four, e1]
    · simp only [chunks4, wordsLoop, Option.bind_eq_bind]
      rw [cycle_eq (len16_with_mbuf m hl).1, cycleT_mbuf]
      simp only [Option.some_bind, readLittleEndian_four,
        encryptWord_eq _ (len16_with_mbuf m hl1), macT_mbuf, writeLittleEndian_four, e2]

/-- `Encrypt` from a word-aligned state does not read `mbuf`: with another
`mbuf` it returns the same bytes, and the same state up to `mbuf`. -/
theorem Encrypt_mbuf {s : Shannon} (hl : Len16 s) (h0 : s.nbuf = 0) (m : Nat) (P : List Nat) :
    ∃ s1 s2 C, Encrypt s P = some (s1, C) ∧ Encrypt { s with mbuf := m } P = some (s2, C) ∧
      Len16 s1 ∧ (s2 = s1 ∨ (s1.nbuf = 0 ∧ s2 = { s1 with mbuf := m })) := by
  obtain ⟨s', C, e1, e2, f1, f2⟩ :=
    wordsLoop_mbuf m (P.length / 4) _ (take_words_length P) s hl
  by_cases hx : (P.drop (4 * (P.length / 4))).length > 0
  · refine ⟨(extraLoop encryptByte { { cycleT s' with mbuf := 0 } with nbuf := 32 }
        (P.drop (4 * (P.length / 4)))).1,
      (extraLoop encryptByte { { cycleT s' with mbuf := 0 } with nbuf := 32 }
        (P.drop (4 * (P.length / 4)))).1,
      C ++ (extraLoop encryptByte { { cycleT s' with mbuf := 0 } with nbuf := 32 }
        (P.drop (4 * (P.length / 4)))).2, ?_, ?_, ?_, Or.inl rfl⟩
    · unfold Encrypt
      rw [process_aligned P _ _ h0, e1]
      simp only [Option.some_bind, hx, if_true, cycle_eq f1.1]
    · unfold Encrypt
      rw [process_aligned P _ _ (show ({ s with mbuf := m } : Shannon).nbuf = 0 from h0), e2]
      simp only [Option.some_bind, hx, if_true, cycle_eq (len16_with_mbuf m f1).1, cycleT_mbuf]
    · have hl2 := len16_cycleT f1
      obtain ⟨g1, g2, g3, _, _⟩ := extraLoop_frame byteFrame_encrypt
        (P.drop (4 * (P.length / 4))) { { cycleT s' with mbuf := 0 } with nbuf := 32 }
        (by
          show 8 * _ ≤ 32
          rw [List.length_drop]
          omega) (le_refl 32)
      exact ⟨by rw [g1]; exact hl2.1, by rw [g2]; exact hl2.2.1, by rw [g3]; exact hl2.2.2⟩
  · refine ⟨s', { s' with mbuf := m }, C ++ P.drop (4 * (P.length / 4)), ?_, ?_, f1,
      Or.inr ⟨f2.trans h0, rfl⟩⟩
    · unfold Encrypt
      rw [process_aligned P _ _ h0, e1]
      simp only [Option.some_bind, hx, if_false]
    · unfold Encrypt
      rw [process_aligned P _ _ (show ({ s with mbuf := m } : Shannon).nbuf = 0 from h0), e2]
      simp only [Option.some_bind, hx, if_false]

theorem finishPreT_mbuf {s : Shannon} (h0 : s.nbuf = 0) (m : Nat) :
    finishPreT { s with mbuf := m } = { finishPreT s with mbuf := m } := by
  have e1 : finishFold s = s := by
    unfold finishFold
    simp [h0]
  have e2 : finishFold { s with mbuf := m } = { s with mbuf := m } := by
    unfold finishFold
    simp [h0]
  unfold finishPreT finishAdd finishMark
  rw [e1, e2, ← cyclesT_mbuf]
  rfl

/-- The tag of `Finish` from a word-aligned state does not depend on `mbuf`. -/
theorem FinishT_mbuf {s : Shannon} (h0 : s.nbuf = 0) (m : Nat) (buf : List Nat) :
    (FinishT { s with mbuf := m } buf).2 = (FinishT s buf).2 := by
  rw [FinishT_tag, FinishT_tag, finishPreT_mbuf h0, streamT_mbuf]

theorem eq_with_mbuf {t1 t2 : Shannon} (hr : t1.r = t2.r) (hc : t1.crc = t2.crc)
    (hi : t1.initR = t2.initR) (hk : t1.konst = t2.konst) (hs : t1.sbuf = t2.sbuf)
    (hn : t1.nbuf = t2.nbuf) : t2 = { t1 with mbuf := t2.mbuf } := by
  obtain ⟨r1, c1, i1, k1, sb1, m1, n1⟩ := t1
  obtain ⟨r2, c2, i2, k2, sb2, m2, n2⟩ := t2
  simp only at hr hc hi hk hs hn
  subst hr hc hi hk hs hn
  rfl

/-- C6. Re-noncing: for every nonce and any two states with 16-word
registers and the same `initR`, `Nonce` returns from both, the two states it
returns agree on `r`, `crc`, `initR`, `konst`, `sbuf` and `nbuf` (and `initR`
is unchanged), and a following `Encrypt P` and `Finish` return the same
ciphertext and the same tag from both. -/
theorem renonce_agree (s1 s2 : Shannon) (h1 : Len16 s1) (h2 : Len16 s2)
    (hi : s1.initR = s2.initR) (nonce P buf : List Nat) :
    ∃ t1 t2, Nonce s1 nonce = some t1 ∧ Nonce s2 nonce = some t2 ∧
      t1.r = t2.r ∧ t1.crc = t2.crc ∧ t1.initR = t2.initR ∧ t1.konst = t2.konst ∧
      t1.sbuf = t2.sbuf ∧ t1.nbuf = t2.nbuf ∧ t1.nbuf = 0 ∧ t1.initR = s1.initR ∧
      ∃ u1 u2 C v1 v2 T, Encrypt t1 P = some (u1, C) ∧ Encrypt t2 P = some (u2, C) ∧
        Finish u1 buf = some (v1, T) ∧ Finish u2 buf = some (v2, T) := by
  obtain ⟨c1, c2, c3, c4, c5, c6⟩ := NonceT_congr nonce hi
  have hl1 := len16_NonceT nonce h1
  have hn1 := NonceT_nbuf s1 nonce
  have e := eq_with_mbuf c1 c2 c3 c4 c5 c6
  obtain ⟨u1, u2, C, g1, g2, g3, g4⟩ := Encrypt_mbuf hl1 hn1 (NonceT s2 nonce).mbuf P
  rw [← e] at g2
  refine ⟨NonceT s1 nonce, NonceT s2 nonce, Nonce_eq nonce h1, Nonce_eq nonce h2, c1, c2, c3,
    c4, c5, c6, hn1, NonceT_initR s1 nonce, u1, u2, C, (FinishT u1 buf).1, (FinishT u2 buf).1,
    (FinishT u1 buf).2, g1, g2, Finish_eq buf g3, ?_⟩
  rcases g4 with g4 | ⟨g4, g5⟩
  · rw [g4]
    exact Finish_eq buf g3
  · rw [g5, Finish_eq buf (len16_with_mbuf _ g3), ← FinishT_mbuf g4 (NonceT s2 nonce).mbuf buf]

theorem renonce_agree_witness :
    Len16 seedState ∧ Len16 { seedState with mbuf := 77, nbuf := 16 } ∧
      seedState.initR = ({ seedState with mbuf := 77, nbuf := 16 } : Shannon).initR ∧
      ∃ t1 t2, Nonce seedState [1, 2, 3] = some t1 ∧
        Nonce { seedState with mbuf := 77, nbuf := 16 } [1, 2, 3] = some t2 ∧
        t1.r = t2.r ∧ t1.crc = t2.crc ∧ t1.initR = t2.initR ∧ t1.konst = t2.konst ∧
        t1.sbuf = t2.sbuf ∧ t1.nbuf = t2.nbuf ∧ t1.nbuf = 0 ∧ t1.initR = seedState.initR ∧
        ∃ u1 u2 C v1 v2 T, Encrypt t1 [5, 6, 7, 8, 9] = some (u1, C) ∧
          Encrypt t2 [5, 6, 7, 8, 9] = some (u2, C) ∧
          Finish u1 [0, 0, 0, 0] = some (v1, T) ∧ Finish u2 [0, 0, 0, 0] = some (v2, T) :=
  ⟨by decide, by decide, by decide,
    renonce_agree seedState { seedState with mbuf := 77, nbuf := 16 } (by decide) (by decide)
      (by decide) [1, 2, 3] [5, 6, 7, 8, 9] [0, 0, 0, 0]⟩

set_option maxRecDepth 100000 in
/-- C3, evaluated at a failing input. On a fresh engine keyed `[0]`/`[0]`,
one `Encrypt` call on `[1, 2, 3, 4, 5]` and the two calls on `[1]` and
`[2, 3, 4, 5]` give different ciphertexts and different 4-byte tags. -/
theorem streaming_split_differs :
    (freshEngine [0] [0]).bind (fun e => sealChunks e [[1, 2, 3, 4, 5]] 4) =
        some ([60, 26, 150, 178, 251], [250, 183, 220, 98]) ∧
      (freshEngine [0] [0]).bind (fun e => sealChunks e [[1], [2, 3, 4, 5]] 4) =
        some ([60, 188, 148, 0, 218], [202, 55, 173, 201]) := by
  decide

set_option maxRecDepth 100000 in
/-- C5, counterexample. Key `[0]`, nonce `[0]`, plaintext `[23]`, tag length 1:
the ciphertext is `[42]` and the tag `[144]`; with bit 7 of the ciphertext
flipped, `Decrypt` followed by `CheckMac` of that tag returns `nil`. -/
theorem tamper_undetected :
    (freshEngine [0] [0]).bind (fun e => sealChunks e [[23]] 1) = some ([42], [144]) ∧
      (freshEngine [0] [0]).bind (fun e => openMsg e (flipBit [42] 7) [144]) =
        some ([151], none) := by
  decide

/-- C5, amended. For every key, nonce, plaintext, tag length `n` and bit
position `i`: with `C` and the `n`-byte tag `T` from `Encrypt` and `Finish` on
a fresh engine, `Decrypt` of `C` with bit `i` flipped on a fresh engine
followed by `CheckMac T` returns the MAC-mismatch error exactly when the
`n`-byte tag `T'` that `Finish` computes after that `Decrypt` differs from
`T`, and `nil` when the two tags are equal. -/
theorem tamper_detected_iff (K N P : List Nat) (n i : Nat) :
    ∃ e s1 C s2 T s3 P' s4 T', freshEngine K N = some e ∧
      Encrypt e P = some (s1, C) ∧ Finish s1 (List.replicate n 0) = some (s2, T) ∧
      Decrypt e (flipBit C i) = some (s3, P') ∧
      Finish s3 (List.replicate n 0) = some (s4, T') ∧
      CheckMac s3 T = some (s4, if T' = T then none else some macMismatch) := by
  have hl := len16_NonceT N (len16_ShannonNewT K)
  have hinv : Inv (NonceT (ShannonNewT K) N) := inv_NonceT N (len16_ShannonNewT K)
  obtain ⟨s1, C, e1, i1, _⟩ := process_total wordFrame_encrypt byteFrame_encrypt hinv P
  obtain ⟨s3, P', e3, i3, _⟩ :=
    process_total wordFrame_decrypt byteFrame_decrypt hinv (flipBit C i)
  have hz : (List.replicate (FinishT s1 (List.replicate n 0)).2.length 0).length =
      (List.replicate n 0).length := by
    rw [List.length_replicate, FinishT_tag_length]
  refine ⟨NonceT (ShannonNewT K) N, s1, C, (FinishT s1 (List.replicate n 0)).1,
    (FinishT s1 (List.replicate n 0)).2, s3, P', (FinishT s3 (List.replicate n 0)).1,
    (FinishT s3 (List.replicate n 0)).2, ?_, e1, Finish_eq _ i1.1, e3, Finish_eq _ i3.1, ?_⟩
  · unfold freshEngine
    rw [ShannonNew_eq, Option.some_bind, Nonce_eq N (len16_ShannonNewT K)]
  · rw [CheckMac_map, Finish_eq _ i3.1, Option.map_some', FinishT_congr s3 hz]

theorem length_four {l : List Nat} (h : l.length = 4) : ∃ a b c d, l = [a, b, c, d] := by
  obtain ⟨a, l1, rfl, h1⟩ := length_succ_split h
  obtain ⟨b, l2, rfl, h2⟩ := length_succ_split h1
  obtain ⟨c, l3, rfl, h3⟩ := length_succ_split h2
  obtain ⟨d, l4, rfl, h4⟩ := length_succ_split h3
  have : l4 = [] := List.length_eq_zero.mp h4
  subst this
  exact ⟨a, b, c, d, rfl⟩

/-- C11. The little-endian helpers are mutually inverse: for every 32-bit
word `v` and every 4-byte buffer, `readLittleEndian` of what
`writeLittleEndian` writes for `v` is `v`; for every sequence `b` of four
bytes and every 4-byte buffer, `writeLittleEndian` of `readLittleEndian b`
writes `b`; `b[0]` is the least significant byte, and `[4, 3, 2, 1]` reads as
`0x01020304`, which is written as `[4, 3, 2, 1]`. -/
theorem littleEndian_inverse :
    (∀ (v : Nat) (buf : List Nat), v < 2 ^ 32 → buf.length = 4 →
      (writeLittleEndian buf v).bind readLittleEndian = some v) ∧
    (∀ b buf : List Nat, IsBytes b → b.length = 4 → buf.length = 4 →
      (readLittleEndian b).bind (writeLittleEndian buf) = some b ∧
      readLittleEndian b = some (b.getD 0 0 + 256 * b.getD 1 0 + 65536 * b.getD 2 0 +
        16777216 * b.getD 3 0)) ∧
    readLittleEndian [0x04, 0x03, 0x02, 0x01] = some 0x01020304 ∧
    writeLittleEndian [0, 0, 0, 0] 0x01020304 = some [0x04, 0x03, 0x02, 0x01] := by
  refine ⟨?_, ?_, by decide, by decide⟩
  · intro v buf hv hb
    obtain ⟨a, b, c, d, rfl⟩ := length_four hb
    rw [writeLittleEndian_four, Option.some_bind, leBytes_arith, readLittleEndian_four,
      leWord_leBytes hv]
  · intro b buf hb h4 hbuf
    obtain ⟨a0, a1, a2, a3, rfl⟩ := length_four h4
    obtain ⟨x0, x1, x2, x3, rfl⟩ := length_four hbuf
    obtain ⟨h0, hb⟩ := isBytes_cons.mp hb
    obtain ⟨h1, hb⟩ := isBytes_cons.mp hb
    obtain ⟨h2, hb⟩ := isBytes_cons.mp hb
    obtain ⟨h3, _⟩ := isBytes_cons.mp hb
    constructor
    · rw [readLittleEndian_four, Option.some_bind, writeLittleEndian_four,
        leBytes_leWord h0 h1 h2 h3]
    · rw [readLittleEndian_four, leWord_arith h0 h1 h2 h3]
      rfl

theorem littleEndian_inverse_witness :
    (0x01020304 < 2 ^ 32 ∧ [9, 9, 9, 9].length = 4 ∧
      (writeLittleEndian [9, 9, 9, 9] 0x01020304).bind readLittleEndian = some 0x01020304) ∧
    (IsBytes [4, 3, 2, 1] ∧ [4, 3, 2, 1].length = 4 ∧ [9, 9, 9, 9].length = 4 ∧
      (readLittleEndian [4, 3, 2, 1]).bind (writeLittleEndian [9, 9, 9, 9]) =
        some [4, 3, 2, 1]) :=
  ⟨⟨by decide, by decide, littleEndian_inverse.1 0x01020304 [9, 9, 9, 9] (by decide) (by decide)⟩,
    ⟨by decide, by decide, by decide,
      (littleEndian_inverse.2.1 [4, 3, 2, 1] [9, 9, 9, 9] (by decide) (by decide) (by decide)).1⟩⟩

theorem cycleReg_explicit (k a0 a1 a2 a3 a4 a5 a6 a7 a8 a9 a10 a11 a12 a13 a14 a15 : Nat) :
    cycleReg k [a0, a1, a2, a3, a4, a5, a6, a7, a8, a9, a10, a11, a12, a13, a14, a15] =
      [a1 ^^^ sbox2 (a3 ^^^ (sbox1 (a12 ^^^ a13 ^^^ k) ^^^ rotl a0 1)), a2, a3, a4, a5, a6, a7,
        a8, a9, a10, a11, a12, a13, a14, a15, sbox1 (a12 ^^^ a13 ^^^ k) ^^^ rotl a0 1] := by
  simp [cycleReg]

theorem cycleOut_explicit (k a0 a1 a2 a3 a4 a5 a6 a7 a8 a9 a10 a11 a12 a13 a14 a15 : Nat) :
    cycleOut k [a0, a1, a2, a3, a4, a5, a6, a7, a8, a9, a10, a11, a12, a13, a14, a15] =
      sbox2 (a3 ^^^ (sbox1 (a12 ^^^ a13 ^^^ k) ^^^ rotl a0 1)) ^^^ a9 ^^^ a13 := by
  simp [cycleOut]

/-- C13. `cycle` is the specified feedback step: on a state whose register
is the 16 words `r[0..15]`, `cycle` returns, the new register `r'` has
`r'[15] = sbox1 (r[12] ^ r[13] ^ konst) ^ rotl r[0] 1`, `r'[i] = r[i+1]` for
`1 ≤ i ≤ 14` and `r'[0] = r[1] ^ t2` with `t2 = sbox2 (r[3] ^ r'[15])`, the new
`sbuf` is `t2 ^ r[9] ^ r[13]`, and `crc`, `initR`, `konst`, `mbuf` and `nbuf`
are unchanged. -/
theorem cycle_step (s : Shannon)
    (a0 a1 a2 a3 a4 a5 a6 a7 a8 a9 a10 a11 a12 a13 a14 a15 t t2 : Nat)
    (hr : s.r = [a0, a1, a2, a3, a4, a5, a6, a7, a8, a9, a10, a11, a12, a13, a14, a15])
    (ht : t = sbox1 (a12 ^^^ a13 ^^^ s.konst) ^^^ rotl a0 1)
    (ht2 : t2 = sbox2 (a3 ^^^ t)) :
    cycle s = some { r := [a1 ^^^ t2, a2, a3, a4, a5, a6, a7, a8, a9, a10, a11, a12, a13, a14,
                       a15, t],
                     crc := s.crc, initR := s.initR, konst := s.konst,
                     sbuf := t2 ^^^ a9 ^^^ a13, mbuf := s.mbuf, nbuf := s.nbuf } := by
  have hl : s.r.length = 16 := by rw [hr]; rfl
  rw [cycle_eq hl]
  unfold cycleT
  rw [hr, cycleReg_explicit, cycleOut_explicit, ht2, ht]

theorem cycle_step_witness :
    seedState.r = [1, 1, 2, 3, 5, 8, 13, 21, 34, 55, 89, 144, 233, 377, 610, 987] ∧
      cycle seedState =
        some { r := [1 ^^^ sbox2 (3 ^^^ (sbox1 (233 ^^^ 377 ^^^ seedState.konst) ^^^ rotl 1 1)),
                     2, 3, 5, 8, 13, 21, 34, 55, 89, 144, 233, 377, 610, 987,
                     sbox1 (233 ^^^ 377 ^^^ seedState.konst) ^^^ rotl 1 1],
               crc := seedState.crc, initR := seedState.initR, konst := seedState.konst,
               sbuf := sbox2 (3 ^^^ (sbox1 (233 ^^^ 377 ^^^ seedState.konst) ^^^ rotl 1 1))
                 ^^^ 55 ^^^ 377,
               mbuf := seedState.mbuf, nbuf := seedState.nbuf } :=
  ⟨rfl, cycle_step seedState 1 1 2 3 5 8 13 21 34 55 89 144 233 377 610 987 _ _ rfl rfl rfl⟩

/-! ## The mixing functions -/

/-- On 32-bit words `rotl w x` is the left rotation by `x` bits, in arithmetic form. -/
theorem rotl_arith {w x : Nat} (hw : w < 2 ^ 32) (h0 : 0 < x) (hx : x < 32) :
    rotl w x = w * 2 ^ x % 2 ^ 32 + w / 2 ^ (32 - x) := by
  have hu : usub 32 x = 32 - x := usub_32 (by omega)
  have h1 : w * 2 ^ x % 2 ^ 32 = 2 ^ x * (w % 2 ^ (32 - x)) := by
    have e : (2 : Nat) ^ 32 = 2 ^ x * 2 ^ (32 - x) := by
      rw [← Nat.pow_add]; congr 1; omega
    rw [e, Nat.mul_comm w, Nat.mul_mod_mul_left]
  have h2 : w / 2 ^ (32 - x) < 2 ^ x := by
    rw [Nat.div_lt_iff_lt_mul (Nat.two_pow_pos _)]
    calc w < 2 ^ 32 := hw
      _ = 2 ^ x * 2 ^ (32 - x) := by rw [← Nat.pow_add]; congr 1; omega
  unfold rotl shl32 shr32
  rw [hu]
  simp only [hx, if_true, (by omega : 32 - x < 32), Nat.shiftLeft_eq, Nat.shiftRight_eq_div_pow]
  rw [h1, ← Nat.mul_add_lt_is_or h2]

theorem rotl_unfold (w x : Nat) (hx : x ≤ 32) :
    rotl w x = shl32 w x ||| shr32 w (32 - x) := by
  unfold rotl
  rw [usub_32 hx]

/-- C14. For every word `w`, `sbox1 w = b` with `a = w ^ (rotl w 5 | rotl w 7)`
and `b = a ^ (rotl a 19 | rotl a 22)`, and `sbox2 w = d` with
`c = w ^ (rotl w 7 | rotl w 22)` and `d = c ^ (rotl c 5 | rotl c 19)`; on 32-bit
words `rotl w x` for `0 < x < 32` is the left rotation by `x` bits, the low
32 bits of `w * 2 ^ x` plus the `x` bits shifted out at the top. -/
theorem sbox_structure (w : Nat) :
    (∀ a b, a = w ^^^ (rotl w 5 ||| rotl w 7) → b = a ^^^ (rotl a 19 ||| rotl a 22) →
      sbox1 w = b) ∧
    (∀ c d, c = w ^^^ (rotl w 7 ||| rotl w 22) → d = c ^^^ (rotl c 5 ||| rotl c 19) →
      sbox2 w = d) ∧
    (∀ x, w < 2 ^ 32 → 0 < x → x < 32 → rotl w x = w * 2 ^ x % 2 ^ 32 + w / 2 ^ (32 - x)) := by
  refine ⟨?_, ?_, fun x hw h0 hx => rotl_arith hw h0 hx⟩
  · intro a b ha hb
    rw [hb, ha]
    simp only [rotl_unfold _ 5 (by norm_num), rotl_unfold _ 7 (by norm_num),
      rotl_unfold _ 19 (by norm_num), rotl_unfold _ 22 (by norm_num)]
    rfl
  · intro c d hc hd
    rw [hd, hc]
    simp only [rotl_unfold _ 5 (by norm_num), rotl_unfold _ 7 (by norm_num),
      rotl_unfold _ 19 (by norm_num), rotl_unfold _ 22 (by norm_num)]
    rfl

theorem sbox_structure_witness :
    sbox1 0x12345678 =
        (0x12345678 ^^^ (rotl 0x12345678 5 ||| rotl 0x12345678 7)) ^^^
          (rotl (0x12345678 ^^^ (rotl 0x12345678 5 ||| rotl 0x12345678 7)) 19 |||
            rotl (0x12345678 ^^^ (rotl 0x12345678 5 ||| rotl 0x12345678 7)) 22) ∧
      (0x12345678 < 2 ^ 32 ∧ 0 < 5 ∧ 5 < 32 ∧
        rotl 0x12345678 5 = 0x12345678 * 2 ^ 5 % 2 ^ 32 + 0x12345678 / 2 ^ (32 - 5)) :=
  ⟨(sbox_structure 0x12345678).1 _ _ rfl rfl,
    by decide, by decide, by decide,
    (sbox_structure 0x12345678).2.2 5 (by decide) (by decide) (by decide)⟩

/-! ## The cycle step can be undone -/

theorem rotl_one_injective {a b : Nat} (ha : a < 2 ^ 32) (hb : b < 2 ^ 32)
    (h : rotl a 1 = rotl b 1) : a = b := by
  rw [rotl_arith ha (by norm_num) (by norm_num), rotl_arith hb (by norm_num) (by norm_num)] at h
  norm_num at h
  have ea : a * 2 % 4294967296 = 2 * (a % 2147483648) := by omega
  have eb : b * 2 % 4294967296 = 2 * (b % 2147483648) := by omega
  rw [ea, eb] at h
  have ha' : a / 2147483648 < 2 := by
    rw [Nat.div_lt_iff_lt_mul (by norm_num)]
    calc a < 2 ^ 32 := ha
      _ = 2 * 2147483648 := by norm_num
  have hb' : b / 2147483648 < 2 := by
    rw [Nat.div_lt_iff_lt_mul (by norm_num)]
    calc b < 2 ^ 32 := hb
      _ = 2 * 2147483648 := by norm_num
  have da := Nat.div_add_mod a 2147483648
  have db := Nat.div_add_mod b 2147483648
  generalize a / 2147483648 = qa at h ha' da
  generalize a % 2147483648 = ra at h da
  generalize b / 2147483648 = qb at h hb' db
  generalize b % 2147483648 = rb at h db
  have e1 : qa = qb := by omega
  have e2 : ra = rb := by omega
  rw [← da, ← db, e1, e2]

theorem xor_left_cancel {a b c : Nat} (h : a ^^^ b = a ^^^ c) : b = c := by
  have := congrArg (fun x => a ^^^ x) h
  simp only [← Nat.xor_assoc, Nat.xor_self, Nat.zero_xor] at this
  exact this

theorem xor_right_cancel {a b c : Nat} (h : b ^^^ a = c ^^^ a) : b = c := by
  rw [Nat.xor_comm b, Nat.xor_comm c] at h
  exact xor_left_cancel h

theorem cycleReg_injective {k : Nat} {r1 r2 : List Nat} (h1 : r1.length = 16)
    (h2 : r2.length = 16) (hw1 : IsWords r1) (hw2 : IsWords r2)
    (h : cycleReg k r1 = cycleReg k r2) : r1 = r2 := by
  obtain ⟨a0, a1, a2, a3, a4, a5, a6, a7, a8, a9, a10, a11, a12, a13, a14, a15, rfl⟩ := list16 h1
  obtain ⟨b0, b1, b2, b3, b4, b5, b6, b7, b8, b9, b10, b11, b12, b13, b14, b15, rfl⟩ := list16 h2
  rw [cycleReg_explicit, cycleReg_explicit] at h
  simp only [List.cons.injEq, and_true] at h
  obtain ⟨e0, e2, e3, e4, e5, e6, e7, e8, e9, e10, e11, e12, e13, e14, e15, et⟩ := h
  subst e2 e3 e4 e5 e6 e7 e8 e9 e10 e11 e12 e13 e14 e15
  have hr : rotl a0 1 = rotl b0 1 := xor_left_cancel et
  have h0 : a0 = b0 :=
    rotl_one_injective (hw1 a0 (List.mem_cons_self _ _)) (hw2 b0 (List.mem_cons_self _ _)) hr
  subst h0
  have h1' : a1 = b1 := xor_right_cancel e0
  subst h1'
  rfl

/-- C19. The cycle step is invertible on the register for a fixed `konst`:
for any two well-typed states with 16-word registers and the same `konst`,
if `cycle` returns the same register from both, the two registers were equal
before the step; the same holds for any number of successive cycles, so for
`diffuse`. -/
theorem cycle_invertible (s1 s2 : Shannon) (h1 : s1.r.length = 16) (h2 : s2.r.length = 16)
    (hw1 : IsWords s1.r) (hw2 : IsWords s2.r) (hk : s1.konst = s2.konst)
    (hk32 : s1.konst < 2 ^ 32) :
    (∀ t1 t2, cycle s1 = some t1 → cycle s2 = some t2 → t1.r = t2.r → s1.r = s2.r) ∧
    (∀ t1 t2, diffuse s1 = some t1 → diffuse s2 = some t2 → t1.r = t2.r → s1.r = s2.r) := by
  have step : ∀ u1 u2 : Shannon, u1.r.length = 16 → u2.r.length = 16 → IsWords u1.r →
      IsWords u2.r → u1.konst = u2.konst → (cycleT u1).r = (cycleT u2).r → u1.r = u2.r := by
    intro u1 u2 g1 g2 gw1 gw2 gk h
    have h' : cycleReg u1.konst u1.r = cycleReg u1.konst u2.r := by
      have : cycleReg u1.konst u1.r = cycleReg u2.konst u2.r := h
      rw [this, gk]
    exact cycleReg_injective g1 g2 gw1 gw2 h'
  have iter : ∀ (k : Nat) (u1 u2 : Shannon), u1.r.length = 16 → u2.r.length = 16 →
      IsWords u1.r → IsWords u2.r → u1.konst = u2.konst → u1.konst < 2 ^ 32 →
      (cyclesT k u1).r = (cyclesT k u2).r → u1.r = u2.r := by
    intro k
    induction k with
    | zero =>
      intro u1 u2 _ _ _ _ _ _ h
      rw [cyclesT_zero, cyclesT_zero] at h
      exact h
    | succ k ih =>
      intro u1 u2 g1 g2 gw1 gw2 gk gk32 h
      rw [cyclesT_succ, cyclesT_succ] at h
      have := ih (cycleT u1) (cycleT u2) (length_cycleReg _ g1) (length_cycleReg _ g2)
        (isWords_cycleReg gw1 gk32) (isWords_cycleReg gw2 (gk ▸ gk32)) gk gk32 h
      exact step u1 u2 g1 g2 gw1 gw2 gk this
  constructor
  · intro t1 t2 e1 e2 h
    rw [cycle_eq h1] at e1
    rw [cycle_eq h2] at e2
    injection e1 with e1
    injection e2 with e2
    rw [← e1, ← e2] at h
    exact step s1 s2 h1 h2 hw1 hw2 hk h
  · intro t1 t2 e1 e2 h
    unfold diffuse fold at e1 e2
    simp only [n] at e1 e2
    rw [cycles_eq 16 _ h1] at e1
    rw [cycles_eq 16 _ h2] at e2
    injection e1 with e1
    injection e2 with e2
    rw [← e1, ← e2] at h
    exact iter 16 s1 s2 h1 h2 hw1 hw2 hk hk32 h

theorem cycle_invertible_witness :
    seedState.r.length = 16 ∧ IsWords seedState.r ∧ seedState.konst < 2 ^ 32 ∧
      cycle seedState = some (cycleT seedState) ∧
      cycle { seedState with mbuf := 5 } = some (cycleT { seedState with mbuf := 5 }) ∧
      seedState.r = ({ seedState with mbuf := 5 } : Shannon).r :=
  ⟨by decide, by decide, by decide, cycle_eq (by decide), cycle_eq (by decide),
    (cycle_invertible seedState { seedState with mbuf := 5 } (by decide) (by decide)
      (by decide) (by decide) rfl (by decide)).1 _ _ (cycle_eq (by decide))
      (cycle_eq (by decide)) rfl⟩

/-- C20, evaluated at a failing input. At `w = 0` the mixing functions of
package `shannon` return `20` and `4`, those of package `go_shannon` return
`0` and `0`. -/
theorem sibling_sbox_differs :
    Sibling.sbox1 0 = 20 ∧ sbox1 0 = 0 ∧ Sibling.sbox2 0 = 4 ∧ sbox2 0 = 0 := by
  decide

set_option maxHeartbeats 100000

/-! ## `chunkBytes` for any chunk size -/

theorem chunkList_nil (size fuel : Nat) : chunkList size fuel [] = [] := by
  cases fuel <;> rfl

theorem chunkList_cons (size fuel : Nat) {l : List Nat} (h : l ≠ []) :
    chunkList size (fuel + 1) l = l.take size :: chunkList size fuel (l.drop size) := by
  cases l with
  | nil => exact absurd rfl h
  | cons x xs => rfl

theorem chunkLoop_general (data : List Nat) {size : Nat} (hs : 1 ≤ size) :
    ∀ (fuel s : Nat), data.length ≤ s + fuel →
      chunkLoop data size fuel s = some (chunkList size fuel (data.drop s)) := by
  intro fuel
  induction fuel with
  | zero =>
    intro s h
    have h1 : ¬ s < data.length := by omega
    simp [chunkLoop, h1, chunkList]
  | succ fuel ih =>
    intro s h
    by_cases h1 : s < data.length
    · have hne : data.drop s ≠ [] := by
        intro h2
        have := congrArg List.length h2
        simp at this
        omega
      have h2 : (data.drop s).take ((if s + size > data.length then data.length else s + size) - s)
          = (data.drop s).take size := by
        split
        · rw [List.take_of_length_le (by simp), List.take_of_length_le (by simp; omega)]
        · simp
      simp only [chunkLoop, h1, if_true, h2]
      rw [ih (s + size) (by omega), chunkList_cons size fuel hne, List.drop_drop]
      simp [Nat.add_comm]
    · simp [chunkLoop, h1, List.drop_eq_nil_of_le (by omega : data.length ≤ s), chunkList_nil]

theorem chunkBytes_general (data : List Nat) {size : Nat} (hs : 1 ≤ size) :
    chunkBytes data size = some (chunkList size data.length data) := by
  have h := chunkLoop_general data hs data.length 0 (by omega)
  simpa [chunkBytes] using h

theorem chunkList_props {size : Nat} (hs : 1 ≤ size) : ∀ (fuel : Nat) (l : List Nat),
    l.length ≤ fuel →
      (chunkList size fuel l).flatten = l ∧
      (chunkList size fuel l).length = (l.length + size - 1) / size ∧
      (∀ c ∈ (chunkList size fuel l).dropLast, c.length = size) ∧
      (∀ c ∈ chunkList size fuel l, 1 ≤ c.length ∧ c.length ≤ size) := by
  intro fuel
  induction fuel with
  | zero =>
    intro l h
    have : l = [] := List.length_eq_zero.mp (by omega)
    subst this
    refine ⟨rfl, ?_, by simp [chunkList], by simp [chunkList]⟩
    simp only [chunkList, List.length_nil, Nat.zero_add]
    exact (Nat.div_eq_of_lt (by omega)).symm
  | succ fuel ih =>
    intro l h
    by_cases hl : l = []
    · subst hl
      refine ⟨rfl, ?_, by simp [chunkList], by simp [chunkList]⟩
      simp only [chunkList, List.length_nil, Nat.zero_add]
      exact (Nat.div_eq_of_lt (by omega)).symm
    · have hpos : 0 < l.length := List.length_pos.mpr hl
      have hd : (l.drop size).length ≤ fuel := by
        rw [List.length_drop]; omega
      obtain ⟨i1, i2, i3, i4⟩ := ih (l.drop size) hd
      rw [chunkList_cons size fuel hl]
      refine ⟨?_, ?_, ?_, ?_⟩
      · rw [List.flatten_cons, i1, List.take_append_drop]
      · rw [List.length_cons, i2, List.length_drop]
        by_cases hle : l.length ≤ size
        · have e1 : l.length - size + size - 1 = size - 1 := by omega
          have e2 : l.length + size - 1 = (l.length - 1) + size := by omega
          rw [e1, e2, Nat.add_div_right _ (by omega), Nat.div_eq_of_lt (by omega : size - 1 < size),
            Nat.div_eq_of_lt (by omega : l.length - 1 < size)]
        · have e2 : l.length + size - 1 = (l.length - size + size - 1) + size := by omega
          rw [e2, Nat.add_div_right _ (by omega)]
      · intro c hc
        by_cases hle : l.length ≤ size
        · have : l.drop size = [] := List.drop_eq_nil_of_le hle
          rw [this, chunkList_nil] at hc
          simp at hc
        · have hne : chunkList size fuel (l.drop size) ≠ [] := by
            intro hn
            have h0 := congrArg List.length hn
            have e2 : (l.drop size).length + size - 1 = (l.length - size - 1) + size := by
              rw [List.length_drop]; omega
            rw [i2, e2, Nat.add_div_right _ (by omega)] at h0
            simp at h0
          rw [List.dropLast_cons_of_ne_nil hne, List.mem_cons] at hc
          rcases hc with hc | hc
          · rw [hc, List.length_take]
            omega
          · exact i3 c hc
      · intro c hc
        rw [List.mem_cons] at hc
        rcases hc with hc | hc
        · rw [hc, List.length_take]
          omega
        · exact i4 c hc

/-- C12. For every byte sequence `data` and every `size ≥ 1`, `chunkBytes data
size` returns `⌈len(data) / size⌉` chunks whose concatenation in order is
`data`; every chunk except the last has exactly `size` bytes, every chunk (so
also the last) has between `1` and `size` bytes, and empty data yields no
chunks. -/
theorem chunkBytes_partition (data : List Nat) (size : Nat) (hs : 1 ≤ size) :
    ∃ chunks, chunkBytes data size = some chunks ∧
      chunks.length = (data.length + size - 1) / size ∧
      chunks.flatten = data ∧
      (∀ c ∈ chunks.dropLast, c.length = size) ∧
      (∀ c ∈ chunks, 1 ≤ c.length ∧ c.length ≤ size) ∧
      (data = [] → chunks = []) := by
  obtain ⟨h1, h2, h3, h4⟩ := chunkList_props hs data.length data (Nat.le_refl _)
  refine ⟨_, chunkBytes_general data hs, h2, h1, h3, h4, ?_⟩
  intro h
  subst h
  rfl

theorem chunkBytes_partition_witness :
    1 ≤ 4 ∧ ∃ chunks, chunkBytes [1, 2, 3, 4, 5, 6, 7, 8, 9] 4 = some chunks ∧
      chunks.length = ([1, 2, 3, 4, 5, 6, 7, 8, 9].length + 4 - 1) / 4 ∧
      chunks.flatten = [1, 2, 3, 4, 5, 6, 7, 8, 9] ∧
      (∀ c ∈ chunks.dropLast, c.length = 4) ∧
      (∀ c ∈ chunks, 1 ≤ c.length ∧ c.length ≤ 4) ∧
      ([1, 2, 3, 4, 5, 6, 7, 8, 9] = [] → chunks = []) :=
  ⟨by decide, chunkBytes_partition [1, 2, 3, 4, 5, 6, 7, 8, 9] 4 (by decide)⟩

set_option maxRecDepth 100000 in
/-- C16, evaluated at a failing input. On a fresh engine keyed `[0]`/`[0]`,
`Encrypt [1, 2, 3, 4, 5]` leaves 24 pending bits. A following `Encrypt [7]`
(one byte, fewer than the three missing) changes `r[13]` and shifts `crc` by one
word; a following `Encrypt [7, 8, 9]` instead shifts `crc` by three words, one
per byte, and leaves 8 pending bits. The lists hold `nbuf` and `r[13]` before
the second call, then `nbuf`, `mbuf` and `r[13]` after it (first part), and
`nbuf` before and after it (second part). -/
theorem pending_bytes_mac_each_byte :
    (freshEngine [0] [0]).bind (fun e => (Encrypt e [1, 2, 3, 4, 5]).bind (fun p =>
        (Encrypt p.1 [7]).map (fun q =>
          ([p.1.nbuf, p.1.r.getD 13 0, q.1.nbuf, q.1.mbuf, q.1.r.getD 13 0],
            q.1.crc.take 15 == p.1.crc.drop 1, q.1.crc.drop 15)))) =
        some ([24, 3842262055, 16, 1797, 3842261794], true, [3270551832]) ∧
      (freshEngine [0] [0]).bind (fun e => (Encrypt e [1, 2, 3, 4, 5]).bind (fun p =>
        (Encrypt p.1 [7, 8, 9]).map (fun q =>
          ([p.1.nbuf, q.1.nbuf], q.1.crc.take 13 == p.1.crc.drop 3, q.1.crc.drop 13)))) =
        some ([24, 8], true, [3270551832, 1768615793, 4253630010]) := by
  decide

set_option maxHeartbeats 100000

/-! ## Word-aligned streaming -/

theorem cycle_nbuf (s : Shannon) : ∀ s', cycle s = some s' → s'.nbuf = s.nbuf := by
  unfold cycle
  simp only [Option.bind_eq_bind]
  repeat (refine bind_some_elim ?_; intro _ _)
  intro s' h
  injection h with h
  rw [← h]

theorem crcFunc_nbuf (s : Shannon) (i : Nat) :
    ∀ s', crcFunc s i = some s' → s'.nbuf = s.nbuf := by
  unfold crcFunc
  simp only [Option.bind_eq_bind]
  repeat (refine bind_some_elim ?_; intro _ _)
  intro s' h
  injection h with h
  rw [← h]

theorem xorKeyp_nbuf (s : Shannon) (v : Nat) :
    ∀ s', xorKeyp s v = some s' → s'.nbuf = s.nbuf := by
  unfold xorKeyp
  simp only [Option.bind_eq_bind]
  repeat (refine bind_some_elim ?_; intro _ _)
  intro s' h
  injection h with h
  rw [← h]

theorem macFunc_nbuf (s : Shannon) (i : Nat) :
    ∀ s', macFunc s i = some s' → s'.nbuf = s.nbuf := by
  unfold macFunc
  simp only [Option.bind_eq_bind]
  refine bind_some_elim ?_
  intro s1 h1 s' h2
  exact (xorKeyp_nbuf s1 i s' h2).trans (crcFunc_nbuf s i s1 h1)

theorem encryptWord_nbuf : ∀ s t p, encryptWord s t = some p → p.1.nbuf = s.nbuf := by
  intro s t
  unfold encryptWord
  simp only [Option.bind_eq_bind]
  refine bind_some_elim ?_
  intro s1 h1 p h
  injection h with h
  rw [← h]
  exact macFunc_nbuf s t s1 h1

theorem decryptWord_nbuf : ∀ s t p, decryptWord s t = some p → p.1.nbuf = s.nbuf := by
  intro s t
  unfold decryptWord
  simp only [Option.bind_eq_bind]
  refine bind_some_elim ?_
  intro s1 h1 p h
  injection h with h
  rw [← h]
  exact macFunc_nbuf s _ s1 h1

theorem wordsLoop_nbuf {wcb : Shannon → Nat → Option (Shannon × Nat)}
    (hw : ∀ s t p, wcb s t = some p → p.1.nbuf = s.nbuf) :
    ∀ (ws : List (List Nat)) (s : Shannon) (p : Shannon × List Nat),
    wordsLoop wcb s ws = some p → p.1.nbuf = s.nbuf := by
  intro ws
  induction ws with
  | nil =>
    intro s p h
    injection h with h
    rw [← h]
  | cons w ws ih =>
    intro s
    simp only [wordsLoop, Option.bind_eq_bind]
    refine bind_some_elim ?_
    intro s1 h1
    refine bind_some_elim ?_
    intro t _
    refine bind_some_elim ?_
    intro q hq
    refine bind_some_elim ?_
    intro word _
    refine bind_some_elim ?_
    intro q2 hq2 p h
    injection h with h
    rw [← h]
    show q2.1.nbuf = s.nbuf
    rw [ih q.1 q2 hq2, hw s1 t q hq, cycle_nbuf s s1 h1]

/-- The whole-word loop over two chunk lists in a row. -/
theorem wordsLoop_append (wcb : Shannon → Nat → Option (Shannon × Nat)) :
    ∀ (ws vs : List (List Nat)) (s : Shannon),
    wordsLoop wcb s (ws ++ vs) = (wordsLoop wcb s ws).bind (fun p =>
      (wordsLoop wcb p.1 vs).map (fun q => (q.1, p.2 ++ q.2))) := by
  intro ws vs
  induction ws with
  | nil =>
    intro s
    cases h : wordsLoop wcb s vs with
    | none => simp [wordsLoop, h]
    | some q => simp [wordsLoop, h]
  | cons w ws ih =>
    intro s
    simp only [List.cons_append, wordsLoop, Option.bind_eq_bind]
    cases cycle s with
    | none => rfl
    | some s1 =>
      simp only [Option.some_bind]
      cases readLittleEndian w with
      | none => rfl
      | some t =>
        simp only [Option.some_bind]
        cases wcb s1 t with
        | none => rfl
        | some q =>
          simp only [Option.some_bind]
          cases writeLittleEndian w q.2 with
          | none => rfl
          | some word =>
            simp only [Option.some_bind]
            have e := ih q.1
            rw [show ws.append vs = ws ++ vs from rfl, e]
            cases wordsLoop wcb q.1 ws with
            | none => rfl
            | some q2 =>
              simp only [Option.some_bind]
              cases wordsLoop wcb q2.1 vs with
              | none => rfl
              | some q3 => simp [List.append_assoc]

theorem chunks4_append_aligned (l : List Nat) : ∀ (k : Nat) (P : List Nat), P.length = 4 * k →
    chunks4 (P ++ l) = chunks4 P ++ chunks4 l := by
  refine list4_induction ?_ ?_
  · rfl
  · intro a b c d rest ih
    simp [chunks4, ih]

/-- For a word-aligned state, `process` on `P1 ++ P2` with `len(P1)` a multiple
of 4 is `process` on `P1` followed by `process` on `P2`. -/
theorem process_append_aligned {wcb : Shannon → Nat → Option (Shannon × Nat)}
    (bcb : Shannon → Nat → Shannon × Nat)
    (hw : ∀ s t p, wcb s t = some p → p.1.nbuf = s.nbuf)
    {s : Shannon} (h0 : s.nbuf = 0) {P1 : List Nat} (P2 : List Nat) (h4 : P1.length % 4 = 0) :
    process s (P1 ++ P2) wcb bcb = (process s P1 wcb bcb).bind (fun p =>
      (process p.1 P2 wcb bcb).map (fun q => (q.1, p.2 ++ q.2))) := by
  have hk : P1.length = 4 * (P1.length / 4) := by omega
  have hlen : 4 * ((P1 ++ P2).length / 4) = P1.length + 4 * (P2.length / 4) := by
    rw [List.length_append]; omega
  have ht : (P1 ++ P2).take (4 * ((P1 ++ P2).length / 4)) = P1 ++ P2.take (4 * (P2.length / 4)) := by
    rw [hlen, List.take_append]
  have hd : (P1 ++ P2).drop (4 * ((P1 ++ P2).length / 4)) = P2.drop (4 * (P2.length / 4)) := by
    rw [hlen, List.drop_append]
  have ht1 : P1.take (4 * (P1.length / 4)) = P1 := by
    rw [← hk]; exact List.take_length _
  have hd1 : P1.drop (4 * (P1.length / 4)) = [] := by
    rw [← hk]; exact List.drop_length _
  rw [process_aligned (P1 ++ P2) wcb bcb h0, process_aligned P1 wcb bcb h0, ht, hd, ht1, hd1,
    chunks4_append_aligned _ _ P1 hk, wordsLoop_append]
  cases h1 : wordsLoop wcb s (chunks4 P1) with
  | none => rfl
  | some p =>
    have hn : p.1.nbuf = 0 := (wordsLoop_nbuf hw _ s p h1).trans h0
    simp only [Option.some_bind, List.length_nil, gt_iff_lt, Nat.lt_irrefl, if_false,
      List.append_nil]
    rw [process_aligned P2 wcb bcb hn]
    cases wordsLoop wcb p.1 (chunks4 (P2.take (4 * (P2.length / 4)))) with
    | none => rfl
    | some q =>
      simp only [Option.map_some', Option.some_bind]
      split
      · cases cycle q.1 with
        | none => rfl
        | some s1 => simp [List.append_assoc]
      · simp [List.append_assoc]

theorem process_nil (s : Shannon) (wcb : Shannon → Nat → Option (Shannon × Nat))
    (bcb : Shannon → Nat → Shannon × Nat) : process s [] wcb bcb = some (s, []) := by
  by_cases h0 : s.nbuf = 0
  · rw [process_aligned [] wcb bcb h0]
    rfl
  · rw [process_pending [] wcb bcb h0, pendingLoop_nil]
    have : s.nbuf > 0 := Nat.pos_of_ne_zero h0
    simp [this]

/-- C17. For every engine state with `nbuf = 0`, every `P1` whose length is a
multiple of 4 and every `P2`: one `Encrypt` call on `P1 ++ P2` is `Encrypt` on
`P1` followed by `Encrypt` on `P2` (same final state, outputs concatenated), and
the same for `Decrypt`; on 16-word registers the calls return. `Encrypt` and
`Decrypt` on an empty buffer return the state unchanged. -/
theorem aligned_streaming (s : Shannon) (P1 P2 : List Nat) (h0 : s.nbuf = 0)
    (h4 : P1.length % 4 = 0) :
    Encrypt s (P1 ++ P2) = (Encrypt s P1).bind (fun p =>
        (Encrypt p.1 P2).map (fun q => (q.1, p.2 ++ q.2))) ∧
      Decrypt s (P1 ++ P2) = (Decrypt s P1).bind (fun p =>
        (Decrypt p.1 P2).map (fun q => (q.1, p.2 ++ q.2))) ∧
      (Len16 s → ∃ s' C, Encrypt s (P1 ++ P2) = some (s', C) ∧ C.length = (P1 ++ P2).length) ∧
      (Len16 s → ∃ s' C, Decrypt s (P1 ++ P2) = some (s', C) ∧ C.length = (P1 ++ P2).length) ∧
      Encrypt s [] = some (s, []) ∧ Decrypt s [] = some (s, []) := by
  refine ⟨process_append_aligned encryptByte encryptWord_nbuf h0 P2 h4,
    process_append_aligned decryptByte decryptWord_nbuf h0 P2 h4, ?_, ?_,
    process_nil s _ _, process_nil s _ _⟩
  · intro hl
    obtain ⟨s', C, e, _, _, hc⟩ :=
      process_total_aligned wordFrame_encrypt byteFrame_encrypt hl h0 (P1 ++ P2)
    exact ⟨s', C, e, hc⟩
  · intro hl
    obtain ⟨s', C, e, _, _, hc⟩ :=
      process_total_aligned wordFrame_decrypt byteFrame_decrypt hl h0 (P1 ++ P2)
    exact ⟨s', C, e, hc⟩

set_option maxRecDepth 100000 in
theorem aligned_streaming_witness :
    seedState.nbuf = 0 ∧ [1, 2, 3, 4].length % 4 = 0 ∧ Len16 seedState ∧
      Encrypt seedState ([1, 2, 3, 4] ++ [5, 6]) = (Encrypt seedState [1, 2, 3, 4]).bind (fun p =>
        (Encrypt p.1 [5, 6]).map (fun q => (q.1, p.2 ++ q.2))) ∧
      Decrypt seedState ([1, 2, 3, 4] ++ [5, 6]) = (Decrypt seedState [1, 2, 3, 4]).bind (fun p =>
        (Decrypt p.1 [5, 6]).map (fun q => (q.1, p.2 ++ q.2))) ∧
      (Len16 seedState → ∃ s' C, Encrypt seedState ([1, 2, 3, 4] ++ [5, 6]) = some (s', C) ∧
        C.length = ([1, 2, 3, 4] ++ [5, 6]).length) ∧
      (Len16 seedState → ∃ s' C, Decrypt seedState ([1, 2, 3, 4] ++ [5, 6]) = some (s', C) ∧
        C.length = ([1, 2, 3, 4] ++ [5, 6]).length) ∧
      Encrypt seedState [] = some (seedState, []) ∧ Decrypt seedState [] = some (seedState, []) :=
  ⟨by decide, by decide, by decide,
    aligned_streaming seedState [1, 2, 3, 4] [5, 6] (by decide) (by decide)⟩

set_option maxHeartbeats 100000

/-! ## Prefixes of the ciphertext -/

theorem xor_byte (x w j : Nat) :
    (x ^^^ w) / 2 ^ j % 2 ^ 8 = (x / 2 ^ j % 2 ^ 8) ^^^ (w / 2 ^ j % 2 ^ 8) := by
  apply Nat.eq_of_testBit_eq
  intro i
  simp only [← Nat.shiftRight_eq_div_pow, Nat.testBit_mod_two_pow, Nat.testBit_xor,
    Nat.testBit_shiftRight]
  by_cases h : i < 8 <;> simp [h]

/-- The bytes of a full word after `Encrypt`: each plaintext byte XOR the byte
of `w` at the same position. -/
theorem leBytes_xor {a b c d : Nat} (ha : a < 256) (hb : b < 256) (hc : c < 256)
    (hd : d < 256) (w : Nat) :
    leBytes (leWord a b c d ^^^ w) =
      [a ^^^ w % 256, b ^^^ w / 256 % 256, c ^^^ w / 65536 % 256, d ^^^ w / 16777216 % 256] := by
  have h := leBytes_leWord ha hb hc hd
  rw [leBytes_arith] at h
  injection h with h1 h
  injection h with h2 h
  injection h with h3 h
  injection h with h4 _
  have e0 := xor_byte (leWord a b c d) w 0
  have e1 := xor_byte (leWord a b c d) w 8
  have e2 := xor_byte (leWord a b c d) w 16
  have e3 := xor_byte (leWord a b c d) w 24
  norm_num at e0 e1 e2 e3
  rw [leBytes_arith, e0, e1, e2, e3, h1, h2, h3, h4]

/-- The trailing-byte loop of `Encrypt` on four bytes, started with 32 pending
bits, writes the bytes a full word gets. -/
theorem extraLoop_four (s : Shannon) {a b c d : Nat} (ha : a < 256) (hb : b < 256)
    (hc : c < 256) (hd : d < 256) (m : Nat) :
    (extraLoop encryptByte { { s with mbuf := m } with nbuf := 32 } [a, b, c, d]).2 =
      leBytes (leWord a b c d ^^^ s.sbuf) := by
  have u0 : usub 32 32 = 0 := by decide
  have u1 : usub 32 8 = 24 := by decide
  have u2 : usub 32 24 = 8 := by decide
  have u3 : usub 24 8 = 16 := by decide
  have u4 : usub 32 16 = 16 := by decide
  have u5 : usub 16 8 = 8 := by decide
  have u6 : usub 8 8 = 0 := by decide
  have v0 : ∀ x, shr32 x 0 = x := fun x => by simp [shr32]
  have v1 : ∀ x, shr32 x 16 = x / 65536 := fun x => by
    simp [shr32, Nat.shiftRight_eq_div_pow]
  have v2 : ∀ x, shr32 x 24 = x / 16777216 := fun x => by
    simp [shr32, Nat.shiftRight_eq_div_pow]
  rw [leBytes_xor ha hb hc hd]
  simp only [extraLoop, encryptByte, u0, u1, u2, u3, u4, u5, u6, v0, v1, v2, shr32_8, and_ff,
    toByte, Nat.mod_mod]

/-- The trailing-byte loop writes a prefix of what it writes on a longer buffer. -/
theorem extraLoop_take (bcb : Shannon → Nat → Shannon × Nat) : ∀ (X Y : List Nat)
    (s : Shannon), (extraLoop bcb s (X ++ Y)).2.take X.length = (extraLoop bcb s X).2 := by
  intro X
  induction X with
  | nil => intro Y s; rfl
  | cons b X ih =>
    intro Y s
    rw [List.cons_append, extraLoop_cons, extraLoop_cons]
    simp only [List.length_cons, List.take_succ_cons]
    rw [ih]

set_option maxHeartbeats 100000

/-- `Encrypt` on one to three bytes from a word-aligned state: one `cycle`,
then the trailing-byte loop. -/
theorem Encrypt_short {s : Shannon} (hl : Len16 s) (h0 : s.nbuf = 0) {X : List Nat}
    (hne : X ≠ []) (h3 : X.length < 4) :
    Encrypt s X =
      some ((extraLoop encryptByte { { cycleT s with mbuf := 0 } with nbuf := 32 } X).1,
        (extraLoop encryptByte { { cycleT s with mbuf := 0 } with nbuf := 32 } X).2) := by
  have hk : X.length / 4 = 0 := by omega
  have hp : X.length > 0 := List.length_pos.mpr hne
  unfold Encrypt
  rw [process_aligned X _ _ h0, hk]
  simp only [Nat.mul_zero, List.take_zero, List.drop_zero, chunks4, wordsLoop, Option.some_bind,
    hp, if_true, cycle_eq hl.1, List.nil_append]

/-- `Encrypt` on one full word from a word-aligned state. -/
theorem Encrypt_word {s : Shannon} (hl : Len16 s) (h0 : s.nbuf = 0) (a b c d : Nat) :
    Encrypt s [a, b, c, d] =
      some (macT (cycleT s) (leWord a b c d), leBytes (leWord a b c d ^^^ (cycleT s).sbuf)) := by
  have hk : [a, b, c, d].length / 4 = 1 := by simp
  unfold Encrypt
  rw [process_aligned [a, b, c, d] _ _ h0, hk]
  simp only [Nat.mul_one, List.take_succ_cons, List.take_zero, List.drop_succ_cons, List.drop_zero,
    chunks4, wordsLoop, Option.bind_eq_bind, cycle_eq hl.1, Option.some_bind,
    readLittleEndian_four, encryptWord_eq _ (len16_cycleT hl), writeLittleEndian_four,
    List.length_nil, gt_iff_lt, Nat.lt_irrefl, if_false, List.append_nil]

theorem Encrypt_prefix_short {s : Shannon} (hl : Len16 s) (h0 : s.nbuf = 0) {X Q : List Nat}
    (hX : IsBytes X) (hQ : IsBytes Q) (h3 : X.length < 4) :
    ∃ t1 t2 C1 C2, Encrypt s X = some (t1, C1) ∧ Encrypt s (X ++ Q) = some (t2, C2) ∧
      C1 = C2.take X.length := by
  by_cases hne : X = []
  · subst hne
    obtain ⟨t2, C2, e2, _⟩ :=
      process_total_aligned wordFrame_encrypt byteFrame_encrypt hl h0 Q
    exact ⟨s, t2, [], C2, process_nil s _ _, e2, by simp⟩
  · by_cases hlen : (X ++ Q).length < 4
    · have hne2 : X ++ Q ≠ [] := by simp [hne]
      exact ⟨_, _, _, _, Encrypt_short hl h0 hne h3, Encrypt_short hl h0 hne2 hlen,
        (extraLoop_take encryptByte X Q _).symm⟩
    · have hex : ∃ a b c d R, X ++ Q = a :: b :: c :: d :: R := by
        match h : X ++ Q with
        | [] => rw [h] at hlen; simp at hlen
        | [_] => rw [h] at hlen; simp at hlen
        | [_, _] => rw [h] at hlen; simp at hlen
        | [_, _, _] => rw [h] at hlen; simp at hlen
        | a :: b :: c :: d :: R => exact ⟨a, b, c, d, R, rfl⟩
      obtain ⟨a, b, c, d, R, hxq⟩ := hex
      rw [hxq]
      · have hB : IsBytes (a :: b :: c :: d :: R) := by
          rw [← hxq]; exact isBytes_append.mpr ⟨hX, hQ⟩
        obtain ⟨ha, hB⟩ := isBytes_cons.mp hB
        obtain ⟨hb, hB⟩ := isBytes_cons.mp hB
        obtain ⟨hc, hB⟩ := isBytes_cons.mp hB
        obtain ⟨hd, hB⟩ := isBytes_cons.mp hB
        have hl1 : Len16 (macT (cycleT s) (leWord a b c d)) := len16_macT _ (len16_cycleT hl)
        have h01 : (macT (cycleT s) (leWord a b c d)).nbuf = 0 := h0
        obtain ⟨t2, C2, e2, _⟩ :=
          process_total_aligned wordFrame_encrypt byteFrame_encrypt hl1 h01 R
        have e : Encrypt s (a :: b :: c :: d :: R) =
            some (t2, leBytes (leWord a b c d ^^^ (cycleT s).sbuf) ++ C2) := by
          have e3 := @process_append_aligned encryptWord encryptByte encryptWord_nbuf s h0
            [a, b, c, d] R (by simp)
          have e4 := Encrypt_word hl h0 a b c d
          unfold Encrypt at e4
          unfold Encrypt
          rw [show a :: b :: c :: d :: R = [a, b, c, d] ++ R from rfl, e3, e4, Option.some_bind,
            e2]
          rfl
        have hXt : X = [a, b, c, d].take X.length := by
          have h1 : X = (X ++ Q).take X.length := by simp
          rw [hxq] at h1
          have h2 : X.length ≤ [a, b, c, d].length := by simp; omega
          exact h1.trans (@List.take_append_of_le_length _ [a, b, c, d] R X.length h2)
        have hsplit : [a, b, c, d] = X ++ [a, b, c, d].drop X.length := by
          conv_lhs => rw [← List.take_append_drop X.length [a, b, c, d]]
          rw [← hXt]
        refine ⟨_, t2, _, _, Encrypt_short hl h0 hne h3, e, ?_⟩
        rw [List.take_append_of_le_length (by rw [leBytes_length]; omega),
          ← extraLoop_four (cycleT s) ha hb hc hd 0]
        have hp := extraLoop_take encryptByte X ([a, b, c, d].drop X.length)
          { { cycleT s with mbuf := 0 } with nbuf := 32 }
        rw [← hsplit] at hp
        exact hp.symm

theorem process_words_nbuf {wcb : Shannon → Nat → Option (Shannon × Nat)}
    (bcb : Shannon → Nat → Shannon × Nat)
    (hw : ∀ s t p, wcb s t = some p → p.1.nbuf = s.nbuf)
    {s : Shannon} (h0 : s.nbuf = 0) {W : List Nat} (h4 : W.length % 4 = 0) :
    ∀ p, process s W wcb bcb = some p → p.1.nbuf = 0 := by
  have hk : W.length = 4 * (W.length / 4) := by omega
  have hd1 : W.drop (4 * (W.length / 4)) = [] := by
    rw [← hk]; exact List.drop_length _
  rw [process_aligned W wcb bcb h0, hd1]
  refine bind_some_elim ?_
  intro q hq p h
  simp only [List.length_nil, gt_iff_lt, Nat.lt_irrefl, if_false] at h
  injection h with h
  rw [← h]
  exact (wordsLoop_nbuf hw _ s q hq).trans h0

/-- C18. From a state with 16-word registers and `nbuf = 0`, for all byte
sequences `P` and `Q`: `Encrypt` on `P` and `Encrypt` on `P ++ Q` both return,
and the ciphertext of `P` (which has `len(P)` bytes) is the first `len(P)` bytes
of the ciphertext of `P ++ Q`. -/
theorem ciphertext_extends (s : Shannon) (P Q : List Nat) (hl : Len16 s) (h0 : s.nbuf = 0)
    (hP : IsBytes P) (hQ : IsBytes Q) :
    ∃ s1 s2 C1 C2, Encrypt s P = some (s1, C1) ∧ Encrypt s (P ++ Q) = some (s2, C2) ∧
      C1.length = P.length ∧ C1 = C2.take P.length := by
  have hsplit : P.take (4 * (P.length / 4)) ++ P.drop (4 * (P.length / 4)) = P :=
    List.take_append_drop _ _
  have hWl := take_words_length P
  have hW4 : (P.take (4 * (P.length / 4))).length % 4 = 0 := by rw [hWl]; omega
  have hXl : (P.drop (4 * (P.length / 4))).length < 4 := by
    rw [List.length_drop]; omega
  have hPb := hP
  rw [← hsplit] at hPb
  obtain ⟨_, hX⟩ := isBytes_append.mp hPb
  obtain ⟨s', CW, eW, hi, _, hCW⟩ :=
    process_total_aligned wordFrame_encrypt byteFrame_encrypt hl h0 (P.take (4 * (P.length / 4)))
  have hn : s'.nbuf = 0 := process_words_nbuf encryptByte encryptWord_nbuf h0 hW4 _ eW
  obtain ⟨t1, t2, C1, C2, e1, e2, e3⟩ := Encrypt_prefix_short hi.1 hn hX hQ hXl
  obtain ⟨sa, Ca, ea, _, _, hCa⟩ :=
    process_total_aligned wordFrame_encrypt byteFrame_encrypt hl h0 P
  have a1 := @process_append_aligned encryptWord encryptByte encryptWord_nbuf s h0
    (P.take (4 * (P.length / 4))) (P.drop (4 * (P.length / 4))) hW4
  have a2 := @process_append_aligned encryptWord encryptByte encryptWord_nbuf s h0
    (P.take (4 * (P.length / 4))) (P.drop (4 * (P.length / 4)) ++ Q) hW4
  unfold Encrypt at e1 e2
  rw [eW, Option.some_bind, e1, hsplit] at a1
  rw [eW, Option.some_bind, e2, ← List.append_assoc, hsplit] at a2
  have hCa2 : Ca = CW ++ C1 := by
    rw [ea] at a1
    simp only [Option.map_some', Option.some.injEq, Prod.mk.injEq] at a1
    exact a1.2
  refine ⟨sa, t2, Ca, CW ++ C2, ea, a2, hCa, ?_⟩
  have hlen : P.length = CW.length + (P.drop (4 * (P.length / 4))).length := by
    rw [hCW, hWl, List.length_drop]; omega
  rw [hCa2, hlen, List.take_append, e3]

set_option maxRecDepth 100000 in
theorem ciphertext_extends_witness :
    Len16 seedState ∧ seedState.nbuf = 0 ∧ IsBytes [1, 2, 3, 4, 5] ∧ IsBytes [6, 7, 8, 9] ∧
      ∃ s1 s2 C1 C2, Encrypt seedState [1, 2, 3, 4, 5] = some (s1, C1) ∧
        Encrypt seedState ([1, 2, 3, 4, 5] ++ [6, 7, 8, 9]) = some (s2, C2) ∧
        C1.length = [1, 2, 3, 4, 5].length ∧ C1 = C2.take [1, 2, 3, 4, 5].length :=
  ⟨by decide, by decide, by decide, by decide,
    ciphertext_extends seedState [1, 2, 3, 4, 5] [6, 7, 8, 9] (by decide) (by decide) (by decide)
      (by decide)⟩

set_option maxHeartbeats 100000

/-! ## Key loading against its specification -/

theorem getD_drop_four (a b c d : Nat) (rest : List Nat) (j : Nat) :
    (a :: b :: c :: d :: rest).getD (j + 4) 0 = rest.getD j 0 := rfl

theorem specKeyWord_shift (a b c d : Nat) (rest : List Nat) (i : Nat) :
    specKeyWord (a :: b :: c :: d :: rest) (i + 1) = specKeyWord rest i := by
  unfold specKeyWord
  have e0 : 4 * (i + 1) = 4 * i + 4 := by omega
  have e1 : 4 * (i + 1) + 1 = 4 * i + 1 + 4 := by omega
  have e2 : 4 * (i + 1) + 2 = 4 * i + 2 + 4 := by omega
  have e3 : 4 * (i + 1) + 3 = 4 * i + 3 + 4 := by omega
  rw [e1, e2, e3, e0]
  simp only [getD_drop_four]

theorem padWord_arith {word : List Nat} (h : IsBytes word) :
    padWord word = word.getD 0 0 + 256 * word.getD 1 0 + 65536 * word.getD 2 0 +
      16777216 * word.getD 3 0 :=
  leWord_arith (isBytes_getD h _) (isBytes_getD h _) (isBytes_getD h _) (isBytes_getD h _)

/-- The words folded in by `loadKey` are the words of the specification. -/
theorem specKeyWords_eq : ∀ (material : List Nat), IsBytes material →
    specKeyWords material = (chunks4 material).map padWord := by
  intro material
  induction material using chunks4.induct with
  | case1 => intro _; rfl
  | case2 a =>
    intro h
    simp only [chunks4, List.map_cons, List.map_nil, padWord_arith h]
    simp [specKeyWords, specKeyWord, List.range_succ]
  | case3 a b =>
    intro h
    simp only [chunks4, List.map_cons, List.map_nil, padWord_arith h]
    simp [specKeyWords, specKeyWord, List.range_succ]
  | case4 a b c =>
    intro h
    simp only [chunks4, List.map_cons, List.map_nil, padWord_arith h]
    simp [specKeyWords, specKeyWord, List.range_succ]
  | case5 a b c d rest ih =>
    intro h
    have h4 : IsBytes [a, b, c, d] := fun x hx => h x (by
      simp only [List.mem_cons, List.mem_singleton, List.not_mem_nil, or_false] at hx
      simp only [List.mem_cons]
      tauto)
    have hr : IsBytes rest := fun x hx => h x (by simp [hx])
    have hlen : ((a :: b :: c :: d :: rest).length + 3) / 4 = (rest.length + 3) / 4 + 1 := by
      simp only [List.length_cons]; omega
    unfold specKeyWords
    rw [hlen, List.range_succ_eq_map, List.map_cons, List.map_map]
    simp only [chunks4, List.map_cons]
    rw [← ih hr, padWord_arith h4]
    unfold specKeyWords
    congr 1

theorem specFoldWords_eq : ∀ (ws : List (List Nat)) (s : Shannon), s.r.length = 16 →
    specFoldWords s (ws.map padWord) = some (loadWordsT s ws) := by
  intro ws
  induction ws with
  | nil => intro s _; rfl
  | cons w ws ih =>
    intro s h
    have hx : (xorKeypT s (padWord w)).r.length = 16 := len16_xorKeypT_r _ h
    simp only [List.map_cons, specFoldWords, xorKeyp_eq _ h, Option.some_bind, cycle_eq hx]
    exact ih _ (length_cycleReg _ hx)

theorem specKeyFolded_eq {s : Shannon} {material : List Nat} (hl : Len16 s)
    (hm : IsBytes material) : specKeyFolded s material = some (loadFoldT s material) := by
  have h1 := len16_loadWordsT (chunks4 material) s hl
  have h2 := len16_xorKeypT (toU32 material.length) h1
  unfold specKeyFolded
  rw [specKeyWords_eq material hm, specFoldWords_eq _ s hl.1, Option.some_bind,
    xorKeyp_eq _ h1.1, Option.some_bind]
  exact cycle_eq h2.1

/-- C15. For every state with 16-word registers and every byte sequence
`material`: folding the 4-byte groups of `material` (little-endian, the last
zero-padded on the right) and then its length into `register[13]`, one cycle
after each, gives a state with register `S`; 16 further cycles give a register
`D`; and `loadKey` returns a state with `crc = S` and register `S XOR D`
element-wise. -/
theorem loadKey_procedure (s : Shannon) (material : List Nat) (hl : Len16 s)
    (hm : IsBytes material) :
    ∃ sS sD s', specKeyFolded s material = some sS ∧ cycles 16 sS = some sD ∧
      loadKey s material = some s' ∧ sS.r.length = 16 ∧ sD.r.length = 16 ∧
      s'.crc = sS.r ∧ s'.r = List.zipWith (fun x y => x ^^^ y) sS.r sD.r := by
  have h3 := len16_loadFoldT material hl
  have hc := cyclesT_congr 16 (loadSnap s material) (loadFoldT s material)
    (loadSnap_fields s material).1 (loadSnap_fields s material).2.2.2.1
    (loadSnap_fields s material).2.2.2.2.1
  refine ⟨loadFoldT s material, cyclesT 16 (loadFoldT s material), loadKeyT s material,
    specKeyFolded_eq hl hm, cycles_eq 16 _ h3.1, loadKey_eq material hl, h3.1,
    (len16_cyclesT 16 _ h3).1, loadKeyT_crc s material, ?_⟩
  rw [loadKeyT_r, (cyclesT_frame 16 (loadSnap s material)).1, (loadSnap_fields s material).2.1,
    hc.1]
  unfold xorRegs
  rw [List.zipWith_comm]
  congr 1
  funext x y
  exact Nat.xor_comm y x

theorem loadKey_procedure_witness :
    Len16 seedState ∧ IsBytes [1, 2, 3, 4, 5] ∧
      ∃ sS sD s', specKeyFolded seedState [1, 2, 3, 4, 5] = some sS ∧ cycles 16 sS = some sD ∧
        loadKey seedState [1, 2, 3, 4, 5] = some s' ∧ sS.r.length = 16 ∧ sD.r.length = 16 ∧
        s'.crc = sS.r ∧ s'.r = List.zipWith (fun x y => x ^^^ y) sS.r sD.r :=
  ⟨by decide, by decide,
    loadKey_procedure seedState [1, 2, 3, 4, 5] (by decide) (by decide)⟩

end GoShannon
